import Mathlib

/-!
Verification of the storage-engine core of the CMU15-445 repository:
the LRU replacer (`src/buffer/lru_replacer.cpp`), the buffer pool manager
(`src/buffer/buffer_pool_manager.cpp`), the B+ tree page operations
(`src/storage/page/b_plus_tree_leaf_page.cpp`,
`src/storage/page/b_plus_tree_internal_page.cpp`) and the B+ tree index
(`src/storage/index/b_plus_tree.cpp`).

Modelling conventions, used throughout:
* C++ `int` page ids are modelled as `Int`, with `INVALID_PAGE_ID = -1`.
* Frame ids are array indices `0 .. pool_size-1`; they are modelled as `Nat`
  inside the buffer pool manager and as `Int` in the standalone replacer
  (`frame_id_t` is an `int` in the source).
* `assert(...)` statements are modelled as no-ops: per the specification's
  error-handling design they abort only in debug builds, and release builds
  execute past them.
* Mutex/latch acquisition is not modelled: every operation of the source
  holds the owning latch for its whole body, so each call is a single atomic
  step of the state machine.
-/

/-! ## LRU replacer (`src/buffer/lru_replacer.cpp`)

The source keeps a `std::list<frame_id_t> list_` together with a
`std::unordered_map map_` from frame id to list iterator.  Every operation
updates both together, so the map's key set always equals the set of list
elements; the model therefore keeps only the list, with the front of the
Lean list playing the role of the C++ list's front.  `map_.find` becomes
list membership.  The list never holds duplicates (an id is pushed only
when absent), so `map_`'s iterator-erase is `List.erase` by value. -/
namespace LRUReplacer

/-- `LRUReplacer::Victim`: if the list is empty return `false` (modelled as
`none`); otherwise return the back element and remove it from list and map. -/
def Victim (l : List Int) : Option (Int × List Int) :=
  match l.getLast? with
  | none => none
  | some f => some (f, l.dropLast)

/-- `LRUReplacer::Pin`: if the frame is tracked, erase it from list and map;
otherwise do nothing. -/
def Pin (l : List Int) (f : Int) : List Int :=
  if f ∈ l then l.erase f else l

/-- `LRUReplacer::Unpin`: if the frame is not tracked, push it to the front
of the list (and record it in the map); if it is already tracked, do
nothing. -/
def Unpin (l : List Int) (f : Int) : List Int :=
  if f ∈ l then l else f :: l

/-- `LRUReplacer::Size`: the number of tracked frames. -/
def Size (l : List Int) : Nat := l.length

/-- A call in a `Pin`/`Unpin` call sequence made against the replacer. -/
inductive ROp
  | pin (f : Int)
  | unpin (f : Int)
deriving DecidableEq

/-- Apply one call to the replacer state. -/
def applyOp (l : List Int) : ROp → List Int
  | .pin f => Pin l f
  | .unpin f => Unpin l f

/-- Replay a call sequence against an initially empty replacer. -/
def replay (ops : List ROp) : List Int := ops.foldl applyOp []

/-- Ghost variant of the state in which every tracked frame is paired with
the index of the call that inserted it (its first-unpin time for the
current tracking episode). -/
def applyOpT (s : List (Int × Nat)) (i : Nat) : ROp → List (Int × Nat)
  | .pin f => if f ∈ s.map Prod.fst then s.eraseP (fun p => p.1 == f) else s
  | .unpin f => if f ∈ s.map Prod.fst then s else (f, i) :: s

/-- Replay with timestamps, starting from state `s` at call index `i`. -/
def replayTAux (s : List (Int × Nat)) (i : Nat) : List ROp → List (Int × Nat)
  | [] => s
  | op :: ops => replayTAux (applyOpT s i op) (i + 1) ops

/-- Replay with timestamps from the empty replacer. -/
def replayT (ops : List ROp) : List (Int × Nat) := replayTAux [] 0 ops

/-- The call index at which tracked frame `f` was (most recently) unpinned
into the replacer. -/
def unpinTime (ops : List ROp) (f : Int) : Nat :=
  (((replayT ops).find? (fun p => p.1 == f)).map Prod.snd).getD 0

/-- Invariant of the ghost state: timestamps strictly decrease from front to
back, every timestamp is below the current call index, and keys are
duplicate-free. -/
def TInv (s : List (Int × Nat)) (i : Nat) : Prop :=
  s.Pairwise (fun a b => b.2 < a.2) ∧ (∀ p ∈ s, p.2 < i) ∧ (s.map Prod.fst).Nodup

end LRUReplacer

/-- `INVALID_PAGE_ID` sentinel (`common/config.h`, value `-1`). -/
def INVALID_PAGE_ID : Int := -1

/-! ## Buffer pool manager (`src/buffer/buffer_pool_manager.cpp`)

State components as in the source: the frame array `pages_`, the
`page_table_` (an `unordered_map` from page id to frame index, modelled as
an association list with replace-or-add insertion), the `free_list_`
(a `std::list` of frame indices, popped from the back), the embedded
`LRUReplacer` (its list, as in the standalone model, with `Nat` frame
indices since every frame id is an array index), and ghost components: the
file manager's allocation counter and the list of `DeallocatePage` calls.

Of each frame only the metadata the source manipulates is modelled
(`page_id_`, `pin_count_`, `is_dirty_`); page data, the disk image, and
the per-frame content hash of `write_disk` are outside the modelled state,
so `DiskManager::ReadPage`/`WritePage` calls have no modelled effect.

Modelled from the spec: the `Page` class and the `DiskManager` are outside
`src/`.  Per spec section 3 a frame starts free with `page_id` equal to
`INVALID_PAGE_ID`, pin count 0 and a clear dirty flag (the `Page` member
initializers), and per the file manager's contract `AllocatePage` hands
out fresh page ids, modelled as a monotone counter. -/
namespace BufferPoolManager

/-- The metadata of one `Page` in a buffer frame. -/
structure Frame where
  pageId : Int
  pinCount : Int
  isDirty : Bool
deriving DecidableEq

/-- The modelled `BufferPoolManager` state. -/
structure BPMState where
  frames : List Frame
  pageTable : List (Int × Nat)
  freeList : List Nat
  replacer : List Nat
  nextAlloc : Int
  deallocated : List Int
deriving DecidableEq

/-- `page_table_.find(p)`. -/
def ptLookup (t : List (Int × Nat)) (p : Int) : Option Nat :=
  (t.find? (fun q => q.1 == p)).map Prod.snd

/-- `page_table_.erase(p)`. -/
def ptErase (t : List (Int × Nat)) (p : Int) : List (Int × Nat) :=
  t.filter (fun q => q.1 != p)

/-- `page_table_[p] = f` (replace-or-add). -/
def ptInsert (t : List (Int × Nat)) (p : Int) (f : Nat) : List (Int × Nat) :=
  (p, f) :: ptErase t p

/-- The default-constructed `Page` metadata (spec section 3). -/
def initFrame : Frame := ⟨-1, 0, false⟩

/-- `pages_ + f`. -/
def frameAt (s : BPMState) (f : Nat) : Frame := s.frames.getD f initFrame

/-- Overwrite frame `f`'s metadata. -/
def setFrame (s : BPMState) (f : Nat) (fr : Frame) : BPMState :=
  { s with frames := s.frames.set f fr }

/-- The embedded replacer's `Victim`. -/
def replacerVictim (l : List Nat) : Option (Nat × List Nat) :=
  match l.getLast? with
  | none => none
  | some f => some (f, l.dropLast)

/-- The embedded replacer's `Pin`. -/
def replacerPin (l : List Nat) (f : Nat) : List Nat :=
  if f ∈ l then l.erase f else l

/-- The embedded replacer's `Unpin`. -/
def replacerUnpin (l : List Nat) (f : Nat) : List Nat :=
  if f ∈ l then l else f :: l

/-- The tail of `FetchPageImpl` from the point where the victim frame `f`
has been obtained: if the frame holds a valid page, erase that page's
table entry (and write it back if dirty — a disk effect outside the
modelled state); read the requested page from disk (no modelled effect),
set `page_id_`, clear the dirty flag, increment the pin count, insert the
page-table entry, and pin the frame in the replacer. -/
def fetchInstall (s : BPMState) (pid : Int) (f : Nat) : BPMState :=
  let s1 := if (frameAt s f).pageId ≠ INVALID_PAGE_ID then
      { s with pageTable := ptErase s.pageTable (frameAt s f).pageId }
    else s
  let fr := frameAt s1 f
  let s2 := setFrame s1 f
    { fr with pageId := pid, isDirty := false, pinCount := fr.pinCount + 1 }
  { s2 with
    pageTable := ptInsert s2.pageTable pid f
    replacer := replacerPin s2.replacer f }

/-- The victim-acquisition path of `FetchPageImpl`: pop the back of the
free list if non-empty, else ask the replacer; on failure return `none`. -/
def fetchMiss (s : BPMState) (pid : Int) : Option Nat × BPMState :=
  match s.freeList.getLast? with
  | some f => (some f, fetchInstall { s with freeList := s.freeList.dropLast } pid f)
  | none =>
      match replacerVictim s.replacer with
      | none => (none, s)
      | some (f, rep) => (some f, fetchInstall { s with replacer := rep } pid f)

/-- `BufferPoolManager::FetchPageImpl`. -/
def FetchPageImpl (s : BPMState) (pid : Int) : Option Nat × BPMState :=
  match ptLookup s.pageTable pid with
  | some f =>
      if (frameAt s f).pageId = pid then
        (some f,
          { setFrame s f { frameAt s f with pinCount := (frameAt s f).pinCount + 1 } with
            replacer := replacerPin s.replacer f })
      else
        fetchMiss { s with pageTable := ptErase s.pageTable pid } pid
  | none => fetchMiss s pid

/-- `BufferPoolManager::UnpinPageImpl`. -/
def UnpinPageImpl (s : BPMState) (pid : Int) (dirty : Bool) : Bool × BPMState :=
  match ptLookup s.pageTable pid with
  | none => (true, s)
  | some f =>
      if (frameAt s f).pageId ≠ pid then
        (true, { s with pageTable := ptErase s.pageTable pid })
      else
        let fr1 := { frameAt s f with isDirty := dirty || (frameAt s f).isDirty }
        if 0 < fr1.pinCount then
          let fr2 := { fr1 with pinCount := fr1.pinCount - 1 }
          let s1 := setFrame s f fr2
          (true,
            if fr2.pinCount = 0 then
              { s1 with replacer := replacerUnpin s1.replacer f }
            else s1)
        else
          (false, setFrame s f fr1)

/-- `BufferPoolManager::FlushPageImpl` (the disk write and content hash are
outside the modelled state; the dirty flag is cleared). -/
def FlushPageImpl (s : BPMState) (pid : Int) : Bool × BPMState :=
  match ptLookup s.pageTable pid with
  | none => (false, s)
  | some f =>
      if (frameAt s f).pageId ≠ pid then (false, s)
      else (true, setFrame s f { frameAt s f with isDirty := false })

/-- The tail of `NewPageImpl` from the point where the victim frame `f`
has been obtained: flush-and-erase a valid held page, allocate a fresh
page id, set the metadata (`pin_count_ = 1`), pin in the replacer, insert
the table entry. -/
def newInstall (s : BPMState) (f : Nat) : (Int × Nat) × BPMState :=
  let s1 := if (frameAt s f).pageId ≠ INVALID_PAGE_ID then
      { s with pageTable := ptErase s.pageTable (frameAt s f).pageId }
    else s
  let pid := s1.nextAlloc
  let s2 := { setFrame s1 f ⟨pid, 1, false⟩ with nextAlloc := s1.nextAlloc + 1 }
  ((pid, f),
    { s2 with
      replacer := replacerPin s2.replacer f
      pageTable := ptInsert s2.pageTable pid f })

/-- `BufferPoolManager::NewPageImpl`. -/
def NewPageImpl (s : BPMState) : Option (Int × Nat) × BPMState :=
  match s.freeList.getLast? with
  | some f =>
      let r := newInstall { s with freeList := s.freeList.dropLast } f
      (some r.1, r.2)
  | none =>
      match replacerVictim s.replacer with
      | none => (none, s)
      | some (f, rep) =>
          let r := newInstall { s with replacer := rep } f
          (some r.1, r.2)

/-- `BufferPoolManager::DeletePageImpl`.  `DeallocatePage` is always
called (recorded in the ghost list).  Note that the success branch resets
the frame, pins it out of the replacer and pushes it to the free list but
does **not** erase the page-table entry; the stale entry is cleaned up
lazily by the mismatch branches of `FetchPageImpl`/`UnpinPageImpl`. -/
def DeletePageImpl (s : BPMState) (pid : Int) : Bool × BPMState :=
  match ptLookup s.pageTable pid with
  | none => (true, { s with deallocated := s.deallocated ++ [pid] })
  | some f =>
      if (frameAt s f).pageId ≠ pid then
        (true, { s with deallocated := s.deallocated ++ [pid] })
      else if (frameAt s f).pinCount ≠ 0 then
        (false, { s with deallocated := s.deallocated ++ [pid] })
      else
        let s1 := setFrame { s with deallocated := s.deallocated ++ [pid] } f
          { frameAt s f with pageId := INVALID_PAGE_ID, isDirty := false }
        (true,
          { s1 with
            replacer := replacerPin s1.replacer f
            freeList := s1.freeList ++ [f] })

/-- The constructor: every frame starts in the free list with
default-constructed `Page` metadata. -/
def initState (n : Nat) : BPMState :=
  { frames := List.replicate n initFrame
    pageTable := []
    freeList := List.range n
    replacer := []
    nextAlloc := 0
    deallocated := [] }

/-- States reachable from the constructor by `FetchPage`, `UnpinPage`,
`FlushPage`, `NewPage` and `DeletePage` calls.  `FetchPage` arguments are
restricted to page ids the file manager has handed out (`0 ≤ pid <
nextAlloc`): page ids come from `AllocatePage` per its contract, and
fetching a never-allocated id would read undefined disk content. -/
inductive Reachable : BPMState → Prop
  | init (n : Nat) : Reachable (initState n)
  | fetch {s} (pid : Int) : Reachable s → 0 ≤ pid → pid < s.nextAlloc →
      Reachable (FetchPageImpl s pid).2
  | unpin {s} (pid : Int) (d : Bool) : Reachable s →
      Reachable (UnpinPageImpl s pid d).2
  | flush {s} (pid : Int) : Reachable s → Reachable (FlushPageImpl s pid).2
  | newPage {s} : Reachable s → Reachable (NewPageImpl s).2
  | delete {s} (pid : Int) : Reachable s → Reachable (DeletePageImpl s pid).2

/-- The state-machine invariant of the buffer pool manager.  `flFree` is
the free-list invariant of the claims; the other components support its
preservation: every page-table entry is in range with a valid, previously
allocated page id (`tabEntry`); a frame holding a valid page id is found
by a page-table lookup of that id (`resLookup`); replacer-tracked frames
are in range, hold valid pages and are unpinned (`repTracked`); pin counts
are nonnegative; every frame's page id precedes the allocation counter. -/
structure Inv (s : BPMState) : Prop where
  flNodup : s.freeList.Nodup
  flFree : ∀ f ∈ s.freeList, f < s.frames.length ∧ frameAt s f = initFrame
  tabEntry : ∀ e ∈ s.pageTable,
    e.2 < s.frames.length ∧ e.1 ≠ INVALID_PAGE_ID ∧ e.1 < s.nextAlloc
  resLookup : ∀ f, f < s.frames.length →
    (frameAt s f).pageId ≠ INVALID_PAGE_ID →
    ptLookup s.pageTable (frameAt s f).pageId = some f
  repTracked : ∀ f ∈ s.replacer, f < s.frames.length ∧
    (frameAt s f).pageId ≠ INVALID_PAGE_ID ∧ (frameAt s f).pinCount = 0
  repNodup : s.replacer.Nodup
  pinNonneg : ∀ f, f < s.frames.length → 0 ≤ (frameAt s f).pinCount
  pidLt : ∀ f, f < s.frames.length → (frameAt s f).pageId < s.nextAlloc
  allocNonneg : 0 ≤ s.nextAlloc

/-- A page is resident iff some frame holds it (spec section 3); a frame
whose `page_id_` is `INVALID_PAGE_ID` holds no page. -/
def Resident (s : BPMState) (pid : Int) : Prop :=
  pid ≠ INVALID_PAGE_ID ∧
    ∃ f, f < s.frames.length ∧ (frameAt s f).pageId = pid

instance (s : BPMState) (pid : Int) : Decidable (Resident s pid) :=
  decidable_of_iff
    (pid ≠ INVALID_PAGE_ID ∧
      ∃ f ∈ List.range s.frames.length, (frameAt s f).pageId = pid)
    (by
      unfold Resident
      constructor
      · rintro ⟨h1, f, hf, hp⟩
        exact ⟨h1, f, List.mem_range.1 hf, hp⟩
      · rintro ⟨h1, f, hf, hp⟩
        exact ⟨h1, f, List.mem_range.2 hf, hp⟩)

/-- The reachable state `NewPage; UnpinPage(0,false); DeletePage(0)` on a
pool of one frame: the page is gone (frame reset and freed) but
`DeletePageImpl` left the page-table entry `(0 → frame 0)` behind. -/
def c7state : BPMState :=
  (DeletePageImpl (UnpinPageImpl (NewPageImpl (initState 1)).2 0 false).2 0).2

end BufferPoolManager

/-- `dst[i] := src[i + ofs]` for `i = 0 .. n-1`: the copy loop of
`MoveHalfTo` (`for (int i = copyIdx; i < total; i++) recipient->array[i - copyIdx] = array[i]`),
indexed by the destination slot. -/
def copyUpper (src dst : Nat → Int × Int) (ofs : Nat) : Nat → (Nat → Int × Int)
  | 0 => dst
  | n + 1 => Function.update (copyUpper src dst ofs n) n (src (n + ofs))

/-- The ascending in-place shift `a[k] := a[k+1]` for `k = 0 .. n-1`
(the loops of `MoveFirstToEndOf`); each iteration reads the slot the next
iteration will overwrite, so the sequential fold equals the pointwise
shift. -/
def shiftDownSeq (a : Nat → Int × Int) : Nat → (Nat → Int × Int)
  | 0 => a
  | k + 1 => Function.update (shiftDownSeq a k) k (shiftDownSeq a k (k + 1))

/-- The ascending in-place shift `a[i] := a[i-1]` for `i = 1 .. n`
(the loop of internal `CopyFirstFrom`); iterating upward re-reads slots
already overwritten, so every written slot receives the original `a[0]` —
this reproduces the source loop exactly as written. -/
def shiftUpSeq (a : Nat → Int × Int) : Nat → (Nat → Int × Int)
  | 0 => a
  | k + 1 => Function.update (shiftUpSeq a k) (k + 1) (shiftUpSeq a k k)

namespace BPlusTreeLeafPage

/-- A `BPlusTreeLeafPage` image: slot array plus header fields. -/
structure LeafPage where
  array : Nat → Int × Int
  size : Int
  maxSize : Int
  pageId : Int
  parentPageId : Int
  nextPageId : Int

/-- `B_PLUS_TREE_LEAF_PAGE_TYPE::MoveHalfTo`: `total = max_size + 1`
(asserted equal to `size`), `copyIdx = total / 2`; copy slots
`copyIdx .. total-1` into the recipient's slots `0 ..`, relink
`recipient.next := this.next`, `this.next := recipient.page_id`, set
`this.size := copyIdx` and `recipient.size := total - copyIdx`.
Returns the updated `(this, recipient)`. -/
def MoveHalfTo (page recipient : LeafPage) : LeafPage × LeafPage :=
  let total := page.maxSize + 1
  let copyIdx := Int.tdiv total 2
  let recipArr := copyUpper page.array recipient.array copyIdx.toNat
    (total - copyIdx).toNat
  let recipient' : LeafPage :=
    { recipient with
      array := recipArr
      nextPageId := page.nextPageId
      size := total - copyIdx }
  let page' : LeafPage :=
    { page with nextPageId := recipient.pageId, size := copyIdx }
  (page', recipient')

/-- `B_PLUS_TREE_LEAF_PAGE_TYPE::CopyLastFrom`: append the item at slot
`size`, increase the size. -/
def CopyLastFrom (page : LeafPage) (item : Int × Int) : LeafPage :=
  { page with
    array := Function.update page.array page.size.toNat item
    size := page.size + 1 }

end BPlusTreeLeafPage

namespace BPlusTreeInternalPage

/-- A `BPlusTreeInternalPage` image: slot array (key, child page id) plus
header fields; slot 0's key is the dummy slot. -/
structure InternalPage where
  array : Nat → Int × Int
  size : Int
  maxSize : Int
  pageId : Int
  parentPageId : Int

/-- `KeyAt(index)`: `array[index].first`. -/
def KeyAt (p : InternalPage) (index : Int) : Int := (p.array index.toNat).1

/-- `ValueAt(index)`: `array[index].second`. -/
def ValueAt (p : InternalPage) (index : Int) : Int := (p.array index.toNat).2

/-- `SetKeyAt(index, key)`: `array[index].first = key`. -/
def SetKeyAt (p : InternalPage) (index : Int) (key : Int) : InternalPage :=
  { p with
    array := Function.update p.array index.toNat (key, (p.array index.toNat).2) }

/-- The linear scan of `ValueIndex`, from slot `i` upward. -/
def ValueIndexAux (p : InternalPage) (v : Int) (i : Nat) : Int :=
  if h : (i : Int) < p.size then
    if (p.array i).2 = v then (i : Int) else ValueIndexAux p v (i + 1)
  else -1
termination_by (p.size - (i : Int)).toNat
decreasing_by omega

/-- `ValueIndex(value)`: the first slot index whose second component equals
`value`, or `-1`. -/
def ValueIndex (p : InternalPage) (v : Int) : Int := ValueIndexAux p v 0

/-- `CopyFirstFrom(pair)`: shift slots `1 .. size-1` upward by the
source's ascending loop, increase the size, write `pair` into slot 0; then
(via the buffer pool) set the moved child's parent to this page and update
this page's separator key in its parent to the new `array[0].first`.  The
pages the source fetches through the buffer pool manager — the moved
child's header and this page's parent — are passed in and returned
explicitly; the child is represented by the parent-page-id value written
into its header, the only field touched. -/
def CopyFirstFrom (recipient : InternalPage) (pair : Int × Int)
    (parent : InternalPage) : InternalPage × Int × InternalPage :=
  let shifted := shiftUpSeq recipient.array (recipient.size - 1).toNat
  let recipient' : InternalPage :=
    { recipient with
      array := Function.update shifted 0 pair
      size := recipient.size + 1 }
  let childParent' := recipient.pageId
  let parent' := SetKeyAt parent (ValueIndex parent recipient.pageId)
    (recipient'.array 0).1
  (recipient', childParent', parent')

/-- `B_PLUS_TREE_INTERNAL_PAGE_TYPE::MoveLastToFrontOf`: take the pair at
slot `size-1`, decrease the size, and `CopyFirstFrom` it into the
recipient.  Returns `(this, recipient, moved child's new parent id,
recipient's parent)`. -/
def MoveLastToFrontOf (page recipient : InternalPage)
    (parent : InternalPage) : InternalPage × InternalPage × Int × InternalPage :=
  let pair := (KeyAt page (page.size - 1), ValueAt page (page.size - 1))
  let page' : InternalPage := { page with size := page.size - 1 }
  let r := CopyFirstFrom recipient pair parent
  (page', r.1, r.2.1, r.2.2)

/-- `B_PLUS_TREE_INTERNAL_PAGE_TYPE::CopyLastFrom`: append the pair at slot
`size`, increase the size.  (The moved child's parent update is performed
by the caller `MoveFirstToEndOf`.) -/
def CopyLastFrom (page : InternalPage) (pair : Int × Int) : InternalPage :=
  { page with
    array := Function.update page.array page.size.toNat pair
    size := page.size + 1 }

/-- `B_PLUS_TREE_INTERNAL_PAGE_TYPE::MoveFirstToEndOf`: take the pair at
slot 0, decrease the size, shift the remaining slots down by the source's
loop (`for i < GetSize()-1`, with the size already decreased), append the
pair to the recipient, set the moved child's parent to the recipient, and
update this page's separator in its parent to the new `array[0].first`. -/
def MoveFirstToEndOf (page recipient : InternalPage)
    (parent : InternalPage) : InternalPage × InternalPage × Int × InternalPage :=
  let pair := (KeyAt page 0, ValueAt page 0)
  let page1 : InternalPage := { page with size := page.size - 1 }
  let page2 : InternalPage :=
    { page1 with array := shiftDownSeq page1.array (page1.size - 1).toNat }
  let recipient' := CopyLastFrom recipient pair
  let childParent' := recipient.pageId
  let parent' := SetKeyAt parent (ValueIndex parent page.pageId)
    (page2.array 0).1
  (page2, recipient', childParent', parent')

end BPlusTreeInternalPage

namespace BPlusTreeLeafPage

/-- `B_PLUS_TREE_LEAF_PAGE_TYPE::MoveFirstToEndOf`: take the item at slot
0, decrease the size, shift the remaining slots down by the source's loop
(`for i < GetSize()-1`, with the size already decreased), append the item
to the recipient, and update this page's separator in its (explicitly
passed) parent to the new `array[0].first`. -/
def MoveFirstToEndOf (page recipient : LeafPage)
    (parent : BPlusTreeInternalPage.InternalPage) :
    LeafPage × LeafPage × BPlusTreeInternalPage.InternalPage :=
  let pair := page.array 0
  let page1 : LeafPage := { page with size := page.size - 1 }
  let page2 : LeafPage :=
    { page1 with array := shiftDownSeq page1.array (page1.size - 1).toNat }
  let recipient' := CopyLastFrom recipient pair
  let parent' := BPlusTreeInternalPage.SetKeyAt parent
    (BPlusTreeInternalPage.ValueIndex parent page.pageId) (page2.array 0).1
  (page2, recipient', parent')

/-- `B_PLUS_TREE_LEAF_PAGE_TYPE::MoveLastToFrontOf`: the source's body is
empty (an unimplemented stub), so nothing changes. -/
def MoveLastToFrontOf (page recipient : LeafPage) : LeafPage × LeafPage :=
  (page, recipient)

end BPlusTreeLeafPage

/-- `BPlusTree::Redistribute` instantiated at leaf pages: if `index == 0`,
`neighbor_node->MoveFirstToEndOf(node)`, else
`neighbor_node->MoveLastToFrontOf(node)`.  The parent page (fetched through
the buffer pool by the leaf `MoveFirstToEndOf`) is passed and returned
explicitly; the stub branch leaves it untouched. -/
def RedistributeLeaf (neighbor node : BPlusTreeLeafPage.LeafPage)
    (parent : BPlusTreeInternalPage.InternalPage) (index : Int) :
    BPlusTreeLeafPage.LeafPage × BPlusTreeLeafPage.LeafPage ×
      BPlusTreeInternalPage.InternalPage :=
  if index = 0 then
    BPlusTreeLeafPage.MoveFirstToEndOf neighbor node parent
  else
    let r := BPlusTreeLeafPage.MoveLastToFrontOf neighbor node
    (r.1, r.2, parent)

/-- `BPlusTree::Redistribute` instantiated at internal pages. -/
def RedistributeInternal (neighbor node : BPlusTreeInternalPage.InternalPage)
    (parent : BPlusTreeInternalPage.InternalPage) (index : Int) :
    BPlusTreeInternalPage.InternalPage × BPlusTreeInternalPage.InternalPage ×
      Int × BPlusTreeInternalPage.InternalPage :=
  if index = 0 then
    BPlusTreeInternalPage.MoveFirstToEndOf neighbor node parent
  else
    BPlusTreeInternalPage.MoveLastToFrontOf neighbor node parent

/-! ## B+ tree index (`src/storage/index/b_plus_tree.cpp`)

The tree is modelled as an inductive structure: a leaf node carries its
entry list and its `max_size`; an internal node carries the child of the
dummy slot 0, the list of `(key, child)` pairs of slots `1 .. size-1`, and
its `max_size` (`size` is the pair-list length plus one, counting the
dummy slot).  Page ids, parent pointers and leaf-next pointers are
represented by the structure itself: the position of a node in the tree is
its identity, children of a node are its subterms, and the in-order leaf
sequence is the next-pointer chain (established separately by the
`MoveHalfTo` relinking, `leaf_moveHalfTo_spec`).  `InsertIntoParent`'s
walk up the parent pointers is rendered as split-result propagation in the
structural recursion; entry movement, split points, separator choice and
max-size assignments follow the source line by line.  Keys and values are
`Int` (spec's concrete scenarios: integer comparator via `SetFromInteger`;
leaf values are record ids). -/
namespace BPlusTree

/-- A key/value pair in a leaf. -/
abbrev Entry := Int × Int

/-- A B+ tree page: leaf or internal. -/
inductive Node
  | leaf (entries : List Entry) (maxSize : Int)
  | inner (first : Node) (seps : List (Int × Node)) (maxSize : Int)

/-- Modelled from the spec: the default-constructed `RID` pushed by
`GetValue` when `Lookup` fails (`rid.h` is outside `src/`); its identity
is irrelevant to the claims, only that one value is appended. -/
def ridDefault : Int := 0

/-- The binary-search loop of leaf `KeyIndex`
(`b_plus_tree_leaf_page.cpp:54`): `while st ≤ ed`, `mid = (ed-st)/2+st`;
if `array[mid].key ≥ key` then `ed = mid-1` else `st = mid+1`; the
function returns `ed + 1`. -/
def keyIndexGo (entries : List Entry) (key : Int) : Nat → Int → Int → Int
  | 0, _, ed => ed + 1
  | fuel + 1, st, ed =>
      if st ≤ ed then
        if key ≤ (entries.getD (Int.tdiv (ed - st) 2 + st).toNat (0, 0)).1 then
          keyIndexGo entries key fuel st (Int.tdiv (ed - st) 2 + st - 1)
        else
          keyIndexGo entries key fuel (Int.tdiv (ed - st) 2 + st + 1) ed
      else ed + 1

/-- Leaf `KeyIndex(key)`: first index whose key is `≥ key`, by binary
search over `0 .. size-1`. -/
def KeyIndex (entries : List Entry) (key : Int) : Int :=
  keyIndexGo entries key (entries.length + 1) 0 ((entries.length : Int) - 1)

/-- Leaf `Lookup(key, out value)` (`b_plus_tree_leaf_page.cpp:158`):
`idx = KeyIndex(key)`; a hit iff `idx < size` and the key at `idx` equals
`key`. -/
def leafLookup (entries : List Entry) (key : Int) : Option Int :=
  let idx := KeyIndex entries key
  if idx < (entries.length : Int) ∧ (entries.getD idx.toNat (0, 0)).1 = key then
    some (entries.getD idx.toNat (0, 0)).2
  else none

/-- Leaf `Insert(key, value)` (`b_plus_tree_leaf_page.cpp:97`): shift the
slots above `KeyIndex(key)` up by one and write the pair there; the net
effect on the visible entry list is insertion at that index. -/
def leafInsert (entries : List Entry) (key value : Int) : List Entry :=
  let idx := (KeyIndex entries key).toNat
  entries.take idx ++ [(key, value)] ++ entries.drop idx

/-- The binary-search loop of internal `Lookup`
(`b_plus_tree_internal_page.cpp:76`) over array positions `st .. ed`
(array position `i ≥ 1` holds the key `keys[i-1]` of the pair list):
if `array[mid].key ≤ key` then `st = mid+1` else `ed = mid-1`; the loop
leaves `st` at the first position whose key exceeds `key`. -/
def lookupGo (keys : List Int) (key : Int) : Nat → Int → Int → Int
  | 0, st, _ => st
  | fuel + 1, st, ed =>
      if st ≤ ed then
        if keys.getD (Int.tdiv (ed - st) 2 + st - 1).toNat 0 ≤ key then
          lookupGo keys key fuel (Int.tdiv (ed - st) 2 + st + 1) ed
        else
          lookupGo keys key fuel st (Int.tdiv (ed - st) 2 + st - 1)
      else st

/-- Internal `Lookup(key)`: binary search over array positions
`1 .. size-1` (`size = keys.length + 1`); returns the exit value of `st`,
so that `array[st-1].second` is the chosen child. -/
def internalLookupPos (keys : List Int) (key : Int) : Int :=
  lookupGo keys key (keys.length + 1) 1 (keys.length : Int)

/-- The array index of the child chosen by internal `Lookup`:
`st - 1`; index 0 is the dummy slot's child. -/
def childIndex (keys : List Int) (key : Int) : Nat :=
  (internalLookupPos keys key - 1).toNat

mutual
/-- The in-order entry sequence of a subtree. -/
def entriesOf : Node → List Entry
  | .leaf entries _ => entries
  | .inner first seps _ => entriesOf first ++ entriesOfSeps seps
/-- The in-order entry sequence of a separator list's subtrees. -/
def entriesOfSeps : List (Int × Node) → List Entry
  | [] => []
  | (_, c) :: rest => entriesOf c ++ entriesOfSeps rest
end

/-- The keys stored in a subtree, in order. -/
def keysOf (t : Node) : List Int := (entriesOf t).map Prod.fst

/-- The value stored under a key, from an entry list. -/
def findKey (l : List Entry) (k : Int) : Option Int :=
  (l.find? (fun e => e.1 == k)).map Prod.snd

mutual
/-- The key lists of the leaves in in-order (= next-pointer) sequence. -/
def leavesKeys : Node → List (List Int)
  | .leaf entries _ => [entries.map Prod.fst]
  | .inner first seps _ => leavesKeys first ++ leavesKeysSeps seps
/-- `leavesKeys` over a separator list. -/
def leavesKeysSeps : List (Int × Node) → List (List Int)
  | [] => []
  | (_, c) :: rest => leavesKeys c ++ leavesKeysSeps rest
end

mutual
/-- The descent of `FindLeafPage` (choosing children by internal `Lookup`)
composed with the leaf `Lookup` at the target: the read path of
`GetValue`. -/
def getAux : Node → Int → Option Int
  | .leaf entries _, key => leafLookup entries key
  | .inner first seps _, key =>
      if childIndex (seps.map Prod.fst) key = 0 then getAux first key
      else getSeps seps (childIndex (seps.map Prod.fst) key - 1) key
/-- Walk to the `i`-th separated child and descend into it (the
`array[st-1].second` access of the descent loop); `none` is unreachable
(`st` stays within `1 .. size`). -/
def getSeps : List (Int × Node) → Nat → Int → Option Int
  | [], _, _ => none
  | (_, c) :: _, 0, key => getAux c key
  | _ :: rest, i + 1, key => getSeps rest i key
end

/-- The result of `InsertIntoLeaf`'s work on a subtree: a duplicate key
(`Insert` returns false), an updated subtree, or a split pair with the
separator key that `InsertIntoParent` receives. -/
inductive InsRes
  | dup
  | one (t : Node)
  | split (l : Node) (sep : Int) (r : Node)

/-- `InsertIntoParent`'s treatment of an overflowing internal node
(`b_plus_tree.cpp:235`): if the size after `InsertNodeAfter` equals
`max_size + 1`, split it like internal `MoveHalfTo` (`copyIdx = total/2`;
the slots from `copyIdx` move, the moved dummy's key — `KeyAt(0)` of the
new page — is passed up) and give the new internal page max size
`internal_max_size_`; otherwise the node stands.  (The `none` fallback is
unreachable: `copyIdx ≤ size - 1`.) -/
def innerAfterChild (first : Node) (seps : List (Int × Node)) (m im : Int) :
    InsRes :=
  if ((seps.length : Int) + 1) = m + 1 then
    match seps.get? ((Int.tdiv (m + 1) 2).toNat - 1) with
    | some p => .split (.inner first (seps.take ((Int.tdiv (m + 1) 2).toNat - 1)) m) p.1
        (.inner p.2 (seps.drop (Int.tdiv (m + 1) 2).toNat) im)
    | none => .one (.inner first seps m)
  else .one (.inner first seps m)

/-- The outcome of modifying the separator list at the descended
position: duplicate key below, child replaced in place (`noSplit`), or
child replaced with the split pair's `(separator, new page)` inserted
right after it by `InsertNodeAfter` (`grew`). -/
inductive SepsRes
  | dup
  | noSplit (seps : List (Int × Node))
  | grew (seps : List (Int × Node))

mutual
/-- `InsertIntoLeaf` below a fixed root: descend by internal `Lookup`;
at the leaf, return `dup` if the key exists, else insert sorted and split
at `size = max_size + 1` (`copyIdx = total/2`; separator = `KeyAt(0)` of
the new leaf, whose max size becomes `leaf_max_size_ - 1`, from
`b_plus_tree.cpp:151`); propagate splits into the parent by
`InsertNodeAfter` right after the old child's slot, splitting overflowing
parents recursively. -/
def insertAux (lm im : Int) : Node → Int → Int → InsRes
  | .leaf entries m, key, value =>
      match leafLookup entries key with
      | some _ => .dup
      | none =>
          if ((leafInsert entries key value).length : Int) = m + 1 then
            .split
              (.leaf ((leafInsert entries key value).take
                (Int.tdiv (m + 1) 2).toNat) m)
              (((leafInsert entries key value).getD
                (Int.tdiv (m + 1) 2).toNat (0, 0)).1)
              (.leaf ((leafInsert entries key value).drop
                (Int.tdiv (m + 1) 2).toNat) (lm - 1))
          else .one (.leaf (leafInsert entries key value) m)
  | .inner first seps m, key, value =>
      if childIndex (seps.map Prod.fst) key = 0 then
        match insertAux lm im first key value with
        | .dup => .dup
        | .one f' => .one (.inner f' seps m)
        | .split l sep r => innerAfterChild l ((sep, r) :: seps) m im
      else
        match insSeps lm im seps (childIndex (seps.map Prod.fst) key - 1) key value with
        | .dup => .dup
        | .noSplit seps' => .one (.inner first seps' m)
        | .grew seps' => innerAfterChild first seps' m im
/-- Descend into the `i`-th separated child and rebuild the list around
the result (the in-place child mutation plus `InsertNodeAfter` of the
source); the empty-list case is unreachable (`st ≤ size`). -/
def insSeps (lm im : Int) : List (Int × Node) → Nat → Int → Int → SepsRes
  | [], _, _, _ => .noSplit []
  | (k, c) :: rest, 0, key, value =>
      match insertAux lm im c key value with
      | .dup => .dup
      | .one c' => .noSplit ((k, c') :: rest)
      | .split l sep r => .grew ((k, l) :: (sep, r) :: rest)
  | p :: rest, i + 1, key, value =>
      match insSeps lm im rest i key value with
      | .dup => .dup
      | .noSplit rest' => .noSplit (p :: rest')
      | .grew rest' => .grew (p :: rest')
end

/-- The modelled `BPlusTree` object: root (as a structure; `none` is
`root_page_id_ == INVALID_PAGE_ID`) and the two stored size fields. -/
structure BPT where
  root : Option Node
  leaf_max_size : Int
  internal_max_size : Int

/-- The constructor (`b_plus_tree.cpp:28`): note
`leaf_max_size_(leaf_max_size - 1)` and
`internal_max_size_(internal_max_size)`. -/
def mkBPlusTree (leafMax internalMax : Int) : BPT :=
  { root := none
    leaf_max_size := leafMax - 1
    internal_max_size := internalMax }

/-- `BPlusTree::Insert`: on an empty tree, `StartNewTree` creates a root
leaf with max size `leaf_max_size_` holding the single entry; otherwise
`InsertIntoLeaf`, with `InsertIntoParent` installing a new internal root
(max size `internal_max_size_`, `PopulateNewRoot`) when the old root
splits. -/
def Insert (t : BPT) (key value : Int) : Bool × BPT :=
  match t.root with
  | none =>
      (true, { t with root := some (.leaf (leafInsert [] key value) t.leaf_max_size) })
  | some r =>
      match insertAux t.leaf_max_size t.internal_max_size r key value with
      | .dup => (false, t)
      | .one r' => (true, { t with root := some r' })
      | .split l sep rt =>
          (true, { t with root := some (.inner l [(sep, rt)] t.internal_max_size) })

/-- `BPlusTree::GetValue`: descend to the leaf, `Lookup`, and push into
the result vector — unconditionally: on a miss the default-constructed
value is pushed (`b_plus_tree.cpp:55-58`); the return value is the lookup
outcome.  On an empty tree `FindLeafPage` returns null and the source
dereferences it (undefined behaviour); the model returns
`(false, result)` there, and every theorem about `GetValue` assumes a
non-empty tree. -/
def GetValue (t : BPT) (key : Int) (result : List Int) : Bool × List Int :=
  match t.root with
  | none => (false, result)
  | some r =>
      match getAux r key with
      | some v => (true, result ++ [v])
      | none => (false, result ++ [ridDefault])

/-- An optional lower bound on keys: `none` is unbounded. -/
def inLoB (lo : Option Int) (k : Int) : Bool :=
  match lo with
  | none => true
  | some a => decide (a ≤ k)

/-- An optional (strict) upper bound on keys: `none` is unbounded. -/
def inHiB (hi : Option Int) (k : Int) : Bool :=
  match hi with
  | none => true
  | some b => decide (k < b)

/-- A strict version of the lower bound, used for the separator keys of an
internal node relative to the node's own lower bound. -/
def inLoStrictB (lo : Option Int) (k : Int) : Bool :=
  match lo with
  | none => true
  | some a => decide (a < k)

mutual
/-- Well-formedness of a subtree whose keys must lie in `[lo, hi)`: leaf
entries are strictly sorted and in range; internal separator keys are in
range, the dummy child is bounded above by the first separator, and each
separated child's keys lie between its separator and the next (the
separator ordering is strict).  This is the search-structure part of the
spec's invariants 3 and 6 — the size bounds of invariant 4 are *not*
included (the source violates them; see the C4 analysis), but a positive
leaf capacity is (`1 ≤ m`), and an internal node's first separator key
strictly exceeds the node's lower bound (both hold for every tree the
source builds from sane constructor arguments, and both are preserved by
insertion). -/
def wfB : Option Int → Option Int → Node → Bool
  | lo, hi, .leaf entries m =>
      decide (entries.Pairwise (fun a b => a.1 < b.1)) &&
      entries.all (fun e => inLoB lo e.1 && inHiB hi e.1) &&
      decide (1 ≤ m)
  | lo, hi, .inner first seps _ =>
      seps.all (fun p => inLoB lo p.1 && inHiB hi p.1) &&
      (match seps with
       | [] => wfB lo hi first
       | (k, _) :: _ => inLoStrictB lo k && wfB lo (some k) first) &&
      wfSepsB hi seps
/-- Well-formedness of the separated children: each child's keys lie in
`[its key, next key)`, the last in `[its key, hi)`. -/
def wfSepsB : Option Int → List (Int × Node) → Bool
  | _, [] => true
  | hi, (k, c) :: rest =>
      (match rest with
       | [] => wfB (some k) hi c
       | (k2, _) :: _ => decide (k < k2) && wfB (some k) (some k2) c) &&
      wfSepsB hi rest
end

/-- Well-formedness of a tree object: its root (if any) is well-formed
with unbounded key range. -/
def WFState (t : BPT) : Prop :=
  ∀ r, t.root = some r → wfB none none r = true

/-- Bulk insertion, for the concrete scenarios. -/
def insertMany (t : BPT) (l : List (Int × Int)) : BPT :=
  l.foldl (fun acc kv => (Insert acc kv.1 kv.2).2) t

/-- The leaf key lists of a tree object. -/
def rootLeaves (t : BPT) : List (List Int) :=
  match t.root with
  | none => []
  | some r => leavesKeys r

/-- The separator keys of the root, when the root is internal. -/
def rootSepKeys (t : BPT) : List Int :=
  match t.root with
  | some (.inner _ seps _) => seps.map Prod.fst
  | _ => []

mutual
/-- The leaf max sizes in leaf order, to exhibit the max-size
bookkeeping. -/
def leafMaxSizes : Node → List Int
  | .leaf _ m => [m]
  | .inner first seps _ => leafMaxSizes first ++ leafMaxSizesSeps seps
/-- `leafMaxSizes` over a separator list. -/
def leafMaxSizesSeps : List (Int × Node) → List Int
  | [] => []
  | (_, c) :: rest => leafMaxSizes c ++ leafMaxSizesSeps rest
end

/-- The root's leaf max sizes. -/
def rootLeafMaxSizes (t : BPT) : List Int :=
  match t.root with
  | none => []
  | some r => leafMaxSizes r

/-- The tree built with `leaf_max_size = 3`, `internal_max_size = 3` by
inserting keys 1..7 (values `100 + k`) in ascending order. -/
def c4tree : BPT :=
  insertMany (mkBPlusTree 3 3)
    [(1, 101), (2, 102), (3, 103), (4, 104), (5, 105), (6, 106), (7, 107)]

/-- The net effect of the leaf `Insert` routine, phrased by `countP`:
insertion of the pair at the position counting the keys below it. -/
def sIns (l : List Entry) (k v : Int) : List Entry :=
  l.take (l.countP (fun e => decide (e.1 < k))) ++ [(k, v)] ++
    l.drop (l.countP (fun e => decide (e.1 < k)))

/-- A default separator pair, for `getD` on separator lists. -/
def sepD : Int × Node := (0, Node.leaf [] 0)

/-- The upper bound of the child sitting before `rest`: the next
separator key, or `hi` at the end. -/
def sepsHeadHi (rest : List (Int × Node)) (hi : Option Int) : Option Int :=
  match rest with
  | [] => hi
  | (k2, _) :: _ => some k2

/-- The head separator key (if any) strictly exceeds the bound. -/
def headKeyStrict (lo : Option Int) (seps : List (Int × Node)) : Bool :=
  match seps with
  | [] => true
  | (k, _) :: _ => inLoStrictB lo k

mutual
/-- A size measure for the strong inductions over nodes. -/
def sizeOfN : Node → Nat
  | .leaf _ _ => 1
  | .inner first seps _ => 1 + sizeOfN first + sizeOfSeps seps
/-- `sizeOfN` summed over a separator list. -/
def sizeOfSeps : List (Int × Node) → Nat
  | [] => 0
  | (_, c) :: rest => 1 + sizeOfN c + sizeOfSeps rest
end

/-- The in-order entry sequence of the whole tree object. -/
def treeEntries (t : BPT) : List Entry :=
  match t.root with
  | none => []
  | some r => entriesOf r

/-- An executable well-formedness check for a tree object. -/
def wfCheck (t : BPT) : Bool :=
  match t.root with
  | none => true
  | some r => wfB none none r

/-- The tree built with `leaf_max_size = 3`, `internal_max_size = 3` by
inserting keys 1, 2, 3 (values `100 + k`). -/
def c1tree : BPT :=
  insertMany (mkBPlusTree 3 3) [(1, 101), (2, 102), (3, 103)]

/-- A one-entry tree {1 ↦ 101} with `L = M = 3`. -/
def c3tree : BPT := (Insert (mkBPlusTree 3 3) 1 101).2

end BPlusTree

/-- A sibling leaf `[(1,10),(2,20),(3,30)]` sitting immediately left of a
one-entry leaf in the same parent: a concrete leaf-redistribution scene
with the node at parent index 1. -/
def c5neighbor : BPlusTreeLeafPage.LeafPage :=
  { array := fun i =>
      if i = 0 then (1, 10) else if i = 1 then (2, 20)
      else if i = 2 then (3, 30) else (0, 0)
    size := 3, maxSize := 3, pageId := 2, parentPageId := 1, nextPageId := 5 }

/-- The underfull leaf `[(5,50)]` being redistributed into. -/
def c5node : BPlusTreeLeafPage.LeafPage :=
  { array := fun i => if i = 0 then (5, 50) else (0, 0)
    size := 1, maxSize := 3, pageId := 5, parentPageId := 1, nextPageId := -1 }

/-- Their parent: children `[2, 5]`, separator key `5` for the node. -/
def c5parent : BPlusTreeInternalPage.InternalPage :=
  { array := fun i => if i = 0 then (0, 2) else if i = 1 then (5, 5) else (0, 0)
    size := 2, maxSize := 3, pageId := 1, parentPageId := -1 }

/-- A full leaf `[(1,10),(2,20),(3,30),(4,40)]` with `max_size = 3`. -/
def c6page : BPlusTreeLeafPage.LeafPage :=
  { array := fun i =>
      if i = 0 then (1, 10) else if i = 1 then (2, 20)
      else if i = 2 then (3, 30) else if i = 3 then (4, 40) else (0, 0)
    size := 4, maxSize := 3, pageId := 7, parentPageId := 1, nextPageId := 9 }

/-- An empty recipient leaf. -/
def c6recipient : BPlusTreeLeafPage.LeafPage :=
  { array := fun _ => (0, 0)
    size := 0, maxSize := 3, pageId := 8, parentPageId := 1, nextPageId := -1 }

namespace LRUReplacer

theorem map_fst_eraseP (s : List (Int × Nat)) (f : Int) :
    (s.eraseP (fun p => p.1 == f)).map Prod.fst = (s.map Prod.fst).erase f := by
  induction s with
  | nil => rfl
  | cons p rest ih =>
      by_cases hp : p.1 = f
      · simp [List.eraseP_cons, List.erase_cons, hp]
      · simp [List.eraseP_cons, List.erase_cons, hp, ih]

theorem applyOpT_fst (s : List (Int × Nat)) (i : Nat) (op : ROp) :
    (applyOpT s i op).map Prod.fst = applyOp (s.map Prod.fst) op := by
  cases op with
  | pin f =>
      simp only [applyOpT, applyOp, Pin]
      by_cases h : f ∈ s.map Prod.fst
      · simp [h, map_fst_eraseP]
      · simp [h]
  | unpin f =>
      simp only [applyOpT, applyOp, Unpin]
      by_cases h : f ∈ s.map Prod.fst <;> simp [h]

theorem replayTAux_fst (ops : List ROp) (s : List (Int × Nat)) (i : Nat) :
    (replayTAux s i ops).map Prod.fst = ops.foldl applyOp (s.map Prod.fst) := by
  induction ops generalizing s i with
  | nil => rfl
  | cons op ops ih => simp [replayTAux, ih, applyOpT_fst]

/-- The ghost replay projects onto the source replay. -/
theorem replayT_fst (ops : List ROp) : (replayT ops).map Prod.fst = replay ops :=
  replayTAux_fst ops [] 0

theorem tInv_applyOpT {s : List (Int × Nat)} {i : Nat} (h : TInv s i) (op : ROp) :
    TInv (applyOpT s i op) (i + 1) := by
  obtain ⟨hsort, hlt, hnd⟩ := h
  cases op with
  | pin f =>
      simp only [applyOpT]
      by_cases hf : f ∈ s.map Prod.fst
      · rw [if_pos hf]
        refine ⟨hsort.sublist (List.eraseP_sublist s), ?_, ?_⟩
        · intro p hp
          exact Nat.lt_succ_of_lt (hlt p ((List.eraseP_sublist s).mem hp))
        · exact hnd.sublist ((List.eraseP_sublist s).map Prod.fst)
      · exact ⟨by simpa [hf] using hsort,
          by intro p hp; exact Nat.lt_succ_of_lt (hlt p (by simpa [hf] using hp)),
          by simpa [hf] using hnd⟩
  | unpin f =>
      simp only [applyOpT]
      by_cases hf : f ∈ s.map Prod.fst
      · exact ⟨by simpa [hf] using hsort,
          by intro p hp; exact Nat.lt_succ_of_lt (hlt p (by simpa [hf] using hp)),
          by simpa [hf] using hnd⟩
      · simp only [hf, if_false, ite_false]
        refine ⟨List.pairwise_cons.2 ⟨fun p hp => hlt p hp, hsort⟩, ?_, ?_⟩
        · intro p hp
          rcases List.mem_cons.1 hp with h | h
          · simp [h]
          · exact Nat.lt_succ_of_lt (hlt p h)
        · exact List.nodup_cons.2 ⟨hf, hnd⟩

theorem tInv_replayTAux (ops : List ROp) (s : List (Int × Nat)) (i : Nat)
    (h : TInv s i) : TInv (replayTAux s i ops) (i + ops.length) := by
  induction ops generalizing s i with
  | nil => simpa using h
  | cons op ops ih =>
      have := ih (applyOpT s i op) (i + 1) (tInv_applyOpT h op)
      simpa [replayTAux, Nat.add_comm, Nat.add_assoc, Nat.add_left_comm] using this

theorem tInv_replayT (ops : List ROp) : TInv (replayT ops) ops.length := by
  have := tInv_replayTAux ops [] 0 ⟨List.Pairwise.nil, by simp, List.nodup_nil⟩
  simpa using this

/-- In a ghost state with duplicate-free keys, `find?` by the key of a member
returns exactly that member. -/
theorem find?_key_eq {s : List (Int × Nat)} (hnd : (s.map Prod.fst).Nodup)
    {p : Int × Nat} (hp : p ∈ s) : s.find? (fun q => q.1 == p.1) = some p := by
  induction s with
  | nil => simp at hp
  | cons a rest ih =>
      rcases List.mem_cons.1 hp with h | h
      · subst h
        simp [List.find?_cons]
      · have hmem : p.1 ∈ rest.map Prod.fst := List.mem_map_of_mem Prod.fst h
        have hne : ¬((fun q : Int × Nat => q.1 == p.1) a) = true := by
          simp only [beq_iff_eq]
          intro he
          exact (List.nodup_cons.1 (by simpa using hnd)).1 (he ▸ hmem)
        exact (List.find?_cons_of_neg rest hne).trans
          (ih (List.nodup_cons.1 (by simpa using hnd)).2 h)

/-- In a list whose second components strictly decrease from front to back,
the last element has the least second component. -/
theorem getLast_snd_le {s : List (Int × Nat)}
    (hs : s.Pairwise (fun a b => b.2 < a.2)) (h : s ≠ []) :
    ∀ p ∈ s, (s.getLast h).2 ≤ p.2 := by
  induction s with
  | nil => exact absurd rfl h
  | cons a rest ih =>
      intro p hp
      cases rest with
      | nil =>
          have hpa : p = a := by simpa using hp
          subst hpa
          simp
      | cons b t =>
          rw [List.getLast_cons (List.cons_ne_nil b t)]
          rcases List.mem_cons.1 hp with rfl | hp'
          · have hmem := List.getLast_mem (l := b :: t) (List.cons_ne_nil b t)
            exact le_of_lt ((List.pairwise_cons.1 hs).1 _ hmem)
          · exact ih (List.pairwise_cons.1 hs).2 (List.cons_ne_nil b t) p hp'

/-- **C8**.  For every sequence of `Pin`/`Unpin` calls replayed against an
initially empty `LRUReplacer`: `Victim` returns `false` (here: `none`)
exactly when no frame is tracked; otherwise it removes and returns the
list's back element, which is the tracked frame with the least
first-unpin time; and `Unpin` of an already-tracked frame is a no-op,
leaving the list (and hence the first-unpin-time ordering) unchanged. -/
theorem lru_victim_unpin_spec (ops : List ROp) :
    (Victim (replay ops) = none ↔ replay ops = []) ∧
    (∀ f rest, Victim (replay ops) = some (f, rest) →
      replay ops = rest ++ [f] ∧
      ∀ g ∈ replay ops, unpinTime ops f ≤ unpinTime ops g) ∧
    (∀ f, f ∈ replay ops → Unpin (replay ops) f = replay ops) := by
  obtain ⟨hsort, -, hnd⟩ := tInv_replayT ops
  have hfst := replayT_fst ops
  refine ⟨?_, ?_, ?_⟩
  · unfold Victim
    cases hl : (replay ops).getLast? with
    | none => simpa using List.getLast?_eq_none_iff.1 hl
    | some a =>
        simp only [reduceCtorEq, false_iff]
        obtain ⟨ys, hys⟩ := List.getLast?_eq_some_iff.1 hl
        simp [hys]
  · intro f rest hvic
    unfold Victim at hvic
    cases hl : (replay ops).getLast? with
    | none => rw [hl] at hvic; exact absurd hvic (by simp)
    | some a =>
        rw [hl] at hvic
        obtain ⟨hfa, hrest⟩ : a = f ∧ (replay ops).dropLast = rest := by
          simpa using hvic
        subst hfa hrest
        obtain ⟨ys, hys⟩ := List.getLast?_eq_some_iff.1 hl
        constructor
        · rw [hys]; simp
        · intro g hg
          have hne : replay ops ≠ [] := by simp [hys]
          have hsne : replayT ops ≠ [] := by
            intro hc
            apply hne
            rw [← hfst, hc]
            rfl
          have hlastmem := List.getLast_mem (l := replayT ops) hsne
          have hlastkey : ((replayT ops).getLast hsne).1 = a := by
            have h1 : (replayT ops).getLast? = some ((replayT ops).getLast hsne) :=
              List.getLast?_eq_getLast _ hsne
            have h2 : (replay ops).getLast? =
                some (((replayT ops).getLast hsne).1) := by
              rw [← hfst, List.getLast?_map, h1, Option.map_some']
            rw [hl] at h2
            exact (Option.some.injEq _ _ ▸ h2).symm
          obtain ⟨q, hq, hqg⟩ := List.mem_map.1 (hfst ▸ hg)
          have hfindf : (replayT ops).find?
              (fun p => p.1 == a) = some ((replayT ops).getLast hsne) := by
            have := find?_key_eq hnd hlastmem
            rwa [hlastkey] at this
          have hfindg : (replayT ops).find? (fun p => p.1 == g) = some q := by
            have := find?_key_eq hnd hq
            rwa [hqg] at this
          unfold unpinTime
          rw [hfindf, hfindg]
          simpa using getLast_snd_le hsort hsne q hq
  · intro f hf
    simp [Unpin, hf]

/-- Closed instance of `lru_victim_unpin_spec`: after `Unpin 1`, `Unpin 2`,
`Pin 1`, `Unpin 3`, the replacer tracks `[3, 2]`; `Victim` removes and
returns `2`, the least-recently-unpinned frame. -/
theorem lru_victim_unpin_spec_witness :
    Victim (replay [ROp.unpin 1, ROp.unpin 2, ROp.pin 1, ROp.unpin 3]) =
      some (2, [3]) ∧
    replay [ROp.unpin 1, ROp.unpin 2, ROp.pin 1, ROp.unpin 3] = [3] ++ [2] ∧
    unpinTime [ROp.unpin 1, ROp.unpin 2, ROp.pin 1, ROp.unpin 3] 2 ≤
      unpinTime [ROp.unpin 1, ROp.unpin 2, ROp.pin 1, ROp.unpin 3] 3 := by
  have h := lru_victim_unpin_spec [ROp.unpin 1, ROp.unpin 2, ROp.pin 1, ROp.unpin 3]
  refine ⟨by decide, (h.2.1 2 [3] (by decide)).1, ?_⟩
  exact (h.2.1 2 [3] (by decide)).2 3 (by decide)

end LRUReplacer

namespace BufferPoolManager

theorem ptLookup_erase_self (t : List (Int × Nat)) (p : Int) :
    ptLookup (ptErase t p) p = none := by
  induction t with
  | nil => rfl
  | cons a t ih =>
      by_cases ha : a.1 = p
      · simpa [ptErase, ha] using ih
      · simpa [ptErase, ptLookup, List.filter_cons, ha, List.find?_cons] using ih

theorem ptLookup_cons_of_ne {a : Int × Nat} (t : List (Int × Nat)) {q : Int}
    (h : ¬a.1 = q) : ptLookup (a :: t) q = ptLookup t q := by
  unfold ptLookup
  rw [List.find?_cons_of_neg t (by simpa using h)]

theorem ptLookup_cons_of_eq {a : Int × Nat} (t : List (Int × Nat)) {q : Int}
    (h : a.1 = q) : ptLookup (a :: t) q = some a.2 := by
  unfold ptLookup
  rw [List.find?_cons_of_pos t (by simpa using h)]
  rfl

theorem ptLookup_erase_ne (t : List (Int × Nat)) (p q : Int) (h : q ≠ p) :
    ptLookup (ptErase t p) q = ptLookup t q := by
  induction t with
  | nil => rfl
  | cons a t ih =>
      by_cases ha : a.1 = p
      · have h1 : ptErase (a :: t) p = ptErase t p := by
          simp [ptErase, List.filter_cons, ha]
        have haq : ¬a.1 = q := by rw [ha]; exact fun he => h he.symm
        rw [h1, ptLookup_cons_of_ne t haq]
        exact ih
      · have h1 : ptErase (a :: t) p = a :: ptErase t p := by
          simp [ptErase, List.filter_cons, ha]
        rw [h1]
        by_cases haq : a.1 = q
        · rw [ptLookup_cons_of_eq (ptErase t p) haq, ptLookup_cons_of_eq t haq]
        · rw [ptLookup_cons_of_ne (ptErase t p) haq, ptLookup_cons_of_ne t haq]
          exact ih

theorem ptLookup_insert_self (t : List (Int × Nat)) (p : Int) (f : Nat) :
    ptLookup (ptInsert t p f) p = some f := by
  unfold ptInsert
  rw [ptLookup_cons_of_eq (ptErase t p) rfl]

theorem ptLookup_insert_ne (t : List (Int × Nat)) (p : Int) (f : Nat)
    (q : Int) (h : q ≠ p) : ptLookup (ptInsert t p f) q = ptLookup t q := by
  unfold ptInsert
  rw [ptLookup_cons_of_ne (ptErase t p) (fun he => h he.symm)]
  exact ptLookup_erase_ne t p q h

theorem mem_ptErase {t : List (Int × Nat)} {p : Int} {e : Int × Nat}
    (h : e ∈ ptErase t p) : e ∈ t := List.mem_of_mem_filter h

theorem mem_ptInsert {t : List (Int × Nat)} {p : Int} {f : Nat} {e : Int × Nat}
    (h : e ∈ ptInsert t p f) : e = (p, f) ∨ e ∈ t := by
  rcases List.mem_cons.1 h with h | h
  · exact Or.inl h
  · exact Or.inr (mem_ptErase h)

theorem ptLookup_mem {t : List (Int × Nat)} {p : Int} {f : Nat}
    (h : ptLookup t p = some f) : (p, f) ∈ t := by
  simp only [ptLookup, Option.map_eq_some'] at h
  obtain ⟨e, he, hef⟩ := h
  have h1 : e.1 = p := by simpa using List.find?_some he
  have h2 := List.mem_of_find?_eq_some he
  have : e = (p, f) := by
    cases e; simp_all
  exact this ▸ h2

theorem frames_setFrame (s : BPMState) (f : Nat) (fr : Frame) :
    (setFrame s f fr).frames.length = s.frames.length := by
  simp [setFrame]

theorem frameAt_set_self {s : BPMState} {f : Nat} (fr : Frame)
    (h : f < s.frames.length) : frameAt (setFrame s f fr) f = fr := by
  simp [frameAt, setFrame, List.getElem?_set_self h]

theorem frameAt_set_ne {s : BPMState} {f g : Nat} (fr : Frame)
    (h : g ≠ f) : frameAt (setFrame s f fr) g = frameAt s g := by
  simp [frameAt, setFrame, List.getElem?_set_ne (fun he => h he.symm)]

theorem mem_replacerPin {l : List Nat} {f g : Nat}
    (h : g ∈ replacerPin l f) : g ∈ l := by
  unfold replacerPin at h
  by_cases hf : f ∈ l
  · rw [if_pos hf] at h; exact (List.mem_of_mem_erase h)
  · rwa [if_neg hf] at h

theorem nodup_replacerPin {l : List Nat} (h : l.Nodup) (f : Nat) :
    (replacerPin l f).Nodup := by
  unfold replacerPin
  by_cases hf : f ∈ l
  · rw [if_pos hf]; exact h.erase f
  · rwa [if_neg hf]

theorem not_mem_replacerPin {l : List Nat} (h : l.Nodup) (f : Nat) :
    f ∉ replacerPin l f := by
  unfold replacerPin
  by_cases hf : f ∈ l
  · rw [if_pos hf]; exact h.not_mem_erase
  · rwa [if_neg hf]

theorem mem_replacerUnpin {l : List Nat} {f g : Nat}
    (h : g ∈ replacerUnpin l f) : g ∈ l ∨ g = f := by
  unfold replacerUnpin at h
  by_cases hf : f ∈ l
  · rw [if_pos hf] at h; exact Or.inl h
  · rw [if_neg hf] at h
    rcases List.mem_cons.1 h with h | h
    · exact Or.inr h
    · exact Or.inl h

theorem nodup_replacerUnpin {l : List Nat} (h : l.Nodup) (f : Nat) :
    (replacerUnpin l f).Nodup := by
  unfold replacerUnpin
  by_cases hf : f ∈ l
  · rwa [if_pos hf]
  · rw [if_neg hf]; exact List.nodup_cons.2 ⟨hf, h⟩

theorem getLast_not_mem_dropLast {l : List Nat} (h : l.Nodup) {f : Nat}
    (hl : l.getLast? = some f) : f ∉ l.dropLast := by
  obtain ⟨ys, rfl⟩ := List.getLast?_eq_some_iff.1 hl
  intro hmem
  rw [List.dropLast_concat] at hmem
  exact (List.disjoint_of_nodup_append h) hmem (by simp)

theorem inv_init (n : Nat) : Inv (initState n) := by
  have hframe : ∀ f, f < n → frameAt (initState n) f = initFrame := by
    intro f hf
    simp [initState, frameAt, List.getElem?_replicate, hf]
  refine ⟨?_, ?_, ?_, ?_, ?_, ?_, ?_, ?_, ?_⟩
  · simpa [initState] using List.nodup_range n
  · intro f hf
    have hlt : f < n := List.mem_range.1 hf
    exact ⟨by simpa [initState] using hlt, hframe f hlt⟩
  · intro e he; simp [initState] at he
  · intro f hlt hne
    rw [hframe f (by simpa [initState] using hlt)] at hne
    simp [initFrame, INVALID_PAGE_ID] at hne
  · intro f hf; simp [initState] at hf
  · simp [initState]
  · intro f hlt
    rw [hframe f (by simpa [initState] using hlt)]
    simp [initFrame]
  · intro f hlt
    rw [hframe f (by simpa [initState] using hlt)]
    simp [initFrame, initState]
  · simp [initState]

theorem fetchInstall_eq (s : BPMState) (pid : Int) (f : Nat) :
    fetchInstall s pid f =
      { frames := s.frames.set f
          { frameAt s f with
            pageId := pid, isDirty := false
            pinCount := (frameAt s f).pinCount + 1 }
        pageTable := ptInsert
          (if (frameAt s f).pageId ≠ INVALID_PAGE_ID then
            ptErase s.pageTable (frameAt s f).pageId
          else s.pageTable) pid f
        freeList := s.freeList
        replacer := replacerPin s.replacer f
        nextAlloc := s.nextAlloc
        deallocated := s.deallocated } := by
  simp only [fetchInstall]
  by_cases hv : (frameAt s f).pageId = INVALID_PAGE_ID
  · rw [if_neg (fun hc => hc hv), if_neg (fun hc => hc hv)]
    rfl
  · rw [if_pos hv, if_pos hv]
    rfl

theorem inv_fetchInstall {s : BPMState} {pid : Int} {f : Nat} (hInv : Inv s)
    (hf : f < s.frames.length) (hpin : (frameAt s f).pinCount = 0)
    (hnfl : f ∉ s.freeList) (hnrep : f ∉ s.replacer)
    (hlook : ptLookup s.pageTable pid = none)
    (hp0 : 0 ≤ pid) (hplt : pid < s.nextAlloc) :
    Inv (fetchInstall s pid f) := by
  rw [fetchInstall_eq]
  set fr' : Frame :=
    { frameAt s f with
      pageId := pid, isDirty := false
      pinCount := (frameAt s f).pinCount + 1 } with hfr'
  set t1 : List (Int × Nat) :=
    (if (frameAt s f).pageId ≠ INVALID_PAGE_ID then
      ptErase s.pageTable (frameAt s f).pageId
    else s.pageTable) with ht1
  set r : BPMState :=
    { frames := s.frames.set f fr'
      pageTable := ptInsert t1 pid f
      freeList := s.freeList
      replacer := replacerPin s.replacer f
      nextAlloc := s.nextAlloc
      deallocated := s.deallocated } with hr
  have hlen : r.frames.length = s.frames.length := by simp [hr]
  have hAtF : frameAt r f = fr' := by
    simp [hr, frameAt, List.getElem?_set_self (by simpa using hf)]
  have hAtNe : ∀ g, g ≠ f → frameAt r g = frameAt s g := by
    intro g hg
    simp [hr, frameAt, List.getElem?_set_ne (fun he => hg he.symm)]
  have hpidne : pid ≠ INVALID_PAGE_ID := by
    simp only [INVALID_PAGE_ID]; omega
  have hmem_t1 : ∀ e ∈ t1, e ∈ s.pageTable := by
    intro e he
    rw [ht1] at he
    by_cases hv : (frameAt s f).pageId = INVALID_PAGE_ID
    · simpa [hv] using he
    · rw [if_pos hv] at he
      exact mem_ptErase he
  have hlook_t1 : ptLookup t1 pid = none := by
    rw [ht1]
    by_cases hv : (frameAt s f).pageId = INVALID_PAGE_ID
    · simpa [hv] using hlook
    · rw [if_pos hv]
      by_cases hpv : pid = (frameAt s f).pageId
      · rw [hpv]; exact ptLookup_erase_self _ _
      · rw [ptLookup_erase_ne _ _ _ hpv]; exact hlook
  refine ⟨?_, ?_, ?_, ?_, ?_, ?_, ?_, ?_, ?_⟩
  · simpa [hr] using hInv.flNodup
  · intro g hg
    have hgmem : g ∈ s.freeList := by simpa [hr] using hg
    have hgne : g ≠ f := fun he => hnfl (he ▸ hgmem)
    have := hInv.flFree g hgmem
    rw [hlen, hAtNe g hgne]
    exact this
  · intro e he
    have he' : e ∈ ptInsert t1 pid f := by simpa [hr] using he
    rcases mem_ptInsert he' with h | h
    · subst h
      exact ⟨by simpa [hlen] using hf, hpidne, by simpa [hr] using hplt⟩
    · have := hInv.tabEntry e (hmem_t1 e h)
      exact ⟨by simpa [hlen] using this.1, this.2.1, by simpa [hr] using this.2.2⟩
  · intro g hg hne
    by_cases hgf : g = f
    · subst hgf
      rw [hAtF]
      show ptLookup (ptInsert t1 pid g) pid = some g
      exact ptLookup_insert_self t1 pid g
    · rw [hAtNe g hgf] at hne ⊢
      have hglen : g < s.frames.length := by simpa [hlen] using hg
      have hres := hInv.resLookup g hglen hne
      have hgp : (frameAt s g).pageId ≠ pid := by
        intro he
        rw [he] at hres
        rw [hres] at hlook
        exact Option.noConfusion hlook
      show ptLookup (ptInsert t1 pid f) (frameAt s g).pageId = some g
      rw [ptLookup_insert_ne t1 pid f _ hgp]
      rw [ht1]
      by_cases hv : (frameAt s f).pageId = INVALID_PAGE_ID
      · simpa [hv] using hres
      · rw [if_pos hv]
        have hgv : (frameAt s g).pageId ≠ (frameAt s f).pageId := by
          intro he
          have hresf := hInv.resLookup f hf hv
          rw [← he, hres] at hresf
          exact hgf (Option.some.injEq _ _ ▸ hresf)
        rw [ptLookup_erase_ne _ _ _ hgv]
        exact hres
  · intro g hg
    have hgmem : g ∈ s.replacer := mem_replacerPin (by simpa [hr] using hg)
    have hgne : g ≠ f := fun he => hnrep (he ▸ hgmem)
    have := hInv.repTracked g hgmem
    rw [hlen, hAtNe g hgne]
    exact this
  · simpa [hr] using nodup_replacerPin hInv.repNodup f
  · intro g hg
    by_cases hgf : g = f
    · subst hgf
      rw [hAtF, hfr']
      simp only
      have := hInv.pinNonneg g (by simpa [hlen] using hg)
      omega
    · rw [hAtNe g hgf]
      exact hInv.pinNonneg g (by simpa [hlen] using hg)
  · intro g hg
    by_cases hgf : g = f
    · subst hgf
      rw [hAtF, hfr']
      simpa [hr] using hplt
    · rw [hAtNe g hgf]
      simpa [hr] using hInv.pidLt g (by simpa [hlen] using hg)
  · simpa [hr] using hInv.allocNonneg

theorem inv_fetchMiss {s : BPMState} {pid : Int} (hInv : Inv s)
    (hlook : ptLookup s.pageTable pid = none)
    (hp0 : 0 ≤ pid) (hplt : pid < s.nextAlloc) :
    Inv (fetchMiss s pid).2 := by
  unfold fetchMiss
  cases hfl : s.freeList.getLast? with
  | some f =>
      have hmem : f ∈ s.freeList := List.mem_of_getLast?_eq_some hfl
      obtain ⟨hflt, hfr⟩ := hInv.flFree f hmem
      set s' : BPMState := { s with freeList := s.freeList.dropLast } with hs'
      have hInv' : Inv s' := by
        refine ⟨?_, ?_, hInv.tabEntry, hInv.resLookup, hInv.repTracked,
          hInv.repNodup, hInv.pinNonneg, hInv.pidLt, hInv.allocNonneg⟩
        · exact hInv.flNodup.sublist (List.dropLast_sublist s.freeList)
        · intro g hg
          exact hInv.flFree g ((List.dropLast_sublist s.freeList).mem hg)
      refine inv_fetchInstall hInv' hflt ?_ ?_ ?_ hlook hp0 hplt
      · show (frameAt s f).pinCount = 0
        rw [hfr]; rfl
      · exact getLast_not_mem_dropLast hInv.flNodup hfl
      · intro hc
        have := (hInv.repTracked f hc).2.1
        rw [hfr] at this
        exact this rfl
  | none =>
      cases hrv : replacerVictim s.replacer with
      | none => exact hInv
      | some p =>
          obtain ⟨f, rep⟩ := p
          have hdef : s.replacer.getLast? = some f ∧ rep = s.replacer.dropLast := by
            unfold replacerVictim at hrv
            cases hgl : s.replacer.getLast? with
            | none => rw [hgl] at hrv; exact absurd hrv (by simp)
            | some a =>
                rw [hgl] at hrv
                simp only [Option.some.injEq, Prod.mk.injEq] at hrv
                exact ⟨by rw [hrv.1], hrv.2.symm⟩
          have hmem : f ∈ s.replacer := List.mem_of_getLast?_eq_some hdef.1
          obtain ⟨hflt, hfv, hfp⟩ := hInv.repTracked f hmem
          set s' : BPMState := { s with replacer := rep } with hs'
          have hInv' : Inv s' := by
            refine ⟨hInv.flNodup, hInv.flFree, hInv.tabEntry, hInv.resLookup,
              ?_, ?_, hInv.pinNonneg, hInv.pidLt, hInv.allocNonneg⟩
            · intro g hg
              have hg' : g ∈ s.replacer.dropLast := by
                rw [← hdef.2]
                simpa using hg
              exact hInv.repTracked g ((List.dropLast_sublist s.replacer).mem hg')
            · show rep.Nodup
              rw [hdef.2]
              exact hInv.repNodup.sublist (List.dropLast_sublist s.replacer)
          refine inv_fetchInstall hInv' hflt hfp ?_ ?_ hlook hp0 hplt
          · intro hc
            have := (hInv.flFree f (by simpa using hc)).2
            rw [this] at hfv
            exact hfv rfl
          · show f ∉ rep
            rw [hdef.2]
            exact getLast_not_mem_dropLast hInv.repNodup hdef.1

theorem inv_eraseStale {s : BPMState} {pid : Int} {f : Nat} (hInv : Inv s)
    (hlk : ptLookup s.pageTable pid = some f)
    (hmis : (frameAt s f).pageId ≠ pid) :
    Inv { s with pageTable := ptErase s.pageTable pid } := by
  have hnores : ∀ g, g < s.frames.length → (frameAt s g).pageId ≠ pid := by
    intro g hg he
    have hne : (frameAt s g).pageId ≠ INVALID_PAGE_ID := by
      rw [he]
      exact (hInv.tabEntry _ (ptLookup_mem hlk)).2.1
    have hres := hInv.resLookup g hg hne
    rw [he, hlk] at hres
    have hfg : f = g := by simpa using hres
    rw [hfg] at hmis
    exact hmis he
  refine ⟨hInv.flNodup, hInv.flFree, ?_, ?_, hInv.repTracked, hInv.repNodup,
    hInv.pinNonneg, hInv.pidLt, hInv.allocNonneg⟩
  · intro e he
    exact hInv.tabEntry e (mem_ptErase he)
  · intro g hg hne
    show ptLookup (ptErase s.pageTable pid) (frameAt s g).pageId = some g
    rw [ptLookup_erase_ne _ _ _ (hnores g hg)]
    exact hInv.resLookup g hg hne

theorem inv_fetch {s : BPMState} {pid : Int} (hInv : Inv s)
    (hp0 : 0 ≤ pid) (hplt : pid < s.nextAlloc) :
    Inv (FetchPageImpl s pid).2 := by
  unfold FetchPageImpl
  cases hlk : ptLookup s.pageTable pid with
  | none => exact inv_fetchMiss hInv hlk hp0 hplt
  | some f =>
      dsimp only
      obtain ⟨hflt, hpidv, -⟩ := hInv.tabEntry _ (ptLookup_mem hlk)
      by_cases hmt : (frameAt s f).pageId = pid
      · rw [if_pos hmt]
        set fr' : Frame :=
          { frameAt s f with pinCount := (frameAt s f).pinCount + 1 } with hfr'
        set r : BPMState :=
          { setFrame s f fr' with replacer := replacerPin s.replacer f } with hr
        have hlen : r.frames.length = s.frames.length := by
          simp [hr, setFrame]
        have hAtF : frameAt r f = fr' := by
          have : frameAt r f = frameAt (setFrame s f fr') f := rfl
          rw [this, frameAt_set_self fr' hflt]
        have hAtNe : ∀ g, g ≠ f → frameAt r g = frameAt s g := by
          intro g hg
          have : frameAt r g = frameAt (setFrame s f fr') g := rfl
          rw [this, frameAt_set_ne fr' hg]
        show Inv r
        refine ⟨?_, ?_, ?_, ?_, ?_, ?_, ?_, ?_, ?_⟩
        · simpa [hr, setFrame] using hInv.flNodup
        · intro g hg
          have hgm : g ∈ s.freeList := by simpa [hr, setFrame] using hg
          have hgf : g ≠ f := by
            intro he
            have := (hInv.flFree g hgm).2
            rw [he] at this
            rw [this] at hmt
            rw [← hmt] at hpidv
            exact hpidv rfl
          rw [hlen, hAtNe g hgf]
          exact hInv.flFree g hgm
        · intro e he
          have : e ∈ s.pageTable := by simpa [hr, setFrame] using he
          have h := hInv.tabEntry e this
          exact ⟨by simpa [hlen] using h.1, h.2.1, by simpa [hr, setFrame] using h.2.2⟩
        · intro g hg hne
          by_cases hgf : g = f
          · subst hgf
            rw [hAtF]
            show ptLookup s.pageTable fr'.pageId = some g
            have : fr'.pageId = (frameAt s g).pageId := rfl
            rw [this, hmt]
            exact hlk
          · rw [hAtNe g hgf] at hne ⊢
            show ptLookup s.pageTable (frameAt s g).pageId = some g
            exact hInv.resLookup g (by simpa [hlen] using hg) hne
        · intro g hg
          have hgm : g ∈ s.replacer :=
            mem_replacerPin (by simpa [hr, setFrame] using hg)
          have hgf : g ≠ f := by
            intro he
            subst he
            exact not_mem_replacerPin hInv.repNodup g
              (by simpa [hr, setFrame] using hg)
          rw [hlen, hAtNe g hgf]
          exact hInv.repTracked g hgm
        · simpa [hr, setFrame] using nodup_replacerPin hInv.repNodup f
        · intro g hg
          by_cases hgf : g = f
          · subst hgf
            rw [hAtF]
            have := hInv.pinNonneg g hflt
            show 0 ≤ (frameAt s g).pinCount + 1
            omega
          · rw [hAtNe g hgf]
            exact hInv.pinNonneg g (by simpa [hlen] using hg)
        · intro g hg
          by_cases hgf : g = f
          · subst hgf
            rw [hAtF]
            show fr'.pageId < r.nextAlloc
            have : fr'.pageId = (frameAt s g).pageId := rfl
            rw [this]
            simpa [hr, setFrame] using hInv.pidLt g hflt
          · rw [hAtNe g hgf]
            simpa [hr, setFrame] using hInv.pidLt g (by simpa [hlen] using hg)
        · simpa [hr, setFrame] using hInv.allocNonneg
      · rw [if_neg hmt]
        have hInv' := inv_eraseStale hInv hlk hmt
        exact inv_fetchMiss hInv' (by simpa using ptLookup_erase_self s.pageTable pid)
          hp0 hplt

/-- A frame whose metadata changes but whose `pageId` stays fixed keeps
every invariant component that mentions only table, free list, replacer
and the other frames; this lemma packages the common reasoning for
`UnpinPageImpl` and `FlushPageImpl`, which touch a single resident frame's
`pinCount`/`isDirty`. -/
theorem inv_setResident {s : BPMState} {f : Nat} {fr' : Frame} (hInv : Inv s)
    (hf : f < s.frames.length)
    (hpg : fr'.pageId = (frameAt s f).pageId)
    (hvalid : (frameAt s f).pageId ≠ INVALID_PAGE_ID)
    (hpin : 0 ≤ fr'.pinCount)
    (hrep : ∀ hmem : f ∈ s.replacer, fr'.pinCount = 0) :
    Inv (setFrame s f fr') := by
  have hlen : (setFrame s f fr').frames.length = s.frames.length :=
    frames_setFrame s f fr'
  have hAtF : frameAt (setFrame s f fr') f = fr' := frameAt_set_self fr' hf
  have hAtNe : ∀ g, g ≠ f → frameAt (setFrame s f fr') g = frameAt s g :=
    fun g hg => frameAt_set_ne fr' hg
  refine ⟨?_, ?_, ?_, ?_, ?_, ?_, ?_, ?_, ?_⟩
  · simpa [setFrame] using hInv.flNodup
  · intro g hg
    have hgm : g ∈ s.freeList := by simpa [setFrame] using hg
    have hgf : g ≠ f := by
      intro he
      have := (hInv.flFree g hgm).2
      rw [he] at this
      rw [this] at hvalid
      exact hvalid rfl
    rw [hlen, hAtNe g hgf]
    exact hInv.flFree g hgm
  · intro e he
    have : e ∈ s.pageTable := by simpa [setFrame] using he
    have h := hInv.tabEntry e this
    exact ⟨by simpa [hlen] using h.1, h.2.1, by simpa [setFrame] using h.2.2⟩
  · intro g hg hne
    by_cases hgf : g = f
    · subst hgf
      rw [hAtF] at hne ⊢
      rw [hpg] at hne ⊢
      show ptLookup s.pageTable (frameAt s g).pageId = some g
      exact hInv.resLookup g hf hne
    · rw [hAtNe g hgf] at hne ⊢
      show ptLookup s.pageTable (frameAt s g).pageId = some g
      exact hInv.resLookup g (by simpa [hlen] using hg) hne
  · intro g hg
    have hgm : g ∈ s.replacer := by simpa [setFrame] using hg
    have h := hInv.repTracked g hgm
    by_cases hgf : g = f
    · subst hgf
      rw [hlen, hAtF, hpg]
      exact ⟨h.1, h.2.1, hrep hgm⟩
    · rw [hlen, hAtNe g hgf]
      exact h
  · simpa [setFrame] using hInv.repNodup
  · intro g hg
    by_cases hgf : g = f
    · subst hgf; rw [hAtF]; exact hpin
    · rw [hAtNe g hgf]
      exact hInv.pinNonneg g (by simpa [hlen] using hg)
  · intro g hg
    by_cases hgf : g = f
    · subst hgf
      rw [hAtF]
      show fr'.pageId < (setFrame s g fr').nextAlloc
      rw [hpg]
      simpa [setFrame] using hInv.pidLt g hf
    · rw [hAtNe g hgf]
      simpa [setFrame] using hInv.pidLt g (by simpa [hlen] using hg)
  · simpa [setFrame] using hInv.allocNonneg

theorem inv_unpin {s : BPMState} {pid : Int} {d : Bool} (hInv : Inv s) :
    Inv (UnpinPageImpl s pid d).2 := by
  unfold UnpinPageImpl
  cases hlk : ptLookup s.pageTable pid with
  | none => exact hInv
  | some f =>
      dsimp only
      obtain ⟨hflt, hpidv, -⟩ := hInv.tabEntry _ (ptLookup_mem hlk)
      by_cases hmt : (frameAt s f).pageId = pid
      · rw [if_neg (fun hc => hc hmt)]
        set fr1 : Frame :=
          { frameAt s f with isDirty := d || (frameAt s f).isDirty } with hfr1
        have hvalid : (frameAt s f).pageId ≠ INVALID_PAGE_ID := by
          rw [hmt]; exact hpidv
        by_cases hpc : 0 < fr1.pinCount
        · rw [if_pos hpc]
          set fr2 : Frame := { fr1 with pinCount := fr1.pinCount - 1 } with hfr2
          have hInv1 : Inv (setFrame s f fr2) := by
            refine inv_setResident hInv hflt rfl hvalid (by show 0 ≤ fr1.pinCount - 1; omega) ?_
            · intro hmem
              have := (hInv.repTracked f hmem).2.2
              have hfr1pin : fr1.pinCount = (frameAt s f).pinCount := rfl
              omega
          by_cases hz : fr2.pinCount = 0
          · rw [if_pos hz]
            dsimp only
            set s1 := setFrame s f fr2 with hs1
            have hlen1 : s1.frames.length = s.frames.length := frames_setFrame s f fr2
            have hAtF1 : frameAt s1 f = fr2 := frameAt_set_self fr2 hflt
            refine ⟨hInv1.flNodup, hInv1.flFree, hInv1.tabEntry, hInv1.resLookup,
              ?_, ?_, hInv1.pinNonneg, hInv1.pidLt, hInv1.allocNonneg⟩
            · intro g hg
              rcases mem_replacerUnpin hg with hg' | hg'
              · exact hInv1.repTracked g hg'
              · have h1 : f < s1.frames.length := by simpa [hlen1] using hflt
                have h2 : (frameAt s1 f).pageId ≠ INVALID_PAGE_ID := by
                  rw [hAtF1]
                  exact hvalid
                have h3 : (frameAt s1 f).pinCount = 0 := by
                  rw [hAtF1]
                  exact hz
                refine ⟨?_, ?_, ?_⟩
                · rw [hg']; exact h1
                · rw [hg']; exact h2
                · rw [hg']; exact h3
            · exact nodup_replacerUnpin hInv1.repNodup f
          · rw [if_neg hz]
            exact hInv1
        · rw [if_neg hpc]
          refine inv_setResident hInv hflt rfl hvalid ?_ ?_
          · show 0 ≤ (frameAt s f).pinCount
            exact hInv.pinNonneg f hflt
          · intro hmem
            exact (hInv.repTracked f hmem).2.2
      · rw [if_pos hmt]
        exact inv_eraseStale hInv hlk hmt

theorem inv_flush {s : BPMState} {pid : Int} (hInv : Inv s) :
    Inv (FlushPageImpl s pid).2 := by
  unfold FlushPageImpl
  cases hlk : ptLookup s.pageTable pid with
  | none => exact hInv
  | some f =>
      dsimp only
      obtain ⟨hflt, hpidv, -⟩ := hInv.tabEntry _ (ptLookup_mem hlk)
      by_cases hmt : (frameAt s f).pageId = pid
      · rw [if_neg (fun hc => hc hmt)]
        refine inv_setResident hInv hflt rfl (by rw [hmt]; exact hpidv) ?_ ?_
        · show 0 ≤ (frameAt s f).pinCount
          exact hInv.pinNonneg f hflt
        · intro hmem
          exact (hInv.repTracked f hmem).2.2
      · rw [if_pos hmt]
        exact hInv

theorem newInstall_eq (s : BPMState) (f : Nat) :
    newInstall s f = ((s.nextAlloc, f),
      { frames := s.frames.set f ⟨s.nextAlloc, 1, false⟩
        pageTable := ptInsert
          (if (frameAt s f).pageId ≠ INVALID_PAGE_ID then
            ptErase s.pageTable (frameAt s f).pageId
          else s.pageTable) s.nextAlloc f
        freeList := s.freeList
        replacer := replacerPin s.replacer f
        nextAlloc := s.nextAlloc + 1
        deallocated := s.deallocated }) := by
  simp only [newInstall]
  by_cases hv : (frameAt s f).pageId = INVALID_PAGE_ID
  · rw [if_neg (fun hc => hc hv), if_neg (fun hc => hc hv)]
    rfl
  · rw [if_pos hv, if_pos hv]
    rfl

theorem inv_newInstall {s : BPMState} {f : Nat} (hInv : Inv s)
    (hf : f < s.frames.length)
    (hnfl : f ∉ s.freeList) (hnrep : f ∉ s.replacer) :
    Inv (newInstall s f).2 := by
  rw [newInstall_eq]
  set t1 : List (Int × Nat) :=
    (if (frameAt s f).pageId ≠ INVALID_PAGE_ID then
      ptErase s.pageTable (frameAt s f).pageId
    else s.pageTable) with ht1
  set r : BPMState :=
    { frames := s.frames.set f ⟨s.nextAlloc, 1, false⟩
      pageTable := ptInsert t1 s.nextAlloc f
      freeList := s.freeList
      replacer := replacerPin s.replacer f
      nextAlloc := s.nextAlloc + 1
      deallocated := s.deallocated } with hr
  have hlen : r.frames.length = s.frames.length := by simp [hr]
  have hAtF : frameAt r f = ⟨s.nextAlloc, 1, false⟩ := by
    simp [hr, frameAt, List.getElem?_set_self (by simpa using hf)]
  have hAtNe : ∀ g, g ≠ f → frameAt r g = frameAt s g := by
    intro g hg
    simp [hr, frameAt, List.getElem?_set_ne (fun he => hg he.symm)]
  have hpidne : s.nextAlloc ≠ INVALID_PAGE_ID := by
    have := hInv.allocNonneg
    simp only [INVALID_PAGE_ID]; omega
  have hmem_t1 : ∀ e ∈ t1, e ∈ s.pageTable := by
    intro e he
    rw [ht1] at he
    by_cases hv : (frameAt s f).pageId = INVALID_PAGE_ID
    · simpa [hv] using he
    · rw [if_pos hv] at he
      exact mem_ptErase he
  refine ⟨?_, ?_, ?_, ?_, ?_, ?_, ?_, ?_, ?_⟩
  · simpa [hr] using hInv.flNodup
  · intro g hg
    have hgmem : g ∈ s.freeList := by simpa [hr] using hg
    have hgne : g ≠ f := fun he => hnfl (he ▸ hgmem)
    have := hInv.flFree g hgmem
    rw [hlen, hAtNe g hgne]
    exact this
  · intro e he
    have he' : e ∈ ptInsert t1 s.nextAlloc f := by simpa [hr] using he
    rcases mem_ptInsert he' with h | h
    · subst h
      refine ⟨by simpa [hlen] using hf, hpidne, ?_⟩
      show s.nextAlloc < r.nextAlloc
      simp [hr]
    · have := hInv.tabEntry e (hmem_t1 e h)
      refine ⟨by simpa [hlen] using this.1, this.2.1, ?_⟩
      have h2 := this.2.2
      show e.1 < r.nextAlloc
      simp only [hr]
      omega
  · intro g hg hne
    by_cases hgf : g = f
    · subst hgf
      rw [hAtF]
      show ptLookup (ptInsert t1 s.nextAlloc g) s.nextAlloc = some g
      exact ptLookup_insert_self t1 s.nextAlloc g
    · rw [hAtNe g hgf] at hne ⊢
      have hglen : g < s.frames.length := by simpa [hlen] using hg
      have hres := hInv.resLookup g hglen hne
      have hgp : (frameAt s g).pageId ≠ s.nextAlloc := by
        have := hInv.pidLt g hglen
        omega
      show ptLookup (ptInsert t1 s.nextAlloc f) (frameAt s g).pageId = some g
      rw [ptLookup_insert_ne t1 s.nextAlloc f _ hgp]
      rw [ht1]
      by_cases hv : (frameAt s f).pageId = INVALID_PAGE_ID
      · simpa [hv] using hres
      · rw [if_pos hv]
        have hgv : (frameAt s g).pageId ≠ (frameAt s f).pageId := by
          intro he
          have hresf := hInv.resLookup f hf hv
          rw [← he, hres] at hresf
          exact hgf (Option.some.injEq _ _ ▸ hresf)
        rw [ptLookup_erase_ne _ _ _ hgv]
        exact hres
  · intro g hg
    have hgmem : g ∈ s.replacer := mem_replacerPin (by simpa [hr] using hg)
    have hgne : g ≠ f := fun he => hnrep (he ▸ hgmem)
    have := hInv.repTracked g hgmem
    rw [hlen, hAtNe g hgne]
    exact this
  · simpa [hr] using nodup_replacerPin hInv.repNodup f
  · intro g hg
    by_cases hgf : g = f
    · subst hgf
      rw [hAtF]
      show (0 : Int) ≤ 1
      omega
    · rw [hAtNe g hgf]
      exact hInv.pinNonneg g (by simpa [hlen] using hg)
  · intro g hg
    by_cases hgf : g = f
    · subst hgf
      rw [hAtF]
      show s.nextAlloc < r.nextAlloc
      simp [hr]
    · rw [hAtNe g hgf]
      have := hInv.pidLt g (by simpa [hlen] using hg)
      show (frameAt s g).pageId < r.nextAlloc
      simp only [hr]
      omega
  · show (0 : Int) ≤ r.nextAlloc
    have := hInv.allocNonneg
    simp only [hr]
    omega

theorem inv_newPage {s : BPMState} (hInv : Inv s) : Inv (NewPageImpl s).2 := by
  unfold NewPageImpl
  cases hfl : s.freeList.getLast? with
  | some f =>
      dsimp only
      have hmem : f ∈ s.freeList := List.mem_of_getLast?_eq_some hfl
      obtain ⟨hflt, hfr⟩ := hInv.flFree f hmem
      set s' : BPMState := { s with freeList := s.freeList.dropLast } with hs'
      have hInv' : Inv s' := by
        refine ⟨?_, ?_, hInv.tabEntry, hInv.resLookup, hInv.repTracked,
          hInv.repNodup, hInv.pinNonneg, hInv.pidLt, hInv.allocNonneg⟩
        · exact hInv.flNodup.sublist (List.dropLast_sublist s.freeList)
        · intro g hg
          exact hInv.flFree g ((List.dropLast_sublist s.freeList).mem hg)
      refine inv_newInstall hInv' hflt ?_ ?_
      · exact getLast_not_mem_dropLast hInv.flNodup hfl
      · intro hc
        have := (hInv.repTracked f hc).2.1
        rw [hfr] at this
        exact this rfl
  | none =>
      cases hrv : replacerVictim s.replacer with
      | none => exact hInv
      | some p =>
          dsimp only
          obtain ⟨f, rep⟩ := p
          have hdef : s.replacer.getLast? = some f ∧ rep = s.replacer.dropLast := by
            unfold replacerVictim at hrv
            cases hgl : s.replacer.getLast? with
            | none => rw [hgl] at hrv; exact absurd hrv (by simp)
            | some a =>
                rw [hgl] at hrv
                simp only [Option.some.injEq, Prod.mk.injEq] at hrv
                exact ⟨by rw [hrv.1], hrv.2.symm⟩
          have hmem : f ∈ s.replacer := List.mem_of_getLast?_eq_some hdef.1
          obtain ⟨hflt, hfv, hfp⟩ := hInv.repTracked f hmem
          set s' : BPMState := { s with replacer := rep } with hs'
          have hInv' : Inv s' := by
            refine ⟨hInv.flNodup, hInv.flFree, hInv.tabEntry, hInv.resLookup,
              ?_, ?_, hInv.pinNonneg, hInv.pidLt, hInv.allocNonneg⟩
            · intro g hg
              have hg' : g ∈ s.replacer.dropLast := by
                rw [← hdef.2]
                simpa using hg
              exact hInv.repTracked g ((List.dropLast_sublist s.replacer).mem hg')
            · show rep.Nodup
              rw [hdef.2]
              exact hInv.repNodup.sublist (List.dropLast_sublist s.replacer)
          refine inv_newInstall hInv' hflt ?_ ?_
          · intro hc
            have := (hInv.flFree f (by simpa using hc)).2
            rw [this] at hfv
            exact hfv rfl
          · show f ∉ rep
            rw [hdef.2]
            exact getLast_not_mem_dropLast hInv.repNodup hdef.1

theorem inv_delete {s : BPMState} {pid : Int} (hInv : Inv s) :
    Inv (DeletePageImpl s pid).2 := by
  have hInv0 : Inv { s with deallocated := s.deallocated ++ [pid] } :=
    ⟨hInv.flNodup, hInv.flFree, hInv.tabEntry, hInv.resLookup,
      hInv.repTracked, hInv.repNodup, hInv.pinNonneg, hInv.pidLt,
      hInv.allocNonneg⟩
  unfold DeletePageImpl
  cases hlk : ptLookup s.pageTable pid with
  | none => exact hInv0
  | some f =>
      dsimp only
      obtain ⟨hflt, hpidv, -⟩ := hInv.tabEntry _ (ptLookup_mem hlk)
      by_cases hmt : (frameAt s f).pageId = pid
      · rw [if_neg (fun hc => hc hmt)]
        by_cases hpc : (frameAt s f).pinCount = 0
        · rw [if_neg (fun hc => hc hpc)]
          set s0 : BPMState := { s with deallocated := s.deallocated ++ [pid] }
            with hs0
          set fr' : Frame :=
            { frameAt s f with pageId := INVALID_PAGE_ID, isDirty := false }
            with hfr'
          set s1 : BPMState := setFrame s0 f fr' with hs1
          have hflt0 : f < s0.frames.length := hflt
          have hlen1 : s1.frames.length = s.frames.length :=
            frames_setFrame s0 f fr'
          have hAtF1 : frameAt s1 f = fr' := frameAt_set_self fr' hflt0
          have hAtNe1 : ∀ g, g ≠ f → frameAt s1 g = frameAt s g :=
            fun g hg => frameAt_set_ne fr' hg
          have hfnfl : f ∉ s.freeList := by
            intro hc
            have := (hInv.flFree f hc).2
            rw [this] at hmt
            rw [← hmt] at hpidv
            exact hpidv rfl
          refine ⟨?_, ?_, ?_, ?_, ?_, ?_, ?_, ?_, ?_⟩
          · show (s1.freeList ++ [f]).Nodup
            have h1 : s1.freeList.Nodup := hInv.flNodup
            rw [List.nodup_append]
            refine ⟨h1, List.nodup_singleton f, ?_⟩
            intro a ha hb
            have hab : a = f := by simpa using hb
            subst hab
            exact hfnfl ha
          · intro g hg
            have hg' : g ∈ s1.freeList ++ [f] := hg
            rcases List.mem_append.1 hg' with h | h
            · have hgm : g ∈ s.freeList := h
              have hgne : g ≠ f := fun he => hfnfl (he ▸ hgm)
              have hh := hInv.flFree g hgm
              constructor
              · show g < s1.frames.length
                rw [hlen1]
                exact hh.1
              · show frameAt s1 g = initFrame
                rw [hAtNe1 g hgne]
                exact hh.2
            · have hgf : g = f := by simpa using h
              subst hgf
              constructor
              · show g < s1.frames.length
                rw [hlen1]
                exact hflt
              · show frameAt s1 g = initFrame
                rw [hAtF1, hfr']
                show Frame.mk INVALID_PAGE_ID (frameAt s g).pinCount false = initFrame
                rw [hpc]
                rfl
          · intro e he
            have he' : e ∈ s.pageTable := he
            have h := hInv.tabEntry e he'
            exact ⟨by simpa [hlen1] using h.1, h.2.1, h.2.2⟩
          · intro g hg hne
            have hg1 : g < s1.frames.length := hg
            have hne1 : (frameAt s1 g).pageId ≠ INVALID_PAGE_ID := hne
            show ptLookup s1.pageTable (frameAt s1 g).pageId = some g
            by_cases hgf : g = f
            · rw [hgf] at hne1
              rw [hAtF1] at hne1
              exact absurd (show fr'.pageId = INVALID_PAGE_ID from rfl) hne1
            · rw [hAtNe1 g hgf] at hne1
              rw [hAtNe1 g hgf]
              show ptLookup s.pageTable (frameAt s g).pageId = some g
              exact hInv.resLookup g (by simpa [hlen1] using hg1) hne1
          · intro g hg
            have hgm : g ∈ replacerPin s.replacer f := hg
            have hgmem : g ∈ s.replacer := mem_replacerPin hgm
            have hgne : g ≠ f := by
              intro he
              subst he
              exact not_mem_replacerPin hInv.repNodup g hgm
            have hh := hInv.repTracked g hgmem
            refine ⟨?_, ?_, ?_⟩
            · show g < s1.frames.length
              rw [hlen1]; exact hh.1
            · show (frameAt s1 g).pageId ≠ INVALID_PAGE_ID
              rw [hAtNe1 g hgne]
              exact hh.2.1
            · show (frameAt s1 g).pinCount = 0
              rw [hAtNe1 g hgne]
              exact hh.2.2
          · show (replacerPin s1.replacer f).Nodup
            exact nodup_replacerPin hInv.repNodup f
          · intro g hg
            show 0 ≤ (frameAt s1 g).pinCount
            by_cases hgf : g = f
            · rw [hgf, hAtF1, hfr']
              show 0 ≤ (frameAt s f).pinCount
              exact hInv.pinNonneg f hflt
            · rw [hAtNe1 g hgf]
              have hg1 : g < s1.frames.length := hg
              exact hInv.pinNonneg g (by simpa [hlen1] using hg1)
          · intro g hg
            show (frameAt s1 g).pageId < s.nextAlloc
            by_cases hgf : g = f
            · rw [hgf, hAtF1, hfr']
              show INVALID_PAGE_ID < s.nextAlloc
              have := hInv.allocNonneg
              simp only [INVALID_PAGE_ID]
              omega
            · rw [hAtNe1 g hgf]
              have hg1 : g < s1.frames.length := hg
              exact hInv.pidLt g (by simpa [hlen1] using hg1)
          · show (0 : Int) ≤ s.nextAlloc
            exact hInv.allocNonneg
        · rw [if_pos hpc]
          exact hInv0
      · rw [if_pos hmt]
        exact hInv0

/-- Every reachable buffer-pool state satisfies the invariant. -/
theorem inv_of_reachable {s : BPMState} (h : Reachable s) : Inv s := by
  induction h with
  | init n => exact inv_init n
  | fetch pid _ hp0 hplt ih => exact inv_fetch ih hp0 hplt
  | unpin pid d _ ih => exact inv_unpin ih
  | flush pid _ ih => exact inv_flush ih
  | newPage _ ih => exact inv_newPage ih
  | delete pid _ ih => exact inv_delete ih

theorem mem_replacerUnpin_self (l : List Nat) (f : Nat) :
    f ∈ replacerUnpin l f := by
  unfold replacerUnpin
  by_cases hf : f ∈ l
  · rw [if_pos hf]; exact hf
  · rw [if_neg hf]; exact List.mem_cons_self f l

/-- **C7** (amended).  In every reachable state: when the page is not
resident, `UnpinPage` returns `true` and either changes nothing or merely
erases a stale page-table entry left over by an earlier `DeletePage`; when
a frame `f` holds the page, the call ORs the supplied dirty flag into the
frame's dirty flag, returns `true` iff the pin count was positive (a
decrement occurred), decrements in that case, and when the pin count
reaches zero the frame is inserted into the replacer. -/
theorem unpinPage_spec (s : BPMState) (pid : Int) (d : Bool)
    (h : Reachable s) :
    (¬Resident s pid →
      (UnpinPageImpl s pid d).1 = true ∧
      ((UnpinPageImpl s pid d).2 = s ∨
        (UnpinPageImpl s pid d).2 =
          { s with pageTable := ptErase s.pageTable pid })) ∧
    (∀ f, f < s.frames.length → (frameAt s f).pageId = pid →
      pid ≠ INVALID_PAGE_ID →
      (frameAt (UnpinPageImpl s pid d).2 f).isDirty =
        (d || (frameAt s f).isDirty) ∧
      ((UnpinPageImpl s pid d).1 = true ↔ 0 < (frameAt s f).pinCount) ∧
      (0 < (frameAt s f).pinCount →
        (frameAt (UnpinPageImpl s pid d).2 f).pinCount =
          (frameAt s f).pinCount - 1) ∧
      ((frameAt s f).pinCount = 1 → f ∈ (UnpinPageImpl s pid d).2.replacer)) := by
  have hInv := inv_of_reachable h
  constructor
  · intro hnres
    unfold UnpinPageImpl
    cases hlk : ptLookup s.pageTable pid with
    | none => exact ⟨rfl, Or.inl rfl⟩
    | some f =>
        dsimp only
        obtain ⟨hflt, hpidv, -⟩ := hInv.tabEntry _ (ptLookup_mem hlk)
        by_cases hmt : (frameAt s f).pageId = pid
        · exact absurd ⟨hpidv, f, hflt, hmt⟩ hnres
        · rw [if_pos hmt]
          exact ⟨rfl, Or.inr rfl⟩
  · intro f hflt hpg hpidne
    have hlk : ptLookup s.pageTable pid = some f := by
      have := hInv.resLookup f hflt (by rw [hpg]; exact hpidne)
      rwa [hpg] at this
    unfold UnpinPageImpl
    rw [hlk]
    dsimp only
    rw [if_neg (fun hc => hc hpg)]
    by_cases hpc : 0 < (frameAt s f).pinCount
    · rw [if_pos hpc]
      by_cases hz : (frameAt s f).pinCount - 1 = 0
      · rw [if_pos hz]
        refine ⟨?_, by simpa using hpc, ?_, ?_⟩
        · show (frameAt (setFrame s f
            { pageId := (frameAt s f).pageId
              pinCount := (frameAt s f).pinCount - 1
              isDirty := d || (frameAt s f).isDirty }) f).isDirty =
            (d || (frameAt s f).isDirty)
          rw [frameAt_set_self _ hflt]
        · intro hp
          show (frameAt (setFrame s f
            { pageId := (frameAt s f).pageId
              pinCount := (frameAt s f).pinCount - 1
              isDirty := d || (frameAt s f).isDirty }) f).pinCount =
            (frameAt s f).pinCount - 1
          rw [frameAt_set_self _ hflt]
        · intro hp
          show f ∈ replacerUnpin (setFrame s f
            { pageId := (frameAt s f).pageId
              pinCount := (frameAt s f).pinCount - 1
              isDirty := d || (frameAt s f).isDirty }).replacer f
          exact mem_replacerUnpin_self _ f
      · rw [if_neg hz]
        refine ⟨?_, by simpa using hpc, ?_, ?_⟩
        · show (frameAt (setFrame s f
            { pageId := (frameAt s f).pageId
              pinCount := (frameAt s f).pinCount - 1
              isDirty := d || (frameAt s f).isDirty }) f).isDirty =
            (d || (frameAt s f).isDirty)
          rw [frameAt_set_self _ hflt]
        · intro hp
          show (frameAt (setFrame s f
            { pageId := (frameAt s f).pageId
              pinCount := (frameAt s f).pinCount - 1
              isDirty := d || (frameAt s f).isDirty }) f).pinCount =
            (frameAt s f).pinCount - 1
          rw [frameAt_set_self _ hflt]
        · intro hp
          exact absurd (by rw [hp]; decide : (frameAt s f).pinCount - 1 = 0) hz
    · rw [if_neg hpc]
      refine ⟨?_, ?_, ?_, ?_⟩
      · show (frameAt (setFrame s f
          { pageId := (frameAt s f).pageId
            pinCount := (frameAt s f).pinCount
            isDirty := d || (frameAt s f).isDirty }) f).isDirty =
          (d || (frameAt s f).isDirty)
        rw [frameAt_set_self _ hflt]
      · constructor
        · intro hc; exact absurd hc (by simp)
        · intro hc; exact absurd hc hpc
      · intro hp; exact absurd hp hpc
      · intro hp
        exact absurd (by rw [hp]; omega : 0 < (frameAt s f).pinCount) hpc

/-- Closed instance of `unpinPage_spec`: in the reachable pool-of-2 state
where `NewPage` produced page 0 pinned in frame 1, `UnpinPage(0, true)`
returns true, sets the dirty flag, and inserts frame 1 into the
replacer. -/
theorem unpinPage_spec_witness :
    ((UnpinPageImpl (NewPageImpl (initState 2)).2 0 true).1 = true) ∧
    (frameAt (UnpinPageImpl (NewPageImpl (initState 2)).2 0 true).2 1).isDirty
      = true ∧
    1 ∈ (UnpinPageImpl (NewPageImpl (initState 2)).2 0 true).2.replacer := by
  have h := unpinPage_spec (NewPageImpl (initState 2)).2 0 true
    (Reachable.newPage (Reachable.init 2))
  have hb := h.2 1 (by decide) (by decide) (by decide)
  refine ⟨(hb.2.1).2 (by decide), ?_, hb.2.2.2 (by decide)⟩
  rw [hb.1]
  decide

/-- **C7** (counterexample to the claim as stated).  In the reachable state
`c7state`, page 0 is not resident, yet `UnpinPage(0, false)` does not leave
the state unchanged: it erases the stale page-table entry that
`DeletePage` left behind (while still returning `true`). -/
theorem unpinPage_stale_changes_table :
    ¬Resident c7state 0 ∧
    (UnpinPageImpl c7state 0 false).1 = true ∧
    (UnpinPageImpl c7state 0 false).2.pageTable ≠ c7state.pageTable := by
  decide

/-- **C9**.  In every reachable state, `DeletePage` always records a
`DeallocatePage(pid)` call with the file manager, including on calls that
return `false`; it returns `false` iff some frame holds the page with a
nonzero pin count; and in that case the frames, page table, free list and
replacer are all left unchanged (only the ghost deallocation record
grows). -/
theorem deletePage_spec (s : BPMState) (pid : Int) (h : Reachable s) :
    ((DeletePageImpl s pid).2.deallocated = s.deallocated ++ [pid]) ∧
    ((DeletePageImpl s pid).1 = false ↔
      ∃ f, f < s.frames.length ∧ (frameAt s f).pageId = pid ∧
        pid ≠ INVALID_PAGE_ID ∧ (frameAt s f).pinCount ≠ 0) ∧
    ((DeletePageImpl s pid).1 = false →
      (DeletePageImpl s pid).2 =
        { s with deallocated := s.deallocated ++ [pid] }) := by
  have hInv := inv_of_reachable h
  unfold DeletePageImpl
  cases hlk : ptLookup s.pageTable pid with
  | none =>
      refine ⟨rfl, ?_, ?_⟩
      · constructor
        · intro hc; exact absurd hc (by simp)
        · rintro ⟨f, hflt, hpg, hpidne, hpin⟩
          exfalso
          have := hInv.resLookup f hflt (by rw [hpg]; exact hpidne)
          rw [hpg, hlk] at this
          exact Option.noConfusion this
      · intro hc; exact absurd hc (by simp)
  | some f =>
      dsimp only
      obtain ⟨hflt, hpidv, -⟩ := hInv.tabEntry _ (ptLookup_mem hlk)
      by_cases hmt : (frameAt s f).pageId = pid
      · rw [if_neg (fun hc => hc hmt)]
        by_cases hpc : (frameAt s f).pinCount = 0
        · rw [if_neg (fun hc => hc hpc)]
          refine ⟨rfl, ?_, ?_⟩
          · constructor
            · intro hc; exact absurd hc (by simp)
            · rintro ⟨g, hglt, hgp, hgne, hgpin⟩
              exfalso
              have hres := hInv.resLookup g hglt (by rw [hgp]; exact hgne)
              rw [hgp, hlk] at hres
              have hgf : f = g := by simpa using hres
              rw [← hgf] at hgpin
              exact hgpin hpc
          · intro hc; exact absurd hc (by simp)
        · rw [if_pos hpc]
          exact ⟨rfl, ⟨fun _ => ⟨f, hflt, hmt, hpidv, hpc⟩,
            fun _ => rfl⟩, fun _ => rfl⟩
      · rw [if_pos hmt]
        refine ⟨rfl, ?_, ?_⟩
        · constructor
          · intro hc; exact absurd hc (by simp)
          · rintro ⟨g, hglt, hgp, hgne, hgpin⟩
            exfalso
            have hres := hInv.resLookup g hglt (by rw [hgp]; exact hgne)
            rw [hgp, hlk] at hres
            have hgf : f = g := by simpa using hres
            rw [← hgf] at hgp
            exact hmt hgp
        · intro hc; exact absurd hc (by simp)

/-- Closed instance of `deletePage_spec`: deleting the pinned page 0 in the
reachable pool-of-2 state records the deallocation, returns false, and
changes nothing else. -/
theorem deletePage_spec_witness :
    ((DeletePageImpl (NewPageImpl (initState 2)).2 0).2.deallocated =
      (NewPageImpl (initState 2)).2.deallocated ++ [0]) ∧
    ((DeletePageImpl (NewPageImpl (initState 2)).2 0).1 = false) ∧
    ((DeletePageImpl (NewPageImpl (initState 2)).2 0).2 =
      { (NewPageImpl (initState 2)).2 with
        deallocated := (NewPageImpl (initState 2)).2.deallocated ++ [0] }) := by
  have h := deletePage_spec (NewPageImpl (initState 2)).2 0
    (Reachable.newPage (Reachable.init 2))
  have hfalse : (DeletePageImpl (NewPageImpl (initState 2)).2 0).1 = false :=
    h.2.1.mpr ⟨1, by decide, by decide, by decide, by decide⟩
  exact ⟨h.1, hfalse, h.2.2 hfalse⟩

/-- **C10**.  In every reachable state, every frame id on the free list is
in range and refers to a frame whose `page_id_` is `INVALID_PAGE_ID` and
whose pin count is 0; consequently, when `FetchPage` (on a miss) or
`NewPage` takes the frame at the back of a non-empty free list, the
eviction branch is skipped: the page table only gains the new entry, with
no entry erased (the dirty write-back of that branch is a disk effect,
also skipped, since the branch guard `GetPageId() != INVALID_PAGE_ID` is
false). -/
theorem freeList_frames_spec (s : BPMState) (h : Reachable s) :
    (∀ f ∈ s.freeList, f < s.frames.length ∧
      (frameAt s f).pageId = INVALID_PAGE_ID ∧ (frameAt s f).pinCount = 0) ∧
    (∀ pid f, ptLookup s.pageTable pid = none → s.freeList.getLast? = some f →
      (FetchPageImpl s pid).2.pageTable = ptInsert s.pageTable pid f) ∧
    (∀ f, s.freeList.getLast? = some f →
      (NewPageImpl s).2.pageTable = ptInsert s.pageTable s.nextAlloc f) := by
  have hInv := inv_of_reachable h
  have hfree : ∀ f ∈ s.freeList, f < s.frames.length ∧
      (frameAt s f).pageId = INVALID_PAGE_ID ∧ (frameAt s f).pinCount = 0 := by
    intro f hf
    obtain ⟨hlt, heq⟩ := hInv.flFree f hf
    refine ⟨hlt, ?_, ?_⟩
    · rw [heq]; rfl
    · rw [heq]; rfl
  refine ⟨hfree, ?_, ?_⟩
  · intro pid f hlk hgl
    have hinv2 := (hfree f (List.mem_of_getLast?_eq_some hgl)).2.1
    unfold FetchPageImpl
    rw [hlk]
    dsimp only
    unfold fetchMiss
    rw [hgl]
    dsimp only
    rw [fetchInstall_eq]
    show ptInsert
      (if (frameAt { s with freeList := s.freeList.dropLast } f).pageId
          ≠ INVALID_PAGE_ID then _ else _) pid f = ptInsert s.pageTable pid f
    have : (frameAt { s with freeList := s.freeList.dropLast } f).pageId =
        INVALID_PAGE_ID := hinv2
    rw [if_neg (fun hc => hc this)]
  · intro f hgl
    have hinv2 := (hfree f (List.mem_of_getLast?_eq_some hgl)).2.1
    unfold NewPageImpl
    rw [hgl]
    dsimp only
    rw [newInstall_eq]
    show ptInsert
      (if (frameAt { s with freeList := s.freeList.dropLast } f).pageId
          ≠ INVALID_PAGE_ID then _ else _) _ f = ptInsert s.pageTable s.nextAlloc f
    have : (frameAt { s with freeList := s.freeList.dropLast } f).pageId =
        INVALID_PAGE_ID := hinv2
    rw [if_neg (fun hc => hc this)]

/-- Closed instance of `freeList_frames_spec` at the freshly constructed
pool of 2 frames. -/
theorem freeList_frames_spec_witness :
    (1 < (initState 2).frames.length ∧
      (frameAt (initState 2) 1).pageId = INVALID_PAGE_ID ∧
      (frameAt (initState 2) 1).pinCount = 0) ∧
    (NewPageImpl (initState 2)).2.pageTable =
      ptInsert (initState 2).pageTable (initState 2).nextAlloc 1 := by
  have h := freeList_frames_spec (initState 2) (Reachable.init 2)
  exact ⟨h.1 1 (by decide), h.2.2 1 (by decide)⟩

end BufferPoolManager

theorem copyUpper_lt (src dst : Nat → Int × Int) (ofs n : Nat) {i : Nat}
    (h : i < n) : copyUpper src dst ofs n i = src (i + ofs) := by
  induction n with
  | zero => omega
  | succ n ih =>
      by_cases hi : i = n
      · subst hi; simp [copyUpper]
      · rw [copyUpper, Function.update_noteq hi]
        exact ih (by omega)

theorem copyUpper_ge (src dst : Nat → Int × Int) (ofs n : Nat) {i : Nat}
    (h : n ≤ i) : copyUpper src dst ofs n i = dst i := by
  induction n with
  | zero => rfl
  | succ n ih =>
      rw [copyUpper, Function.update_noteq (by omega)]
      exact ih (by omega)

namespace BPlusTree

/-- **C4** (evaluation at the failing input).  Inserting 1..7 with
`L = M = 3` yields leaves `[1]` and `[2,3,4,5,6,7]` — not the claimed
`[1,2][3,4][5,6,7]` — and a root with one separator, not two.  The cause:
the constructor stores `leaf_max_size - 1` and `Split` gives the new leaf
max size `leaf_max_size_ - 1 = 1` (its leaf max sizes are `[2, 1]`), so
the split-born leaf is overfull from birth and the split condition
`size == max_size + 1` never fires for it again.  `GetValue(4)` does
return the inserted value. -/
theorem insert_1_to_7_structure :
    rootLeaves c4tree = [[1], [2, 3, 4, 5, 6, 7]] ∧
    rootLeaves c4tree ≠ [[1, 2], [3, 4], [5, 6, 7]] ∧
    rootSepKeys c4tree = [2] ∧
    rootLeafMaxSizes c4tree = [2, 1] ∧
    GetValue c4tree 4 [] = (true, [104]) := by
  refine ⟨by decide, by decide, by decide, by decide, by decide⟩

/-- `getD` at an in-range index is the indexed element. -/
theorem getD_eq_getElem {α : Type} (l : List α) (d : α) {i : Nat} (h : i < l.length) :
    l.getD i d = l[i] := by
  simp [List.getD_eq_getElem?_getD, List.getElem?_eq_getElem h]

/-- Index-based facts transfer to the members of a `take` prefix. -/
theorem forall_mem_take {α : Type} {l : List α} (d : α) {m : Nat} {P : α → Prop}
    (h : ∀ i, i < m → i < l.length → P (l.getD i d)) : ∀ a ∈ l.take m, P a := by
  intro a ha
  obtain ⟨i, hi, hia⟩ := List.mem_iff_getElem.1 ha
  have hlen : i < m ∧ i < l.length := by
    simp [List.length_take] at hi
    omega
  have hP := h i hlen.1 hlen.2
  rw [getD_eq_getElem l d hlen.2] at hP
  rw [← hia, List.getElem_take]
  exact hP

/-- Index-based facts transfer to the members of a `drop` suffix. -/
theorem forall_mem_drop {α : Type} {l : List α} (d : α) {m : Nat} {P : α → Prop}
    (h : ∀ i, m ≤ i → i < l.length → P (l.getD i d)) : ∀ a ∈ l.drop m, P a := by
  intro a ha
  obtain ⟨i, hi, hia⟩ := List.mem_iff_getElem.1 ha
  have hlen : i < l.length - m := by simpa [List.length_drop] using hi
  have hP := h (m + i) (by omega) (by omega)
  rw [getD_eq_getElem l d (by omega)] at hP
  rw [← hia, List.getElem_drop]
  exact hP

/-- `Pairwise` at two in-range `getD` positions. -/
theorem pairwise_getD {α : Type} {R : α → α → Prop} {l : List α} (hs : l.Pairwise R)
    (d : α) {i j : Nat} (hij : i < j) (hj : j < l.length) :
    R (l.getD i d) (l.getD j d) := by
  have hi : i < l.length := by omega
  rw [getD_eq_getElem l d hi, getD_eq_getElem l d hj]
  exact List.pairwise_iff_getElem.1 hs i j hi hj hij

/-- In a list sorted strictly by `keyOf`, a predicate monotone downward in
the key holds exactly at the first `countP` positions. -/
theorem countP_sorted_iff {α : Type} (l : List α) (keyOf : α → Int) (d : α)
    (hs : l.Pairwise (fun a b => keyOf a < keyOf b)) (p : α → Bool)
    (hmono : ∀ a b, keyOf a ≤ keyOf b → p b = true → p a = true)
    {i : Nat} (hi : i < l.length) :
    i < l.countP p ↔ p (l.getD i d) = true := by
  constructor
  · intro hcnt
    by_contra hpi
    have hdrop : (l.drop i).countP p = 0 := by
      rw [List.countP_eq_zero]
      refine forall_mem_drop d ?_
      intro j hij hjl hpj
      have hle : keyOf (l.getD i d) ≤ keyOf (l.getD j d) := by
        rcases Nat.eq_or_lt_of_le hij with he | hlt
        · rw [he]
        · exact le_of_lt (pairwise_getD hs d hlt hjl)
      exact hpi (hmono _ _ hle hpj)
    have hsplit : l.countP p = (l.take i).countP p + (l.drop i).countP p := by
      conv_lhs => rw [← List.take_append_drop i l]
      exact List.countP_append ..
    have hlt : (l.take i).countP p ≤ i := by
      have h1 : (l.take i).countP p ≤ (l.take i).length := List.countP_le_length ..
      have h2 : (l.take i).length ≤ i := by simp [List.length_take]
      omega
    omega
  · intro hpi
    have htake : (l.take (i + 1)).countP p = (l.take (i + 1)).length := by
      rw [List.countP_eq_length]
      refine forall_mem_take d ?_
      intro j hji hjl
      have hle : keyOf (l.getD j d) ≤ keyOf (l.getD i d) := by
        rcases Nat.lt_or_ge j i with hlt | hge
        · exact le_of_lt (pairwise_getD hs d hlt hi)
        · have hji2 : j = i := by omega
          rw [hji2]
      exact hmono _ _ hle hpi
    have hlen : (l.take (i + 1)).length = i + 1 := by
      simp [List.length_take]
      omega
    have hsplit : l.countP p = (l.take (i + 1)).countP p + (l.drop (i + 1)).countP p := by
      conv_lhs => rw [← List.take_append_drop (i + 1) l]
      exact List.countP_append ..
    omega

/-- `find?` skips a prefix with no hit. -/
theorem find?_append_none {α : Type} {p : α → Bool} {l₁ : List α} (l₂ : List α)
    (h : l₁.find? p = none) : (l₁ ++ l₂).find? p = l₂.find? p := by
  induction l₁ with
  | nil => rfl
  | cons a l ih =>
      cases hpa : p a with
      | true =>
          rw [List.find?_cons_of_pos _ hpa] at h
          exact absurd h (by simp)
      | false =>
          rw [List.find?_cons_of_neg _ (by simp [hpa])] at h
          rw [List.cons_append, List.find?_cons_of_neg _ (by simp [hpa])]
          exact ih h

/-- `countP` of "key strictly below `k`" at an index of a sorted entry
list: the index is counted iff its key is below `k`. -/
theorem countLt_iff (l : List Entry) (k : Int)
    (hs : l.Pairwise (fun a b => a.1 < b.1)) {i : Nat} (hi : i < l.length) :
    i < l.countP (fun e => decide (e.1 < k)) ↔ (l.getD i (0, 0)).1 < k := by
  have h := countP_sorted_iff l Prod.fst (0, 0) hs (fun e => decide (e.1 < k)) ?_ hi
  · simpa using h
  · intro a b hab hpb
    simp only [decide_eq_true_eq] at hpb ⊢
    omega

/-- `countP` of "key at most `k`" at an index of a sorted key list. -/
theorem countLe_iff (keys : List Int) (k : Int)
    (hs : keys.Pairwise (fun a b => a < b)) {i : Nat} (hi : i < keys.length) :
    i < keys.countP (fun x => decide (x ≤ k)) ↔ keys.getD i 0 ≤ k := by
  have h := countP_sorted_iff keys id 0 hs (fun x => decide (x ≤ k)) ?_ hi
  · simpa using h
  · intro a b hab hpb
    simp only [id_eq] at hab
    simp only [decide_eq_true_eq] at hpb ⊢
    omega

/-- The leaf binary search returns the number of keys strictly below the
target (loop invariant of `KeyIndex`). -/
theorem keyIndexGo_eq (l : List Entry) (key : Int)
    (hs : l.Pairwise (fun a b => a.1 < b.1)) :
    ∀ (fuel : Nat) (st ed : Int),
      (ed + 1 - st).toNat < fuel →
      0 ≤ st → ed < (l.length : Int) → st ≤ ed + 1 →
      (∀ i : Nat, (i : Int) < st → (l.getD i (0, 0)).1 < key) →
      (∀ i : Nat, ed < (i : Int) → i < l.length → key ≤ (l.getD i (0, 0)).1) →
      keyIndexGo l key fuel st ed =
        (l.countP (fun e => decide (e.1 < key)) : Int) := by
  intro fuel
  induction fuel with
  | zero => intro st ed hf; omega
  | succ fuel ih =>
      intro st ed hf h0 hed hse hlow hhigh
      rw [keyIndexGo]
      by_cases hcase : st ≤ ed
      · rw [if_pos hcase]
        have htd : Int.tdiv (ed - st) 2 = (ed - st) / 2 :=
          Int.tdiv_eq_ediv (by omega) (by omega)
        set M := Int.tdiv (ed - st) 2 + st with hM
        have hMb : st ≤ M ∧ M ≤ ed := by
          rw [hM, htd]
          omega
        have hMnn : (M.toNat : Int) = M := Int.toNat_of_nonneg (by omega)
        have hMlen : M.toNat < l.length := by omega
        by_cases hk : key ≤ (l.getD M.toNat (0, 0)).1
        · rw [if_pos hk]
          refine ih st (M - 1) (by omega) h0 (by omega) (by omega) hlow ?_
          intro i hi hil
          rcases Nat.lt_or_ge M.toNat i with hgt | hle2
          · have hp := pairwise_getD hs (0, 0) hgt hil
            omega
          · have hieq : i = M.toNat := by omega
            rw [hieq]
            exact hk
        · rw [if_neg hk]
          push_neg at hk
          refine ih (M + 1) ed (by omega) (by omega) hed (by omega) ?_ hhigh
          intro i hi
          rcases Nat.lt_or_ge i M.toNat with hlt | hge
          · have hp := pairwise_getD hs (0, 0) hlt hMlen
            omega
          · have hieq : i = M.toNat := by omega
            rw [hieq]
            exact hk
      · rw [if_neg hcase]
        have hsted : st = ed + 1 := by omega
        have hclen : l.countP (fun e => decide (e.1 < key)) ≤ l.length :=
          List.countP_le_length ..
        set c := l.countP (fun e => decide (e.1 < key)) with hc
        rcases Nat.lt_trichotomy c st.toNat with hlt | heq | hgt
        · exfalso
          have hcl : c < l.length := by omega
          have hlo : (l.getD c (0, 0)).1 < key := hlow c (by omega)
          have hx := (countLt_iff l key hs hcl).2 hlo
          rw [← hc] at hx
          omega
        · omega
        · exfalso
          have hsl : st.toNat < l.length := by omega
          have hp := (countLt_iff l key hs hsl).1 hgt
          have hhi := hhigh st.toNat (by omega) hsl
          omega

/-- `KeyIndex` on a sorted entry list is the number of keys strictly
below the target. -/
theorem KeyIndex_eq (l : List Entry) (key : Int)
    (hs : l.Pairwise (fun a b => a.1 < b.1)) :
    KeyIndex l key = (l.countP (fun e => decide (e.1 < key)) : Int) := by
  refine keyIndexGo_eq l key hs (l.length + 1) 0 ((l.length : Int) - 1)
    (by omega) (by omega) (by omega) (by omega) ?_ ?_
  · intro i hi
    omega
  · intro i hi hil
    omega

/-- The internal binary search returns one more than the number of
separator keys at most the target (loop invariant of internal
`Lookup`). -/
theorem lookupGo_eq (keys : List Int) (key : Int)
    (hs : keys.Pairwise (fun a b => a < b)) :
    ∀ (fuel : Nat) (st ed : Int),
      (ed + 1 - st).toNat < fuel →
      1 ≤ st → ed ≤ (keys.length : Int) → st ≤ ed + 1 →
      (∀ i : Nat, ((i : Int) + 1) < st → i < keys.length → keys.getD i 0 ≤ key) →
      (∀ i : Nat, ed < ((i : Int) + 1) → i < keys.length → key < keys.getD i 0) →
      lookupGo keys key fuel st ed =
        (keys.countP (fun x => decide (x ≤ key)) : Int) + 1 := by
  intro fuel
  induction fuel with
  | zero => intro st ed hf; omega
  | succ fuel ih =>
      intro st ed hf h1 hed hse hlow hhigh
      rw [lookupGo]
      by_cases hcase : st ≤ ed
      · rw [if_pos hcase]
        have htd : Int.tdiv (ed - st) 2 = (ed - st) / 2 :=
          Int.tdiv_eq_ediv (by omega) (by omega)
        set M := Int.tdiv (ed - st) 2 + st with hM
        have hMb : st ≤ M ∧ M ≤ ed := by
          rw [hM, htd]
          omega
        have hMnn : ((M - 1).toNat : Int) = M - 1 := Int.toNat_of_nonneg (by omega)
        have hMlen : (M - 1).toNat < keys.length := by omega
        by_cases hk : keys.getD (M - 1).toNat 0 ≤ key
        · rw [if_pos hk]
          refine ih (M + 1) ed (by omega) (by omega) hed (by omega) ?_ hhigh
          intro i hi hil
          rcases Nat.lt_or_ge i (M - 1).toNat with hlt | hge
          · have hp := pairwise_getD hs 0 hlt hMlen
            omega
          · have hieq : i = (M - 1).toNat := by omega
            rw [hieq]
            exact hk
        · rw [if_neg hk]
          push_neg at hk
          refine ih st (M - 1) (by omega) h1 (by omega) (by omega) hlow ?_
          intro i hi hil
          rcases Nat.lt_or_ge (M - 1).toNat i with hgt | hle2
          · have hp := pairwise_getD hs 0 hgt hil
            omega
          · have hieq : i = (M - 1).toNat := by omega
            rw [hieq]
            exact hk
      · rw [if_neg hcase]
        have hsted : st = ed + 1 := by omega
        have hclen : keys.countP (fun x => decide (x ≤ key)) ≤ keys.length :=
          List.countP_le_length ..
        set c := keys.countP (fun x => decide (x ≤ key)) with hc
        rcases Nat.lt_trichotomy c (st - 1).toNat with hlt | heq | hgt
        · exfalso
          have hcl : c < keys.length := by omega
          have hlo : keys.getD c 0 ≤ key := hlow c (by omega) hcl
          have hx := (countLe_iff keys key hs hcl).2 hlo
          rw [← hc] at hx
          omega
        · omega
        · exfalso
          have hsl : (st - 1).toNat < keys.length := by omega
          have hp := (countLe_iff keys key hs hsl).1 hgt
          have hhi := hhigh (st - 1).toNat (by omega) hsl
          omega

/-- The child index chosen by internal `Lookup` is the number of
separator keys at most the target. -/
theorem childIndex_eq (keys : List Int) (key : Int)
    (hs : keys.Pairwise (fun a b => a < b)) :
    childIndex keys key = keys.countP (fun x => decide (x ≤ key)) := by
  unfold childIndex internalLookupPos
  rw [lookupGo_eq keys key hs (keys.length + 1) 1 (keys.length : Int)
    (by omega) (by omega) (by omega) (by omega) ?_ ?_]
  · omega
  · intro i hi hil
    omega
  · intro i hi hil
    omega

/-- `find?` hits the first matching index. -/
theorem find?_eq_getD {l : List Entry} {k : Int} {m : Nat} (hm : m < l.length)
    (hb : ∀ i, i < m → (l.getD i (0, 0)).1 ≠ k)
    (hat : (l.getD m (0, 0)).1 = k) :
    l.find? (fun e => e.1 == k) = some (l.getD m (0, 0)) := by
  induction l generalizing m with
  | nil => simp at hm
  | cons a l ih =>
      cases m with
      | zero =>
          have ha : a.1 = k := hat
          rw [List.find?_cons_of_pos _ (by simp [ha])]
          rfl
      | succ m =>
          have ha : a.1 ≠ k := hb 0 (Nat.succ_pos m)
          rw [List.find?_cons_of_neg _ (by simp [ha])]
          exact ih (by simpa using hm) (fun i hi => hb (i + 1) (by omega)) hat

/-- `findKey` misses exactly when no entry carries the key. -/
theorem findKey_eq_none_iff (l : List Entry) (k : Int) :
    findKey l k = none ↔ ∀ e ∈ l, e.1 ≠ k := by
  simp [findKey, List.find?_eq_none]

/-- `findKey` skips a prefix whose keys all differ from the target. -/
theorem findKey_append_left {A : List Entry} (B : List Entry) {k : Int}
    (h : ∀ e ∈ A, e.1 ≠ k) : findKey (A ++ B) k = findKey B k := by
  have hA : A.find? (fun e => e.1 == k) = none := by
    rw [List.find?_eq_none]
    intro e he
    simp [h e he]
  unfold findKey
  rw [find?_append_none _ hA]

/-- `findKey` ignores a suffix whose keys all differ from the target. -/
theorem findKey_append_right (A : List Entry) {B : List Entry} {k : Int}
    (h : ∀ e ∈ B, e.1 ≠ k) : findKey (A ++ B) k = findKey A k := by
  induction A with
  | nil =>
      show findKey B k = findKey [] k
      rw [(findKey_eq_none_iff B k).2 h]
      rfl
  | cons a A ih =>
      show findKey (a :: (A ++ B)) k = findKey (a :: A) k
      unfold findKey
      by_cases hpa : a.1 = k
      · rw [List.find?_cons_of_pos _ (by simp [hpa]),
          List.find?_cons_of_pos _ (by simp [hpa])]
      · rw [List.find?_cons_of_neg _ (by simp [hpa]),
          List.find?_cons_of_neg _ (by simp [hpa])]
        exact ih

/-- If `k` occurs among the keys of a sorted entry list, the count of
keys below `k` is precisely its index. -/
theorem countLt_mem (l : List Entry) (k : Int)
    (hs : l.Pairwise (fun a b => a.1 < b.1))
    (hmem : k ∈ l.map Prod.fst) :
    l.countP (fun e => decide (e.1 < k)) < l.length ∧
    (l.getD (l.countP (fun e => decide (e.1 < k))) (0, 0)).1 = k := by
  obtain ⟨e, he, hek⟩ := List.mem_map.1 hmem
  obtain ⟨i, hil, hie⟩ := List.mem_iff_getElem.1 he
  have hgi : (l.getD i (0, 0)).1 = k := by
    rw [getD_eq_getElem l _ hil, hie, hek]
  set c := l.countP (fun e => decide (e.1 < k)) with hc
  have h1 : ¬ i < c := by
    intro hcon
    have hx := (countLt_iff l k hs hil).1 hcon
    omega
  have h2 : ¬ c < i := by
    intro hcon
    have hcl : c < l.length := by omega
    have hp := pairwise_getD hs (0, 0) hcon hil
    have hx := (countLt_iff l k hs hcl).2 (by omega)
    rw [← hc] at hx
    omega
  have hci : c = i := by omega
  rw [hci]
  exact ⟨hil, hgi⟩

/-- Leaf `Lookup` on a sorted entry list is association lookup. -/
theorem leafLookup_eq_findKey (l : List Entry) (k : Int)
    (hs : l.Pairwise (fun a b => a.1 < b.1)) :
    leafLookup l k = findKey l k := by
  unfold leafLookup
  rw [KeyIndex_eq l k hs]
  by_cases hmem : k ∈ l.map Prod.fst
  · obtain ⟨hlt, hat⟩ := countLt_mem l k hs hmem
    rw [if_pos ?_]
    · rw [Int.toNat_natCast]
      symm
      unfold findKey
      rw [find?_eq_getD hlt ?_ hat]
      · rfl
      · intro i hi
        have hx := (countLt_iff l k hs (by omega)).1 hi
        omega
    · constructor
      · omega
      · rw [Int.toNat_natCast]
        exact hat
  · rw [if_neg ?_]
    · symm
      rw [findKey_eq_none_iff]
      intro e he hek
      exact hmem (List.mem_map.2 ⟨e, he, hek⟩)
    · rintro ⟨hc1, hc2⟩
      rw [Int.toNat_natCast] at hc2
      apply hmem
      refine List.mem_map.2 ⟨l.getD (l.countP (fun e => decide (e.1 < k))) (0, 0), ?_, hc2⟩
      rw [getD_eq_getElem l _ (by omega)]
      exact List.getElem_mem ..

/-- On a sorted entry list, `leafInsert` is `sIns`. -/
theorem leafInsert_eq_sIns (l : List Entry) (k v : Int)
    (hs : l.Pairwise (fun a b => a.1 < b.1)) :
    leafInsert l k v = sIns l k v := by
  unfold leafInsert sIns
  rw [KeyIndex_eq l k hs, Int.toNat_natCast]

/-- `sIns` adds one entry. -/
theorem length_sIns (l : List Entry) (k v : Int) :
    (sIns l k v).length = l.length + 1 := by
  have h1 : l.countP (fun e => decide (e.1 < k)) ≤ l.length :=
    List.countP_le_length ..
  simp [sIns]
  omega

/-- An entry of `sIns` is an old entry or the new pair. -/
theorem mem_sIns {l : List Entry} {k v : Int} {e : Entry} (he : e ∈ sIns l k v) :
    e ∈ l ∨ e = (k, v) := by
  unfold sIns at he
  rcases List.mem_append.1 he with h1 | h2
  · rcases List.mem_append.1 h1 with h3 | h4
    · exact Or.inl (List.take_subset _ _ h3)
    · simp at h4
      exact Or.inr h4
  · exact Or.inl (List.drop_subset _ _ h2)

/-- The prefix kept by `sIns` holds exactly the keys below `k`. -/
theorem sIns_take_lt (l : List Entry) (k : Int)
    (hs : l.Pairwise (fun a b => a.1 < b.1)) :
    ∀ e ∈ l.take (l.countP (fun e => decide (e.1 < k))), e.1 < k := by
  refine forall_mem_take (0, 0) ?_
  intro i hic hil
  exact (countLt_iff l k hs hil).1 hic

/-- The suffix kept by `sIns` holds the keys not below `k`; strictly
above it when `k` is absent. -/
theorem sIns_drop_gt (l : List Entry) (k : Int)
    (hs : l.Pairwise (fun a b => a.1 < b.1))
    (hk : k ∉ l.map Prod.fst) :
    ∀ e ∈ l.drop (l.countP (fun e => decide (e.1 < k))), k < e.1 := by
  refine forall_mem_drop (0, 0) ?_
  intro i hci hil
  have hge : ¬ (l.getD i (0, 0)).1 < k := by
    intro hcon
    have hx := (countLt_iff l k hs hil).2 hcon
    omega
  have hne : (l.getD i (0, 0)).1 ≠ k := by
    intro hcon
    apply hk
    refine List.mem_map.2 ⟨l.getD i (0, 0), ?_, hcon⟩
    rw [getD_eq_getElem l _ hil]
    exact List.getElem_mem ..
  omega

/-- `sIns` preserves sortedness when the key is fresh. -/
theorem sIns_sorted {l : List Entry} {k : Int} (v : Int)
    (hs : l.Pairwise (fun a b => a.1 < b.1))
    (hk : k ∉ l.map Prod.fst) :
    (sIns l k v).Pairwise (fun a b => a.1 < b.1) := by
  have htake := sIns_take_lt l k hs
  have hdrop := sIns_drop_gt l k hs hk
  unfold sIns
  rw [List.pairwise_append]
  refine ⟨?_, ?_, ?_⟩
  · rw [List.pairwise_append]
    refine ⟨List.Pairwise.sublist (List.take_sublist _ _) hs,
      List.pairwise_singleton _ _, ?_⟩
    intro a ha b hb
    rw [List.mem_singleton] at hb
    rw [hb]
    exact htake a ha
  · exact List.Pairwise.sublist (List.drop_sublist _ _) hs
  · intro a ha b hb
    rcases List.mem_append.1 ha with h1 | h2
    · have h3 := htake a h1
      have h4 := hdrop b hb
      omega
    · rw [List.mem_singleton] at h2
      rw [h2]
      exact hdrop b hb

/-- `findKey` on `sIns` finds the new value. -/
theorem findKey_sIns_self (l : List Entry) (k v : Int)
    (hs : l.Pairwise (fun a b => a.1 < b.1)) :
    findKey (sIns l k v) k = some v := by
  have htake := sIns_take_lt l k hs
  unfold sIns
  rw [List.append_assoc, findKey_append_left]
  · unfold findKey
    rw [List.singleton_append, List.find?_cons_of_pos _ (by simp)]
    rfl
  · intro e he
    have h1 := htake e he
    omega

/-- `sIns` commutes past a prefix of keys below `k`. -/
theorem sIns_append_left (A B : List Entry) (k v : Int)
    (hA : ∀ e ∈ A, e.1 < k) :
    sIns (A ++ B) k v = A ++ sIns B k v := by
  unfold sIns
  have hcA : A.countP (fun e => decide (e.1 < k)) = A.length := by
    rw [List.countP_eq_length]
    intro a ha
    simpa using hA a ha
  rw [List.countP_append, hcA, List.take_append, List.drop_append]
  simp [List.append_assoc]

/-- `sIns` commutes past a suffix of keys not below `k`. -/
theorem sIns_append_right (B C : List Entry) (k v : Int)
    (hC : ∀ e ∈ C, ¬ e.1 < k) :
    sIns (B ++ C) k v = sIns B k v ++ C := by
  unfold sIns
  have hcC : C.countP (fun e => decide (e.1 < k)) = 0 := by
    rw [List.countP_eq_zero]
    intro a ha
    simpa using hC a ha
  have hcB : B.countP (fun e => decide (e.1 < k)) ≤ B.length :=
    List.countP_le_length ..
  rw [List.countP_append, hcC, Nat.add_zero,
    List.take_append_of_le_length hcB, List.drop_append_of_le_length hcB]
  simp [List.append_assoc]

theorem inLoB_some {a k : Int} : inLoB (some a) k = true ↔ a ≤ k := by
  simp [inLoB]

theorem inHiB_some {b k : Int} : inHiB (some b) k = true ↔ k < b := by
  simp [inHiB]

theorem inLoStrictB_some {a k : Int} : inLoStrictB (some a) k = true ↔ a < k := by
  simp [inLoStrictB]

theorem inLoB_mono {lo : Option Int} {a b : Int} (hab : a ≤ b)
    (h : inLoB lo a = true) : inLoB lo b = true := by
  cases lo with
  | none => rfl
  | some x =>
      rw [inLoB_some] at h ⊢
      omega

theorem inHiB_mono {hi : Option Int} {a b : Int} (hab : a ≤ b)
    (h : inHiB hi b = true) : inHiB hi a = true := by
  cases hi with
  | none => rfl
  | some x =>
      rw [inHiB_some] at h ⊢
      omega

theorem inHiB_of_lt {hi : Option Int} {a b : Int} (hab : a < b)
    (h : inHiB hi b = true) : inHiB hi a = true :=
  inHiB_mono (le_of_lt hab) h

theorem inLoB_of_strict {lo : Option Int} {k : Int}
    (h : inLoStrictB lo k = true) : inLoB lo k = true := by
  cases lo with
  | none => rfl
  | some x =>
      rw [inLoStrictB_some] at h
      rw [inLoB_some]
      omega

theorem inLoStrictB_of_le_lt {lo : Option Int} {a b : Int}
    (h : inLoB lo a = true) (hab : a < b) : inLoStrictB lo b = true := by
  cases lo with
  | none => rfl
  | some x =>
      rw [inLoB_some] at h
      rw [inLoStrictB_some]
      omega

theorem inLoStrictB_mono {lo : Option Int} {a b : Int} (hab : a ≤ b)
    (h : inLoStrictB lo a = true) : inLoStrictB lo b = true := by
  cases lo with
  | none => rfl
  | some x =>
      rw [inLoStrictB_some] at h ⊢
      omega

/-- Unfolding of leaf well-formedness. -/
theorem wfB_leaf_iff {lo hi : Option Int} {es : List Entry} {m : Int} :
    wfB lo hi (.leaf es m) = true ↔
      es.Pairwise (fun a b => a.1 < b.1) ∧
      (∀ e ∈ es, inLoB lo e.1 = true ∧ inHiB hi e.1 = true) ∧ 1 ≤ m := by
  simp [wfB, List.all_eq_true]
  tauto

/-- Unfolding of internal well-formedness. -/
theorem wfB_inner_iff {lo hi : Option Int} {f : Node}
    {seps : List (Int × Node)} {m : Int} :
    wfB lo hi (.inner f seps m) = true ↔
      (∀ p ∈ seps, inLoB lo p.1 = true ∧ inHiB hi p.1 = true) ∧
      headKeyStrict lo seps = true ∧
      wfB lo (sepsHeadHi seps hi) f = true ∧
      wfSepsB hi seps = true := by
  cases seps with
  | nil => simp [wfB, sepsHeadHi, headKeyStrict, List.all_eq_true]
  | cons p rest =>
      obtain ⟨k2, c2⟩ := p
      simp [wfB, sepsHeadHi, headKeyStrict, List.all_eq_true]
      tauto

/-- Unfolding of separator-list well-formedness at a cons cell. -/
theorem wfSepsB_cons_iff {hi : Option Int} {k : Int} {c : Node}
    {rest : List (Int × Node)} :
    wfSepsB hi ((k, c) :: rest) = true ↔
      wfB (some k) (sepsHeadHi rest hi) c = true ∧
      headKeyStrict (some k) rest = true ∧
      wfSepsB hi rest = true := by
  cases rest with
  | nil => simp [wfSepsB, sepsHeadHi, headKeyStrict]
  | cons q r2 =>
      obtain ⟨k2, c2⟩ := q
      simp [wfSepsB, sepsHeadHi, headKeyStrict, inLoStrictB]
      tauto

/-- `drop` at an in-range index starts with `getD` there. -/
theorem drop_eq_getD_cons {α : Type} {l : List α} (d : α) {j : Nat}
    (hj : j < l.length) : l.drop j = l.getD j d :: l.drop (j + 1) := by
  rw [getD_eq_getElem l d hj]
  exact List.drop_eq_getElem_cons hj

/-- `getD` through `map Prod.fst` on separator lists. -/
theorem getD_map_fst (seps : List (Int × Node)) (i : Nat) :
    (seps.map Prod.fst).getD i 0 = (seps.getD i sepD).1 := by
  by_cases hi : i < seps.length
  · rw [getD_eq_getElem _ 0 (by simpa using hi), getD_eq_getElem _ sepD hi]
    simp
  · rw [List.getD_eq_getElem?_getD, List.getD_eq_getElem?_getD]
    rw [List.getElem?_eq_none (by simpa using hi), List.getElem?_eq_none (by omega)]
    rfl

/-- Separator keys of a well-formed separator list are strictly sorted. -/
theorem wfSepsB_sorted : ∀ (seps : List (Int × Node)) (hi : Option Int),
    wfSepsB hi seps = true →
    (seps.map Prod.fst).Pairwise (fun a b => a < b) := by
  intro seps
  induction seps with
  | nil =>
      intro hi h
      simp
  | cons p rest ih =>
      intro hi h
      obtain ⟨k, c⟩ := p
      rw [wfSepsB_cons_iff] at h
      obtain ⟨h1, h2, h3⟩ := h
      rw [List.map_cons, List.pairwise_cons]
      refine ⟨?_, ih hi h3⟩
      intro a ha
      cases rest with
      | nil => simp at ha
      | cons q r2 =>
          obtain ⟨k2, c2⟩ := q
          have hk2 : k < k2 := by simpa [headKeyStrict, inLoStrictB] using h2
          have hsorted := ih hi h3
          rw [List.map_cons, List.pairwise_cons] at hsorted
          rw [List.map_cons] at ha
          rcases List.mem_cons.1 ha with ha1 | ha2
          · omega
          · have := hsorted.1 a ha2
            omega

/-- Dropping separators preserves well-formedness. -/
theorem wfSepsB_drop : ∀ (seps : List (Int × Node)) (hi : Option Int) (j : Nat),
    wfSepsB hi seps = true → wfSepsB hi (seps.drop j) = true := by
  intro seps
  induction seps with
  | nil =>
      intro hi j h
      rw [List.drop_nil]
      exact h
  | cons p rest ih =>
      intro hi j h
      cases j with
      | zero => exact h
      | succ j =>
          obtain ⟨k, c⟩ := p
          rw [wfSepsB_cons_iff] at h
          exact ih hi j h.2.2

/-- A strict prefix of a well-formed separator list is well-formed with
the cut key as its upper bound. -/
theorem wfSepsB_take : ∀ (seps : List (Int × Node)) (hi : Option Int) (j : Nat),
    j < seps.length → wfSepsB hi seps = true →
    wfSepsB (some ((seps.getD j sepD).1)) (seps.take j) = true := by
  intro seps
  induction seps with
  | nil =>
      intro hi j hj
      simp at hj
  | cons p rest ih =>
      intro hi j hj h
      obtain ⟨k, c⟩ := p
      rw [wfSepsB_cons_iff] at h
      obtain ⟨h1, h2, h3⟩ := h
      cases j with
      | zero => rfl
      | succ j =>
          have hjr : j < rest.length := by simpa using hj
          rw [List.take_succ_cons, wfSepsB_cons_iff]
          refine ⟨?_, ?_, ih hi j hjr h3⟩
          · cases rest with
            | nil => simp at hjr
            | cons q r2 =>
                obtain ⟨k2, c2⟩ := q
                cases j with
                | zero => exact h1
                | succ j => exact h1
          · cases rest with
            | nil => simp at hjr
            | cons q r2 =>
                obtain ⟨k2, c2⟩ := q
                cases j with
                | zero => rfl
                | succ j => exact h2

/-- `entriesOfSeps` distributes over append. -/
theorem entriesOfSeps_append (X Y : List (Int × Node)) :
    entriesOfSeps (X ++ Y) = entriesOfSeps X ++ entriesOfSeps Y := by
  induction X with
  | nil => rfl
  | cons p rest ih =>
      obtain ⟨k, c⟩ := p
      rw [List.cons_append]
      simp [entriesOfSeps, ih, List.append_assoc]

theorem sizeOfN_pos (t : Node) : 1 ≤ sizeOfN t := by
  cases t with
  | leaf es m => exact le_refl 1
  | inner f seps m =>
      rw [sizeOfN]
      omega

theorem sizeOfSeps_mem : ∀ (seps : List (Int × Node)) (p : Int × Node),
    p ∈ seps → sizeOfN p.2 < sizeOfSeps seps := by
  intro seps
  induction seps with
  | nil =>
      intro p hp
      simp at hp
  | cons q rest ih =>
      intro p hp
      obtain ⟨k, c⟩ := q
      rcases List.mem_cons.1 hp with h1 | h2
      · rw [h1]
        show sizeOfN c < sizeOfSeps ((k, c) :: rest)
        rw [sizeOfSeps]
        omega
      · have := ih p h2
        rw [sizeOfSeps]
        omega

/-- Entry keys under a separator list: sorted, below `hi`, and at least
the head separator key; conditional on the per-child statement. -/
theorem entriesOfSeps_bounds : ∀ (seps : List (Int × Node)) (hi : Option Int),
    (∀ p ∈ seps, ∀ lo' hi', wfB lo' hi' p.2 = true →
      (entriesOf p.2).Pairwise (fun a b => a.1 < b.1) ∧
      ∀ e ∈ entriesOf p.2, inLoB lo' e.1 = true ∧ inHiB hi' e.1 = true) →
    (∀ p ∈ seps, inHiB hi p.1 = true) →
    wfSepsB hi seps = true →
    (entriesOfSeps seps).Pairwise (fun a b => a.1 < b.1) ∧
    ∀ e ∈ entriesOfSeps seps,
      inHiB hi e.1 = true ∧
      ∀ k2 c2 r2, seps = (k2, c2) :: r2 → k2 ≤ e.1 := by
  intro seps
  induction seps with
  | nil =>
      intro hi ihm hk hw
      constructor
      · exact List.Pairwise.nil
      · intro e he
        simp [entriesOfSeps] at he
  | cons p rest ih =>
      intro hi ihm hk hw
      obtain ⟨k, c⟩ := p
      rw [wfSepsB_cons_iff] at hw
      obtain ⟨hwc, hstr, hwr⟩ := hw
      have ihm2 := fun p hp => ihm p (List.mem_cons_of_mem _ hp)
      have hk2 := fun p hp => hk p (List.mem_cons_of_mem _ hp)
      have hrec := ih hi ihm2 hk2 hwr
      have hc := ihm (k, c) (List.mem_cons_self ..) (some k) (sepsHeadHi rest hi) hwc
      show (entriesOf c ++ entriesOfSeps rest).Pairwise (fun a b => a.1 < b.1) ∧ _
      constructor
      · rw [List.pairwise_append]
        refine ⟨hc.1, hrec.1, ?_⟩
        intro a ha b hb
        cases rest with
        | nil => simp [entriesOfSeps] at hb
        | cons q r2 =>
            obtain ⟨k2, c2⟩ := q
            have ha2 : a.1 < k2 := inHiB_some.1 (hc.2 a ha).2
            have hb2 := (hrec.2 b hb).2 k2 c2 r2 rfl
            omega
      · intro e he
        rcases List.mem_append.1 he with h1 | h2
        · refine ⟨?_, ?_⟩
          · cases rest with
            | nil => exact (hc.2 e h1).2
            | cons q r2 =>
                obtain ⟨k2, c2⟩ := q
                have ha3 : e.1 < k2 := inHiB_some.1 (hc.2 e h1).2
                exact inHiB_of_lt ha3 (hk (k2, c2) (List.mem_cons_of_mem _ (List.mem_cons_self ..)))
          · intro k3 c3 r3 heq
            injection heq with heq1 heq2
            injection heq1 with heq3 heq4
            rw [← heq3]
            exact inLoB_some.1 (hc.2 e h1).1
        · refine ⟨(hrec.2 e h2).1, ?_⟩
          intro k3 c3 r3 heq
          injection heq with heq1 heq2
          injection heq1 with heq3 heq4
          cases rest with
          | nil => simp [entriesOfSeps] at h2
          | cons q r2 =>
              obtain ⟨k2, c2⟩ := q
              have hb2 := (hrec.2 e h2).2 k2 c2 r2 rfl
              have hlt : k < k2 := by
                simpa [headKeyStrict, inLoStrictB] using hstr
              rw [← heq3]
              omega

/-- The entry sequence of a well-formed subtree is sorted and its keys
lie within the bounds. -/
theorem wfB_entries : ∀ (n : Nat) (t : Node), sizeOfN t ≤ n →
    ∀ (lo hi : Option Int), wfB lo hi t = true →
    (entriesOf t).Pairwise (fun a b => a.1 < b.1) ∧
    ∀ e ∈ entriesOf t, inLoB lo e.1 = true ∧ inHiB hi e.1 = true := by
  intro n
  induction n with
  | zero =>
      intro t hsz
      have := sizeOfN_pos t
      omega
  | succ n ih =>
      intro t hsz lo hi hw
      cases t with
      | leaf es m =>
          rw [wfB_leaf_iff] at hw
          exact ⟨hw.1, hw.2.1⟩
      | inner f seps m =>
          rw [wfB_inner_iff] at hw
          obtain ⟨hall, hstr, hf, hws⟩ := hw
          rw [sizeOfN] at hsz
          have hszf : sizeOfN f ≤ n := by omega
          have hfe := ih f hszf lo (sepsHeadHi seps hi) hf
          have ihm : ∀ p ∈ seps, ∀ lo' hi', wfB lo' hi' p.2 = true →
              (entriesOf p.2).Pairwise (fun a b => a.1 < b.1) ∧
              ∀ e ∈ entriesOf p.2, inLoB lo' e.1 = true ∧ inHiB hi' e.1 = true := by
            intro p hp lo' hi' hwp
            have hszp : sizeOfN p.2 ≤ n := by
              have := sizeOfSeps_mem seps p hp
              omega
            exact ih p.2 hszp lo' hi' hwp
          have hk : ∀ p ∈ seps, inHiB hi p.1 = true := fun p hp => (hall p hp).2
          have hse := entriesOfSeps_bounds seps hi ihm hk hws
          show (entriesOf f ++ entriesOfSeps seps).Pairwise (fun a b => a.1 < b.1) ∧ _
          constructor
          · rw [List.pairwise_append]
            refine ⟨hfe.1, hse.1, ?_⟩
            intro a ha b hb
            cases seps with
            | nil => simp [entriesOfSeps] at hb
            | cons q r2 =>
                obtain ⟨k2, c2⟩ := q
                have ha3 : a.1 < k2 := inHiB_some.1 (hfe.2 a ha).2
                have hb2 := (hse.2 b hb).2 k2 c2 r2 rfl
                omega
          · intro e he
            rcases List.mem_append.1 he with h1 | h2
            · refine ⟨(hfe.2 e h1).1, ?_⟩
              cases seps with
              | nil => exact (hfe.2 e h1).2
              | cons q r2 =>
                  obtain ⟨k2, c2⟩ := q
                  have ha3 : e.1 < k2 := inHiB_some.1 (hfe.2 e h1).2
                  exact inHiB_of_lt ha3 (hk (k2, c2) (List.mem_cons_self ..))
            · refine ⟨?_, (hse.2 e h2).1⟩
              cases seps with
              | nil => simp [entriesOfSeps] at h2
              | cons q r2 =>
                  obtain ⟨k2, c2⟩ := q
                  have hb2 := (hse.2 e h2).2 k2 c2 r2 rfl
                  have hlo2 : inLoB lo k2 = true :=
                    (hall (k2, c2) (List.mem_cons_self ..)).1
                  exact inLoB_mono hb2 hlo2

/-- Walking to the chosen separated child and descending equals
association lookup over the separated entries, conditional on the read
statement for the chosen child. -/
theorem getSeps_walk : ∀ (seps : List (Int × Node)) (i : Nat) (hi : Option Int)
    (key : Int),
    i < seps.length →
    (∀ lo' hi', wfB lo' hi' (seps.getD i sepD).2 = true →
      inLoB lo' key = true → inHiB hi' key = true →
      getAux (seps.getD i sepD).2 key =
        findKey (entriesOf (seps.getD i sepD).2) key) →
    wfSepsB hi seps = true →
    (∀ p ∈ seps, inHiB hi p.1 = true) →
    (seps.getD i sepD).1 ≤ key →
    (∀ j : Nat, i < j → j < seps.length → key < (seps.getD j sepD).1) →
    inHiB hi key = true →
    getSeps seps i key = findKey (entriesOfSeps seps) key := by
  intro seps
  induction seps with
  | nil =>
      intro i hi key hil
      simp at hil
  | cons p rest ih =>
      intro i hi key hil ih1 hw hkeys hle hgt hhi
      obtain ⟨k, c⟩ := p
      rw [wfSepsB_cons_iff] at hw
      obtain ⟨hwc, hstr, hwr⟩ := hw
      cases i with
      | zero =>
          rw [getSeps]
          have hkey2 : inHiB (sepsHeadHi rest hi) key = true := by
            cases rest with
            | nil => exact hhi
            | cons q r2 =>
                obtain ⟨k2, c2⟩ := q
                rw [show sepsHeadHi ((k2, c2) :: r2) hi = some k2 from rfl,
                  inHiB_some]
                have hx := hgt 1 (by omega) (by simp)
                exact hx
          have hgc : getAux c key = findKey (entriesOf c) key :=
            ih1 (some k) (sepsHeadHi rest hi) hwc (inLoB_some.2 hle) hkey2
          rw [hgc]
          show findKey (entriesOf c) key =
            findKey (entriesOf c ++ entriesOfSeps rest) key
          symm
          apply findKey_append_right
          intro e he
          cases rest with
          | nil => simp [entriesOfSeps] at he
          | cons q r2 =>
              obtain ⟨k2, c2⟩ := q
              have hbnd := entriesOfSeps_bounds ((k2, c2) :: r2) hi ?_
                (fun p hp => hkeys p (List.mem_cons_of_mem _ hp)) hwr
              · have h1 := (hbnd.2 e he).2 k2 c2 r2 rfl
                have h2 := hgt 1 (by omega) (by simp)
                have h3 : key < k2 := h2
                omega
              · intro p hp lo' hi' hwp
                exact wfB_entries (sizeOfN p.2) p.2 (le_refl _) lo' hi' hwp
      | succ i =>
          rw [getSeps]
          have hilr : i < rest.length := by simpa using hil
          have hih1 : ∀ lo' hi', wfB lo' hi' (rest.getD i sepD).2 = true →
              inLoB lo' key = true → inHiB hi' key = true →
              getAux (rest.getD i sepD).2 key =
                findKey (entriesOf (rest.getD i sepD).2) key := ih1
          have hhle : (rest.getD i sepD).1 ≤ key := hle
          have hhgt : ∀ j : Nat, i < j → j < rest.length →
              key < (rest.getD j sepD).1 := by
            intro j hj1 hj2
            exact hgt (j + 1) (by omega) (by simp only [List.length_cons]; omega)
          have hhk := fun p hp => hkeys p (List.mem_cons_of_mem _ hp)
          rw [ih i hi key hilr hih1 hwr hhk hhle hhgt hhi]
          show findKey (entriesOfSeps rest) key =
            findKey (entriesOf c ++ entriesOfSeps rest) key
          symm
          apply findKey_append_left
          intro e he
          cases rest with
          | nil => simp at hilr
          | cons q r2 =>
              obtain ⟨k2, c2⟩ := q
              have hfe := wfB_entries (sizeOfN c) c (le_refl _) (some k)
                (sepsHeadHi ((k2, c2) :: r2) hi) hwc
              have h1 : e.1 < k2 := inHiB_some.1 (hfe.2 e he).2
              have hsr := wfSepsB_sorted ((k2, c2) :: r2) hi hwr
              have h2 : k2 ≤ (((k2, c2) :: r2).getD i sepD).1 := by
                cases i with
                | zero => exact le_refl k2
                | succ i =>
                    have hp := pairwise_getD hsr 0 (Nat.succ_pos i)
                      (by simpa using hilr)
                    rw [getD_map_fst, getD_map_fst] at hp
                    have hp2 : k2 < (((k2, c2) :: r2).getD (i + 1) sepD).1 := hp
                    omega
              have h3 : (((k2, c2) :: r2).getD i sepD).1 ≤ key := hhle
              omega

/-- The read path: on a well-formed subtree with the key in range, the
descent plus leaf lookup is association lookup on the in-order
entries. -/
theorem getAux_spec : ∀ (n : Nat) (t : Node), sizeOfN t ≤ n →
    ∀ (lo hi : Option Int) (key : Int), wfB lo hi t = true →
    inLoB lo key = true → inHiB hi key = true →
    getAux t key = findKey (entriesOf t) key := by
  intro n
  induction n with
  | zero =>
      intro t hsz
      have := sizeOfN_pos t
      omega
  | succ n ih =>
      intro t hsz lo hi key hw hlo hhi
      cases t with
      | leaf es m =>
          rw [wfB_leaf_iff] at hw
          exact leafLookup_eq_findKey es key hw.1
      | inner f seps m =>
          rw [wfB_inner_iff] at hw
          obtain ⟨hall, hstr, hf, hws⟩ := hw
          rw [sizeOfN] at hsz
          have hsorted := wfSepsB_sorted seps hi hws
          rw [getAux]
          rw [childIndex_eq (seps.map Prod.fst) key hsorted]
          set c := (seps.map Prod.fst).countP (fun x => decide (x ≤ key)) with hc
          have hclen : c ≤ seps.length := by
            have hx : c ≤ (seps.map Prod.fst).length := List.countP_le_length ..
            simpa using hx
          by_cases hj : c = 0
          · rw [if_pos hj]
            have hgtall : ∀ j : Nat, j < seps.length → key < (seps.getD j sepD).1 := by
              intro j hjl
              have hx : ¬ (seps.map Prod.fst).getD j 0 ≤ key := by
                intro hcon
                have hy := (countLe_iff (seps.map Prod.fst) key hsorted
                  (by simpa using hjl)).2 hcon
                rw [← hc] at hy
                omega
              rw [getD_map_fst] at hx
              omega
            have hhif : inHiB (sepsHeadHi seps hi) key = true := by
              cases seps with
              | nil => exact hhi
              | cons q r2 =>
                  obtain ⟨k2, c2⟩ := q
                  rw [show sepsHeadHi ((k2, c2) :: r2) hi = some k2 from rfl,
                    inHiB_some]
                  have hx := hgtall 0 (by simp)
                  exact hx
            rw [ih f (by omega) lo (sepsHeadHi seps hi) key hf hlo hhif]
            show findKey (entriesOf f) key =
              findKey (entriesOf f ++ entriesOfSeps seps) key
            symm
            apply findKey_append_right
            intro e he
            cases seps with
            | nil => simp [entriesOfSeps] at he
            | cons q r2 =>
                obtain ⟨k2, c2⟩ := q
                have hbnd := entriesOfSeps_bounds ((k2, c2) :: r2) hi ?_
                  (fun p hp => (hall p hp).2) hws
                · have h1 := (hbnd.2 e he).2 k2 c2 r2 rfl
                  have h2 := hgtall 0 (by simp)
                  have h3 : key < k2 := h2
                  omega
                · intro p hp lo' hi' hwp
                  exact wfB_entries (sizeOfN p.2) p.2 (le_refl _) lo' hi' hwp
          · rw [if_neg hj]
            have hcl2 : c - 1 < seps.length := by omega
            have hle : (seps.getD (c - 1) sepD).1 ≤ key := by
              have hx := (countLe_iff (seps.map Prod.fst) key hsorted
                (i := c - 1) (by simpa using hcl2)).1 (by omega)
              rw [getD_map_fst] at hx
              exact hx
            have hgt : ∀ j : Nat, c - 1 < j → j < seps.length →
                key < (seps.getD j sepD).1 := by
              intro j hj1 hj2
              have hx : ¬ (seps.map Prod.fst).getD j 0 ≤ key := by
                intro hcon
                have hy := (countLe_iff (seps.map Prod.fst) key hsorted
                  (by simpa using hj2)).2 hcon
                rw [← hc] at hy
                omega
              rw [getD_map_fst] at hx
              omega
            have hih1 : ∀ lo' hi', wfB lo' hi' (seps.getD (c - 1) sepD).2 = true →
                inLoB lo' key = true → inHiB hi' key = true →
                getAux (seps.getD (c - 1) sepD).2 key =
                  findKey (entriesOf (seps.getD (c - 1) sepD).2) key := by
              intro lo' hi' hwp hlo' hhi'
              have hmem : seps.getD (c - 1) sepD ∈ seps := by
                rw [getD_eq_getElem seps sepD hcl2]
                exact List.getElem_mem ..
              have hszp : sizeOfN (seps.getD (c - 1) sepD).2 ≤ n := by
                have hy := sizeOfSeps_mem seps _ hmem
                omega
              exact ih _ hszp lo' hi' key hwp hlo' hhi'
            rw [getSeps_walk seps (c - 1) hi key hcl2 hih1 hws
              (fun p hp => (hall p hp).2) hle hgt hhi]
            show findKey (entriesOfSeps seps) key =
              findKey (entriesOf f ++ entriesOfSeps seps) key
            symm
            apply findKey_append_left
            intro e he
            cases seps with
            | nil => simp at hcl2
            | cons q r2 =>
                obtain ⟨k2, c2⟩ := q
                have hfe := wfB_entries (sizeOfN f) f (le_refl _) lo
                  (sepsHeadHi ((k2, c2) :: r2) hi) hf
                have h1 : e.1 < k2 := inHiB_some.1 (hfe.2 e he).2
                have h2 := (countLe_iff (((k2, c2) :: r2).map Prod.fst) key
                  hsorted (i := 0) (by simp)).1 (by omega)
                rw [getD_map_fst] at h2
                have h3 : k2 ≤ key := h2
                omega

/-- `wfSepsB` unfolding at a cons cell with a pair variable head. -/
theorem wfSepsB_cons_iff2 (p : Int × Node) (rest : List (Int × Node))
    (hi : Option Int) :
    wfSepsB hi (p :: rest) = true ↔
      wfB (some p.1) (sepsHeadHi rest hi) p.2 = true ∧
      headKeyStrict (some p.1) rest = true ∧
      wfSepsB hi rest = true := by
  obtain ⟨k, c⟩ := p
  exact wfSepsB_cons_iff

/-- `entriesOfSeps` at a cons cell with a pair variable head. -/
theorem entriesOfSeps_cons (p : Int × Node) (rest : List (Int × Node)) :
    entriesOfSeps (p :: rest) = entriesOf p.2 ++ entriesOfSeps rest := by
  obtain ⟨k, c⟩ := p
  rfl

/-- `InsertIntoParent` on a freshly grown separator list: if the node
overflows it splits preserving well-formedness and entries, else it
stands well-formed. -/
theorem innerAfterChild_spec (first : Node) (k1 : Int) (c1 : Node)
    (S0 : List (Int × Node)) (m im : Int) (lo hi : Option Int)
    (hkeys : ∀ p ∈ (k1, c1) :: S0, inLoB lo p.1 = true ∧ inHiB hi p.1 = true)
    (hstr : inLoStrictB lo k1 = true)
    (hfirst : wfB lo (some k1) first = true)
    (hws : wfSepsB hi ((k1, c1) :: S0) = true) :
    match innerAfterChild first ((k1, c1) :: S0) m im with
    | .dup => False
    | .one t2 => wfB lo hi t2 = true ∧
        entriesOf t2 = entriesOf first ++ entriesOfSeps ((k1, c1) :: S0)
    | .split l sep r => wfB lo (some sep) l = true ∧
        wfB (some sep) hi r = true ∧ inLoStrictB lo sep = true ∧
        inHiB hi sep = true ∧
        entriesOf l ++ entriesOf r =
          entriesOf first ++ entriesOfSeps ((k1, c1) :: S0) := by
  have hone : wfB lo hi (.inner first ((k1, c1) :: S0) m) = true ∧
      entriesOf (.inner first ((k1, c1) :: S0) m) =
        entriesOf first ++ entriesOfSeps ((k1, c1) :: S0) := by
    constructor
    · rw [wfB_inner_iff]
      exact ⟨hkeys, hstr, hfirst, hws⟩
    · rfl
  unfold innerAfterChild
  by_cases hcond : ((((k1, c1) :: S0).length : Int) + 1) = m + 1
  · rw [if_pos hcond]
    have hlen1 : 1 ≤ ((k1, c1) :: S0).length := by simp
    have hmS : m = (((k1, c1) :: S0).length : Int) := by omega
    have htd : Int.tdiv (m + 1) 2 = (m + 1) / 2 :=
      Int.tdiv_eq_ediv (by omega) (by omega)
    have hci1 : 1 ≤ (Int.tdiv (m + 1) 2).toNat ∧
        (Int.tdiv (m + 1) 2).toNat ≤ ((k1, c1) :: S0).length := by
      rw [htd]
      omega
    have hcil : (Int.tdiv (m + 1) 2).toNat - 1 < ((k1, c1) :: S0).length := by
      omega
    have hget : ((k1, c1) :: S0).get? ((Int.tdiv (m + 1) 2).toNat - 1) =
        some (((k1, c1) :: S0).getD ((Int.tdiv (m + 1) 2).toNat - 1) sepD) := by
      rw [List.get?_eq_getElem?, List.getElem?_eq_getElem hcil,
        getD_eq_getElem _ sepD hcil]
    rw [hget]
    have hsorted := wfSepsB_sorted ((k1, c1) :: S0) hi hws
    have hsortg : ∀ i j : Nat, i < j → j < ((k1, c1) :: S0).length →
        (((k1, c1) :: S0).getD i sepD).1 < (((k1, c1) :: S0).getD j sepD).1 := by
      intro i j hij hjl
      have hp := pairwise_getD hsorted 0 hij (by simpa using hjl)
      rw [getD_map_fst, getD_map_fst] at hp
      exact hp
    refine ⟨?_, ?_, ?_, ?_, ?_⟩
    · -- left piece
      rw [wfB_inner_iff]
      refine ⟨?_, ?_, ?_, ?_⟩
      · intro p hp
        refine ⟨(hkeys p (List.take_subset _ _ hp)).1, ?_⟩
        revert p
        refine forall_mem_take sepD ?_
        intro idx hidx hidxl
        rw [inHiB_some]
        exact hsortg idx _ hidx hcil
      · by_cases h0 : (Int.tdiv (m + 1) 2).toNat - 1 = 0
        · rw [h0]
          rfl
        · obtain ⟨nn, hnn⟩ := Nat.exists_eq_succ_of_ne_zero h0
          rw [hnn, List.take_succ_cons]
          exact hstr
      · by_cases h0 : (Int.tdiv (m + 1) 2).toNat - 1 = 0
        · rw [h0]
          show wfB lo (some k1) first = true
          exact hfirst
        · obtain ⟨nn, hnn⟩ := Nat.exists_eq_succ_of_ne_zero h0
          rw [hnn, List.take_succ_cons]
          exact hfirst
      · exact wfSepsB_take ((k1, c1) :: S0) hi _ hcil hws
    · -- right piece
      have hdrop1 := wfSepsB_drop ((k1, c1) :: S0) hi
        ((Int.tdiv (m + 1) 2).toNat - 1) hws
      rw [drop_eq_getD_cons sepD hcil,
        show (Int.tdiv (m + 1) 2).toNat - 1 + 1 = (Int.tdiv (m + 1) 2).toNat
          from by omega] at hdrop1
      rw [wfSepsB_cons_iff2] at hdrop1
      obtain ⟨hwmid, hstrmid, hwrest⟩ := hdrop1
      rw [wfB_inner_iff]
      refine ⟨?_, ?_, hwmid, hwrest⟩
      · intro p hp
        refine ⟨?_, (hkeys p (List.drop_subset _ _ hp)).2⟩
        revert p
        refine forall_mem_drop sepD ?_
        intro idx hidx hidxl
        rw [inLoB_some]
        have hx := hsortg ((Int.tdiv (m + 1) 2).toNat - 1) idx (by omega) hidxl
        omega
      · by_cases hci2 : (Int.tdiv (m + 1) 2).toNat < ((k1, c1) :: S0).length
        · rw [drop_eq_getD_cons sepD hci2]
          show inLoStrictB
            (some ((((k1, c1) :: S0).getD ((Int.tdiv (m + 1) 2).toNat - 1) sepD).1))
            ((((k1, c1) :: S0).getD ((Int.tdiv (m + 1) 2).toNat) sepD).1) = true
          rw [inLoStrictB_some]
          exact hsortg _ _ (by omega) hci2
        · rw [List.drop_eq_nil_of_le (by omega)]
          rfl
    · -- strict lower bound of the separator
      by_cases h0 : (Int.tdiv (m + 1) 2).toNat - 1 = 0
      · rw [h0]
        exact hstr
      · have hk1 : inLoB lo k1 = true :=
          (hkeys (k1, c1) (List.mem_cons_self ..)).1
        refine inLoStrictB_of_le_lt hk1 ?_
        have hx := hsortg 0 ((Int.tdiv (m + 1) 2).toNat - 1) (by omega) hcil
        exact hx
    · -- upper bound of the separator
      have hmem : ((k1, c1) :: S0).getD ((Int.tdiv (m + 1) 2).toNat - 1) sepD ∈
          (k1, c1) :: S0 := by
        rw [getD_eq_getElem _ sepD hcil]
        exact List.getElem_mem ..
      exact (hkeys _ hmem).2
    · -- entries
      have hsplit : (k1, c1) :: S0 =
          (((k1, c1) :: S0).take ((Int.tdiv (m + 1) 2).toNat - 1)) ++
          (((k1, c1) :: S0).getD ((Int.tdiv (m + 1) 2).toNat - 1) sepD) ::
            (((k1, c1) :: S0).drop ((Int.tdiv (m + 1) 2).toNat)) := by
        conv_lhs => rw [← List.take_append_drop
          ((Int.tdiv (m + 1) 2).toNat - 1) ((k1, c1) :: S0)]
        rw [drop_eq_getD_cons sepD hcil,
          show (Int.tdiv (m + 1) 2).toNat - 1 + 1 = (Int.tdiv (m + 1) 2).toNat
            from by omega]
      show (entriesOf first ++
          entriesOfSeps (((k1, c1) :: S0).take ((Int.tdiv (m + 1) 2).toNat - 1))) ++
          (entriesOf (((k1, c1) :: S0).getD ((Int.tdiv (m + 1) 2).toNat - 1) sepD).2 ++
            entriesOfSeps (((k1, c1) :: S0).drop ((Int.tdiv (m + 1) 2).toNat))) =
          entriesOf first ++ entriesOfSeps ((k1, c1) :: S0)
      conv_rhs => rw [hsplit]
      rw [entriesOfSeps_append, entriesOfSeps_cons]
      simp [List.append_assoc]
  · rw [if_neg hcond]
    exact hone

theorem map_fst_nil_iff {S : List (Int × Node)} (h : S.map Prod.fst = []) :
    S = [] := by
  cases S with
  | nil => rfl
  | cons p r => simp at h

theorem sepsHeadHi_congr_mapfst {S S2 : List (Int × Node)} (hi : Option Int)
    (h : S.map Prod.fst = S2.map Prod.fst) :
    sepsHeadHi S hi = sepsHeadHi S2 hi := by
  cases S with
  | nil =>
      rw [map_fst_nil_iff h.symm]
  | cons p r =>
      cases S2 with
      | nil => simp at h
      | cons q r2 =>
          obtain ⟨k, c⟩ := p
          obtain ⟨k2, c2⟩ := q
          simp at h
          show some k = some k2
          rw [h.1]

theorem headKeyStrict_congr_mapfst {lo : Option Int} {S S2 : List (Int × Node)}
    (h : S.map Prod.fst = S2.map Prod.fst) :
    headKeyStrict lo S = headKeyStrict lo S2 := by
  cases S with
  | nil =>
      rw [map_fst_nil_iff h.symm]
  | cons p r =>
      cases S2 with
      | nil => simp at h
      | cons q r2 =>
          obtain ⟨k, c⟩ := p
          obtain ⟨k2, c2⟩ := q
          simp at h
          show inLoStrictB lo k = inLoStrictB lo k2
          rw [h.1]

theorem sepsHeadHi_eq_of_getD {S S2 : List (Int × Node)} (hi : Option Int)
    (h1 : 0 < S.length) (h2 : 0 < S2.length)
    (he : (S.getD 0 sepD).1 = (S2.getD 0 sepD).1) :
    sepsHeadHi S hi = sepsHeadHi S2 hi := by
  cases S with
  | nil => simp at h1
  | cons p r =>
      cases S2 with
      | nil => simp at h2
      | cons q r2 =>
          obtain ⟨k, c⟩ := p
          obtain ⟨k2, c2⟩ := q
          show some k = some k2
          have hx : k = k2 := he
          rw [hx]

theorem headKeyStrict_of_getD {lo : Option Int} {S : List (Int × Node)}
    (h : inLoStrictB lo ((S.getD 0 sepD).1) = true) :
    headKeyStrict lo S = true := by
  cases S with
  | nil => rfl
  | cons p r =>
      obtain ⟨k, c⟩ := p
      exact h

theorem headKeyStrict_getD {lo : Option Int} {S : List (Int × Node)}
    (hne : 0 < S.length) (h : headKeyStrict lo S = true) :
    inLoStrictB lo ((S.getD 0 sepD).1) = true := by
  cases S with
  | nil => simp at hne
  | cons p r =>
      obtain ⟨k, c⟩ := p
      exact h

/-- Descending into the `i`-th separated child for insertion, rebuilding
the separator list around the child's result; conditional on the insert
statement for that child. -/
theorem insSeps_walk : ∀ (seps : List (Int × Node)) (i : Nat)
    (lo hi : Option Int) (key value lm im : Int),
    i < seps.length →
    (∀ lo' hi', wfB lo' hi' (seps.getD i sepD).2 = true →
      inLoB lo' key = true → inHiB hi' key = true →
      (match insertAux lm im (seps.getD i sepD).2 key value with
       | .dup => key ∈ (entriesOf (seps.getD i sepD).2).map Prod.fst
       | .one t2 => wfB lo' hi' t2 = true ∧
           entriesOf t2 = sIns (entriesOf (seps.getD i sepD).2) key value ∧
           key ∉ (entriesOf (seps.getD i sepD).2).map Prod.fst
       | .split l sep r => wfB lo' (some sep) l = true ∧
           wfB (some sep) hi' r = true ∧ inLoStrictB lo' sep = true ∧
           inHiB hi' sep = true ∧
           entriesOf l ++ entriesOf r =
             sIns (entriesOf (seps.getD i sepD).2) key value ∧
           key ∉ (entriesOf (seps.getD i sepD).2).map Prod.fst)) →
    wfSepsB hi seps = true →
    (∀ p ∈ seps, inLoB lo p.1 = true ∧ inHiB hi p.1 = true) →
    (seps.getD i sepD).1 ≤ key →
    (∀ j : Nat, i < j → j < seps.length → key < (seps.getD j sepD).1) →
    inHiB hi key = true →
    (match insSeps lm im seps i key value with
     | .dup => key ∈ (entriesOfSeps seps).map Prod.fst
     | .noSplit S2 => wfSepsB hi S2 = true ∧
         S2.map Prod.fst = seps.map Prod.fst ∧
         entriesOfSeps S2 = sIns (entriesOfSeps seps) key value ∧
         key ∉ (entriesOfSeps seps).map Prod.fst
     | .grew S2 => wfSepsB hi S2 = true ∧
         (∀ p ∈ S2, inLoB lo p.1 = true ∧ inHiB hi p.1 = true) ∧
         S2.length = seps.length + 1 ∧
         (S2.getD 0 sepD).1 = (seps.getD 0 sepD).1 ∧
         entriesOfSeps S2 = sIns (entriesOfSeps seps) key value ∧
         key ∉ (entriesOfSeps seps).map Prod.fst) := by
  intro seps
  induction seps with
  | nil =>
      intro i lo hi key value lm im hil
      simp at hil
  | cons p rest ih =>
      intro i lo hi key value lm im hil ihc hw hkeys hle hgt hhi
      obtain ⟨k, c⟩ := p
      rw [wfSepsB_cons_iff] at hw
      obtain ⟨hwc, hstr, hwr⟩ := hw
      cases i with
      | zero =>
          have hkey2 : inHiB (sepsHeadHi rest hi) key = true := by
            cases rest with
            | nil => exact hhi
            | cons q r2 =>
                obtain ⟨k2, c2⟩ := q
                rw [show sepsHeadHi ((k2, c2) :: r2) hi = some k2 from rfl,
                  inHiB_some]
                have hx := hgt 1 (by omega) (by simp)
                exact hx
          have hrestgt : ∀ e ∈ entriesOfSeps rest, key < e.1 := by
            intro e he
            cases rest with
            | nil => simp [entriesOfSeps] at he
            | cons q r2 =>
                obtain ⟨k2, c2⟩ := q
                have hbnd := entriesOfSeps_bounds ((k2, c2) :: r2) hi ?_
                  (fun p hp => (hkeys p (List.mem_cons_of_mem _ hp)).2) hwr
                · have h1 := (hbnd.2 e he).2 k2 c2 r2 rfl
                  have h2 := hgt 1 (by omega) (by simp)
                  have h3 : key < k2 := h2
                  omega
                · intro p hp lo' hi' hwp
                  exact wfB_entries (sizeOfN p.2) p.2 (le_refl _) lo' hi' hwp
          have hrestnlt : ∀ e ∈ entriesOfSeps rest, ¬ e.1 < key := by
            intro e he
            have hx := hrestgt e he
            omega
          have hres := ihc (some k) (sepsHeadHi rest hi) hwc (inLoB_some.2 hle)
            hkey2
          rw [show ((k, c) :: rest).getD 0 sepD = (k, c) from rfl] at hres
          rw [show ((k : Int), c).2 = c from rfl] at hres
          rw [insSeps]
          cases hx : insertAux lm im c key value with
          | dup =>
              rw [hx] at hres
              show key ∈ ((entriesOf c ++ entriesOfSeps rest).map Prod.fst)
              rw [List.map_append]
              exact List.mem_append.2 (Or.inl hres)
          | one t2 =>
              rw [hx] at hres
              obtain ⟨hw2, hent2, hnot2⟩ := hres
              have hnotall : key ∉
                  ((entriesOf c ++ entriesOfSeps rest).map Prod.fst) := by
                rw [List.map_append]
                intro hmem
                rcases List.mem_append.1 hmem with h1 | h2
                · exact hnot2 h1
                · obtain ⟨e, he, hek⟩ := List.mem_map.1 h2
                  have hy := hrestgt e he
                  omega
              refine ⟨?_, ?_, ?_, hnotall⟩
              · rw [wfSepsB_cons_iff]
                exact ⟨hw2, hstr, hwr⟩
              · rfl
              · show entriesOf t2 ++ entriesOfSeps rest =
                  sIns (entriesOf c ++ entriesOfSeps rest) key value
                rw [sIns_append_right _ _ _ _ hrestnlt, hent2]
          | split l sep r =>
              rw [hx] at hres
              obtain ⟨hwl, hwr2, hstr2, hhi2, hent2, hnot2⟩ := hres
              have hnotall : key ∉
                  ((entriesOf c ++ entriesOfSeps rest).map Prod.fst) := by
                rw [List.map_append]
                intro hmem
                rcases List.mem_append.1 hmem with h1 | h2
                · exact hnot2 h1
                · obtain ⟨e, he, hek⟩ := List.mem_map.1 h2
                  have hy := hrestgt e he
                  omega
              have hhisep : inHiB hi sep = true := by
                cases rest with
                | nil => exact hhi2
                | cons q r2 =>
                    obtain ⟨k2, c2⟩ := q
                    have h1 : sep < k2 := inHiB_some.1 hhi2
                    exact inHiB_of_lt h1
                      (hkeys (k2, c2) (List.mem_cons_of_mem _ (List.mem_cons_self ..))).2
              refine ⟨?_, ?_, ?_, ?_, ?_, hnotall⟩
              · rw [wfSepsB_cons_iff]
                refine ⟨hwl, hstr2, ?_⟩
                rw [wfSepsB_cons_iff]
                refine ⟨hwr2, ?_, hwr⟩
                cases rest with
                | nil => rfl
                | cons q r2 =>
                    obtain ⟨k2, c2⟩ := q
                    show inLoStrictB (some sep) k2 = true
                    rw [inLoStrictB_some]
                    exact inHiB_some.1 hhi2
              · intro p hp
                rcases List.mem_cons.1 hp with h1 | h2
                · rw [h1]
                  exact hkeys (k, c) (List.mem_cons_self ..)
                · rcases List.mem_cons.1 h2 with h3 | h4
                  · rw [h3]
                    refine ⟨?_, hhisep⟩
                    have hkk : inLoB lo k = true :=
                      (hkeys (k, c) (List.mem_cons_self ..)).1
                    have hks : k < sep := inLoStrictB_some.1 hstr2
                    exact inLoB_mono (by omega) hkk
                  · exact hkeys p (List.mem_cons_of_mem _ h4)
              · simp
              · rfl
              · show entriesOf l ++ (entriesOf r ++ entriesOfSeps rest) =
                  sIns (entriesOf c ++ entriesOfSeps rest) key value
                rw [sIns_append_right _ _ _ _ hrestnlt, ← hent2,
                  List.append_assoc]
      | succ i =>
          have hilr : i < rest.length := by simpa using hil
          have hhgt : ∀ j : Nat, i < j → j < rest.length →
              key < (rest.getD j sepD).1 := by
            intro j hj1 hj2
            exact hgt (j + 1) (by omega) (by simp only [List.length_cons]; omega)
          have hhk := fun p hp => hkeys p (List.mem_cons_of_mem _ hp)
          have hrec := ih i lo hi key value lm im hilr ihc hwr hhk hle hhgt hhi
          have hcgt : ∀ e ∈ entriesOf c, e.1 < key := by
            intro e he
            cases rest with
            | nil => simp at hilr
            | cons q r2 =>
                obtain ⟨k2, c2⟩ := q
                have hfe := wfB_entries (sizeOfN c) c (le_refl _) (some k)
                  (sepsHeadHi ((k2, c2) :: r2) hi) hwc
                have h1 : e.1 < k2 := inHiB_some.1 (hfe.2 e he).2
                have hsr := wfSepsB_sorted ((k2, c2) :: r2) hi hwr
                have h2 : k2 ≤ (((k2, c2) :: r2).getD i sepD).1 := by
                  cases i with
                  | zero => exact le_refl k2
                  | succ i =>
                      have hp := pairwise_getD hsr 0 (Nat.succ_pos i)
                        (by simpa using hilr)
                      rw [getD_map_fst, getD_map_fst] at hp
                      have hp2 : k2 < (((k2, c2) :: r2).getD (i + 1) sepD).1 := hp
                      omega
                have h3 : (((k2, c2) :: r2).getD i sepD).1 ≤ key := hle
                omega
          rw [insSeps]
          cases hx : insSeps lm im rest i key value with
          | dup =>
              rw [hx] at hrec
              show key ∈ ((entriesOf c ++ entriesOfSeps rest).map Prod.fst)
              rw [List.map_append]
              exact List.mem_append.2 (Or.inr hrec)
          | noSplit S2 =>
              rw [hx] at hrec
              obtain ⟨hw2, hmap2, hent2, hnot2⟩ := hrec
              have hnotall : key ∉
                  ((entriesOf c ++ entriesOfSeps rest).map Prod.fst) := by
                rw [List.map_append]
                intro hmem
                rcases List.mem_append.1 hmem with h1 | h2
                · obtain ⟨e, he, hek⟩ := List.mem_map.1 h1
                  have hy := hcgt e he
                  omega
                · exact hnot2 h2
              refine ⟨?_, ?_, ?_, hnotall⟩
              · rw [wfSepsB_cons_iff]
                refine ⟨?_, ?_, hw2⟩
                · rw [sepsHeadHi_congr_mapfst hi hmap2.symm] at hwc
                  exact hwc
                · rw [headKeyStrict_congr_mapfst hmap2.symm] at hstr
                  exact hstr
              · show k :: S2.map Prod.fst = k :: rest.map Prod.fst
                rw [hmap2]
              · show entriesOf c ++ entriesOfSeps S2 =
                  sIns (entriesOf c ++ entriesOfSeps rest) key value
                rw [sIns_append_left _ _ _ _ hcgt, hent2]
          | grew S2 =>
              rw [hx] at hrec
              obtain ⟨hw2, hbnd2, hlen2, hhd2, hent2, hnot2⟩ := hrec
              have hnotall : key ∉
                  ((entriesOf c ++ entriesOfSeps rest).map Prod.fst) := by
                rw [List.map_append]
                intro hmem
                rcases List.mem_append.1 hmem with h1 | h2
                · obtain ⟨e, he, hek⟩ := List.mem_map.1 h1
                  have hy := hcgt e he
                  omega
                · exact hnot2 h2
              refine ⟨?_, ?_, ?_, ?_, ?_, hnotall⟩
              · rw [wfSepsB_cons_iff]
                refine ⟨?_, ?_, hw2⟩
                · rw [sepsHeadHi_eq_of_getD hi (by omega) (by omega) hhd2.symm]
                    at hwc
                  exact hwc
                · refine headKeyStrict_of_getD ?_
                  rw [hhd2]
                  exact headKeyStrict_getD (by omega) hstr
              · intro p hp
                rcases List.mem_cons.1 hp with h1 | h2
                · rw [h1]
                  exact hkeys (k, c) (List.mem_cons_self ..)
                · exact hbnd2 p h2
              · simp only [List.length_cons]
                omega
              · rfl
              · show entriesOf c ++ entriesOfSeps S2 =
                  sIns (entriesOf c ++ entriesOfSeps rest) key value
                rw [sIns_append_left _ _ _ _ hcgt, hent2]

/-- The write path: on a well-formed subtree with the key in range,
`InsertIntoLeaf` reports a duplicate exactly when the key is present;
otherwise it inserts the pair at its sorted position, splitting
overflowing nodes into two well-formed halves around a separator that
respects the subtree's bounds. -/
theorem insertAux_spec (lm im : Int) (hlm : 2 ≤ lm) :
    ∀ (n : Nat) (t : Node), sizeOfN t ≤ n →
    ∀ (lo hi : Option Int) (key value : Int), wfB lo hi t = true →
    inLoB lo key = true → inHiB hi key = true →
    (match insertAux lm im t key value with
     | .dup => key ∈ (entriesOf t).map Prod.fst
     | .one t2 => wfB lo hi t2 = true ∧
         entriesOf t2 = sIns (entriesOf t) key value ∧
         key ∉ (entriesOf t).map Prod.fst
     | .split l sep r => wfB lo (some sep) l = true ∧
         wfB (some sep) hi r = true ∧ inLoStrictB lo sep = true ∧
         inHiB hi sep = true ∧
         entriesOf l ++ entriesOf r = sIns (entriesOf t) key value ∧
         key ∉ (entriesOf t).map Prod.fst) := by
  intro n
  induction n with
  | zero =>
      intro t hsz
      have := sizeOfN_pos t
      omega
  | succ n ih =>
      intro t hsz lo hi key value hw hlo hhi
      cases t with
      | leaf es m =>
          rw [wfB_leaf_iff] at hw
          obtain ⟨hsort, hbnd, hm⟩ := hw
          rw [insertAux]
          cases hlk : leafLookup es key with
          | some v0 =>
              rw [leafLookup_eq_findKey es key hsort] at hlk
              show key ∈ es.map Prod.fst
              cases hf : es.find? (fun e => e.1 == key) with
              | none =>
                  unfold findKey at hlk
                  rw [hf] at hlk
                  simp at hlk
              | some e0 =>
                  have h1 := List.mem_of_find?_eq_some hf
                  have h2 := List.find?_some hf
                  simp at h2
                  exact List.mem_map.2 ⟨e0, h1, h2⟩
          | none =>
              rw [leafLookup_eq_findKey es key hsort] at hlk
              have hnot : key ∉ es.map Prod.fst := by
                rw [findKey_eq_none_iff] at hlk
                intro hmem
                obtain ⟨e, he, hek⟩ := List.mem_map.1 hmem
                exact hlk e he hek
              rw [leafInsert_eq_sIns es key value hsort]
              have hlen := length_sIns es key value
              have hsorted2 := sIns_sorted value hsort hnot
              have hmemb : ∀ e ∈ sIns es key value,
                  inLoB lo e.1 = true ∧ inHiB hi e.1 = true := by
                intro e he
                rcases mem_sIns he with h1 | h2
                · exact hbnd e h1
                · rw [h2]
                  exact ⟨hlo, hhi⟩
              by_cases hsz2 : (((sIns es key value).length : Int)) = m + 1
              · rw [if_pos hsz2]
                have htd : Int.tdiv (m + 1) 2 = (m + 1) / 2 :=
                  Int.tdiv_eq_ediv (by omega) (by omega)
                have hci : 1 ≤ (Int.tdiv (m + 1) 2).toNat ∧
                    ((Int.tdiv (m + 1) 2).toNat : Int) ≤ m := by
                  rw [htd]
                  omega
                have hcilen : (Int.tdiv (m + 1) 2).toNat <
                    (sIns es key value).length := by omega
                have hsepmem : (sIns es key value).getD
                    (Int.tdiv (m + 1) 2).toNat (0, 0) ∈ sIns es key value := by
                  rw [getD_eq_getElem _ _ hcilen]
                  exact List.getElem_mem ..
                refine ⟨?_, ?_, ?_, ?_, ?_, hnot⟩
                · rw [wfB_leaf_iff]
                  refine ⟨List.Pairwise.sublist (List.take_sublist _ _) hsorted2,
                    ?_, hm⟩
                  have hB : ∀ e ∈ (sIns es key value).take
                      (Int.tdiv (m + 1) 2).toNat,
                      inHiB (some (((sIns es key value).getD
                        (Int.tdiv (m + 1) 2).toNat (0, 0)).1)) e.1 = true := by
                    refine forall_mem_take (0, 0) ?_
                    intro idx hidx hidxl
                    rw [inHiB_some]
                    exact pairwise_getD hsorted2 (0, 0) hidx hcilen
                  intro e he
                  exact ⟨(hmemb e (List.take_subset _ _ he)).1, hB e he⟩
                · rw [wfB_leaf_iff]
                  refine ⟨List.Pairwise.sublist (List.drop_sublist _ _) hsorted2,
                    ?_, by omega⟩
                  have hA : ∀ e ∈ (sIns es key value).drop
                      (Int.tdiv (m + 1) 2).toNat,
                      inLoB (some (((sIns es key value).getD
                        (Int.tdiv (m + 1) 2).toNat (0, 0)).1)) e.1 = true := by
                    refine forall_mem_drop (0, 0) ?_
                    intro idx hidx hidxl
                    rw [inLoB_some]
                    rcases Nat.eq_or_lt_of_le hidx with h1 | h2
                    · rw [h1]
                    · have hp := pairwise_getD hsorted2 (0, 0) h2 hidxl
                      omega
                  intro e he
                  exact ⟨hA e he, (hmemb e (List.drop_subset _ _ he)).2⟩
                · have h0mem : (sIns es key value).getD 0 (0, 0) ∈
                      sIns es key value := by
                    rw [getD_eq_getElem _ _ (by omega)]
                    exact List.getElem_mem ..
                  refine inLoStrictB_of_le_lt (hmemb _ h0mem).1 ?_
                  exact pairwise_getD hsorted2 (0, 0) (by omega) hcilen
                · exact (hmemb _ hsepmem).2
                · show (sIns es key value).take (Int.tdiv (m + 1) 2).toNat ++
                    (sIns es key value).drop (Int.tdiv (m + 1) 2).toNat =
                    sIns es key value
                  exact List.take_append_drop ..
              · rw [if_neg hsz2]
                refine ⟨?_, ?_, hnot⟩
                · rw [wfB_leaf_iff]
                  exact ⟨hsorted2, hmemb, hm⟩
                · rfl
      | inner f seps m =>
          rw [wfB_inner_iff] at hw
          obtain ⟨hall, hstr, hf, hws⟩ := hw
          rw [sizeOfN] at hsz
          have hsorted := wfSepsB_sorted seps hi hws
          rw [insertAux]
          rw [childIndex_eq (seps.map Prod.fst) key hsorted]
          set cj := (seps.map Prod.fst).countP (fun x => decide (x ≤ key)) with hcj
          have hclen : cj ≤ seps.length := by
            have hx : cj ≤ (seps.map Prod.fst).length := List.countP_le_length ..
            simpa using hx
          by_cases hj : cj = 0
          · rw [if_pos hj]
            have hgtall : ∀ j : Nat, j < seps.length →
                key < (seps.getD j sepD).1 := by
              intro j hjl
              have hx : ¬ (seps.map Prod.fst).getD j 0 ≤ key := by
                intro hcon
                have hy := (countLe_iff (seps.map Prod.fst) key hsorted
                  (by simpa using hjl)).2 hcon
                rw [← hcj] at hy
                omega
              rw [getD_map_fst] at hx
              omega
            have hhif : inHiB (sepsHeadHi seps hi) key = true := by
              cases seps with
              | nil => exact hhi
              | cons q r2 =>
                  obtain ⟨k2, c2⟩ := q
                  rw [show sepsHeadHi ((k2, c2) :: r2) hi = some k2 from rfl,
                    inHiB_some]
                  have hx := hgtall 0 (by simp)
                  exact hx
            have hrestgt : ∀ e ∈ entriesOfSeps seps, key < e.1 := by
              intro e he
              cases seps with
              | nil => simp [entriesOfSeps] at he
              | cons q r2 =>
                  obtain ⟨k2, c2⟩ := q
                  have hbnd := entriesOfSeps_bounds ((k2, c2) :: r2) hi ?_
                    (fun p hp => (hall p hp).2) hws
                  · have h1 := (hbnd.2 e he).2 k2 c2 r2 rfl
                    have h2 := hgtall 0 (by simp)
                    have h3 : key < k2 := h2
                    omega
                  · intro p hp lo' hi' hwp
                    exact wfB_entries (sizeOfN p.2) p.2 (le_refl _) lo' hi' hwp
            have hrestnlt : ∀ e ∈ entriesOfSeps seps, ¬ e.1 < key := by
              intro e he
              have hx := hrestgt e he
              omega
            have hres := ih f (by omega) lo (sepsHeadHi seps hi) key value hf
              hlo hhif
            cases hx : insertAux lm im f key value with
            | dup =>
                rw [hx] at hres
                show key ∈ ((entriesOf f ++ entriesOfSeps seps).map Prod.fst)
                rw [List.map_append]
                exact List.mem_append.2 (Or.inl hres)
            | one f2 =>
                rw [hx] at hres
                obtain ⟨hw2, hent2, hnot2⟩ := hres
                have hnotall : key ∉
                    ((entriesOf f ++ entriesOfSeps seps).map Prod.fst) := by
                  rw [List.map_append]
                  intro hmem
                  rcases List.mem_append.1 hmem with h1 | h2
                  · exact hnot2 h1
                  · obtain ⟨e, he, hek⟩ := List.mem_map.1 h2
                    have hy := hrestgt e he
                    omega
                refine ⟨?_, ?_, hnotall⟩
                · rw [wfB_inner_iff]
                  exact ⟨hall, hstr, hw2, hws⟩
                · show entriesOf f2 ++ entriesOfSeps seps =
                    sIns (entriesOf f ++ entriesOfSeps seps) key value
                  rw [sIns_append_right _ _ _ _ hrestnlt, hent2]
            | split l sep r =>
                rw [hx] at hres
                obtain ⟨hwl, hwr2, hstr2, hhi2, hent2, hnot2⟩ := hres
                have hnotall : key ∉
                    ((entriesOf f ++ entriesOfSeps seps).map Prod.fst) := by
                  rw [List.map_append]
                  intro hmem
                  rcases List.mem_append.1 hmem with h1 | h2
                  · exact hnot2 h1
                  · obtain ⟨e, he, hek⟩ := List.mem_map.1 h2
                    have hy := hrestgt e he
                    omega
                have hhisep : inHiB hi sep = true := by
                  cases seps with
                  | nil => exact hhi2
                  | cons q r2 =>
                      obtain ⟨k2, c2⟩ := q
                      have h1 : sep < k2 := inHiB_some.1 hhi2
                      exact inHiB_of_lt h1 (hall (k2, c2) (List.mem_cons_self ..)).2
                have hspec := innerAfterChild_spec l sep r seps m im lo hi ?_ ?_
                  hwl ?_
                rotate_left
                · intro p hp
                  rcases List.mem_cons.1 hp with h1 | h2
                  · rw [h1]
                    exact ⟨inLoB_of_strict hstr2, hhisep⟩
                  · exact hall p h2
                · exact hstr2
                · rw [wfSepsB_cons_iff]
                  refine ⟨hwr2, ?_, hws⟩
                  cases seps with
                  | nil => rfl
                  | cons q r2 =>
                      obtain ⟨k2, c2⟩ := q
                      show inLoStrictB (some sep) k2 = true
                      rw [inLoStrictB_some]
                      exact inHiB_some.1 hhi2
                dsimp only
                cases hy : innerAfterChild l ((sep, r) :: seps) m im with
                | dup =>
                    rw [hy] at hspec
                    exact hspec.elim
                | one t2 =>
                    rw [hy] at hspec
                    refine ⟨hspec.1, ?_, hnotall⟩
                    rw [hspec.2]
                    show entriesOf l ++ (entriesOf r ++ entriesOfSeps seps) =
                      sIns (entriesOf f ++ entriesOfSeps seps) key value
                    rw [sIns_append_right _ _ _ _ hrestnlt, ← hent2,
                      List.append_assoc]
                | split l2 sep2 r2 =>
                    rw [hy] at hspec
                    obtain ⟨hq1, hq2, hq3, hq4, hq5⟩ := hspec
                    refine ⟨hq1, hq2, hq3, hq4, ?_, hnotall⟩
                    rw [hq5]
                    show entriesOf l ++ (entriesOf r ++ entriesOfSeps seps) =
                      sIns (entriesOf f ++ entriesOfSeps seps) key value
                    rw [sIns_append_right _ _ _ _ hrestnlt, ← hent2,
                      List.append_assoc]
          · rw [if_neg hj]
            have hcl2 : cj - 1 < seps.length := by omega
            have hle : (seps.getD (cj - 1) sepD).1 ≤ key := by
              have hx := (countLe_iff (seps.map Prod.fst) key hsorted
                (i := cj - 1) (by simpa using hcl2)).1 (by omega)
              rw [getD_map_fst] at hx
              exact hx
            have hgt : ∀ j : Nat, cj - 1 < j → j < seps.length →
                key < (seps.getD j sepD).1 := by
              intro j hj1 hj2
              have hx : ¬ (seps.map Prod.fst).getD j 0 ≤ key := by
                intro hcon
                have hy := (countLe_iff (seps.map Prod.fst) key hsorted
                  (by simpa using hj2)).2 hcon
                rw [← hcj] at hy
                omega
              rw [getD_map_fst] at hx
              omega
            have hfgt : ∀ e ∈ entriesOf f, e.1 < key := by
              intro e he
              cases seps with
              | nil => simp at hcl2
              | cons q r2 =>
                  obtain ⟨k2, c2⟩ := q
                  have hfe := wfB_entries (sizeOfN f) f (le_refl _) lo
                    (sepsHeadHi ((k2, c2) :: r2) hi) hf
                  have h1 : e.1 < k2 := inHiB_some.1 (hfe.2 e he).2
                  have h2 := (countLe_iff (((k2, c2) :: r2).map Prod.fst) key
                    hsorted (i := 0) (by simp)).1 (by omega)
                  rw [getD_map_fst] at h2
                  have h3 : k2 ≤ key := h2
                  omega
            have hihc : ∀ lo' hi', wfB lo' hi' (seps.getD (cj - 1) sepD).2 = true →
                inLoB lo' key = true → inHiB hi' key = true →
                (match insertAux lm im (seps.getD (cj - 1) sepD).2 key value with
                 | .dup => key ∈ (entriesOf (seps.getD (cj - 1) sepD).2).map Prod.fst
                 | .one t2 => wfB lo' hi' t2 = true ∧
                     entriesOf t2 = sIns (entriesOf (seps.getD (cj - 1) sepD).2) key value ∧
                     key ∉ (entriesOf (seps.getD (cj - 1) sepD).2).map Prod.fst
                 | .split l sep r => wfB lo' (some sep) l = true ∧
                     wfB (some sep) hi' r = true ∧ inLoStrictB lo' sep = true ∧
                     inHiB hi' sep = true ∧
                     entriesOf l ++ entriesOf r =
                       sIns (entriesOf (seps.getD (cj - 1) sepD).2) key value ∧
                     key ∉ (entriesOf (seps.getD (cj - 1) sepD).2).map Prod.fst) := by
              intro lo' hi' hwp hlo' hhi'
              have hmem : seps.getD (cj - 1) sepD ∈ seps := by
                rw [getD_eq_getElem seps sepD hcl2]
                exact List.getElem_mem ..
              have hszp : sizeOfN (seps.getD (cj - 1) sepD).2 ≤ n := by
                have hy := sizeOfSeps_mem seps _ hmem
                omega
              exact ih _ hszp lo' hi' key value hwp hlo' hhi'
            have hwalk := insSeps_walk seps (cj - 1) lo hi key value lm im hcl2
              hihc hws hall hle hgt hhi
            cases hx : insSeps lm im seps (cj - 1) key value with
            | dup =>
                rw [hx] at hwalk
                show key ∈ ((entriesOf f ++ entriesOfSeps seps).map Prod.fst)
                rw [List.map_append]
                exact List.mem_append.2 (Or.inr hwalk)
            | noSplit S2 =>
                rw [hx] at hwalk
                obtain ⟨hw2, hmap2, hent2, hnot2⟩ := hwalk
                have hnotall : key ∉
                    ((entriesOf f ++ entriesOfSeps seps).map Prod.fst) := by
                  rw [List.map_append]
                  intro hmem
                  rcases List.mem_append.1 hmem with h1 | h2
                  · obtain ⟨e, he, hek⟩ := List.mem_map.1 h1
                    have hy := hfgt e he
                    omega
                  · exact hnot2 h2
                refine ⟨?_, ?_, hnotall⟩
                · rw [wfB_inner_iff]
                  refine ⟨?_, ?_, ?_, hw2⟩
                  · intro p hp
                    have hpm : p.1 ∈ seps.map Prod.fst := by
                      rw [← hmap2]
                      exact List.mem_map_of_mem _ hp
                    obtain ⟨q, hq, hqe⟩ := List.mem_map.1 hpm
                    rw [← hqe]
                    exact hall q hq
                  · rw [headKeyStrict_congr_mapfst hmap2]
                    exact hstr
                  · rw [sepsHeadHi_congr_mapfst hi hmap2]
                    exact hf
                · show entriesOf f ++ entriesOfSeps S2 =
                    sIns (entriesOf f ++ entriesOfSeps seps) key value
                  rw [sIns_append_left _ _ _ _ hfgt, hent2]
            | grew S2 =>
                rw [hx] at hwalk
                obtain ⟨hw2, hbnd2, hlen2, hhd2, hent2, hnot2⟩ := hwalk
                have hnotall : key ∉
                    ((entriesOf f ++ entriesOfSeps seps).map Prod.fst) := by
                  rw [List.map_append]
                  intro hmem
                  rcases List.mem_append.1 hmem with h1 | h2
                  · obtain ⟨e, he, hek⟩ := List.mem_map.1 h1
                    have hy := hfgt e he
                    omega
                  · exact hnot2 h2
                cases S2 with
                | nil => simp at hlen2
                | cons p2 S2t =>
                    obtain ⟨k2, c2⟩ := p2
                    have hslen : 0 < seps.length := by omega
                    have hheq : sepsHeadHi seps hi = some k2 := by
                      rw [sepsHeadHi_eq_of_getD hi hslen (by simp) hhd2.symm]
                      rfl
                    have hspec := innerAfterChild_spec f k2 c2 S2t m im lo hi
                      hbnd2 ?_ ?_ hw2
                    rotate_left
                    · have hx2 := headKeyStrict_getD hslen hstr
                      rw [← hhd2] at hx2
                      exact hx2
                    · rw [← hheq]
                      exact hf
                    dsimp only
                    cases hy : innerAfterChild f ((k2, c2) :: S2t) m im with
                    | dup =>
                        rw [hy] at hspec
                        exact hspec.elim
                    | one t2 =>
                        rw [hy] at hspec
                        refine ⟨hspec.1, ?_, hnotall⟩
                        rw [hspec.2, hent2]
                        show entriesOf f ++ sIns (entriesOfSeps seps) key value =
                          sIns (entriesOf f ++ entriesOfSeps seps) key value
                        rw [sIns_append_left _ _ _ _ hfgt]
                    | split l2 sep2 r2 =>
                        rw [hy] at hspec
                        obtain ⟨hq1, hq2, hq3, hq4, hq5⟩ := hspec
                        refine ⟨hq1, hq2, hq3, hq4, ?_, hnotall⟩
                        rw [hq5, hent2]
                        show entriesOf f ++ sIns (entriesOfSeps seps) key value =
                          sIns (entriesOf f ++ entriesOfSeps seps) key value
                        rw [sIns_append_left _ _ _ _ hfgt]

theorem wfState_of_check {t : BPT} (h : wfCheck t = true) : WFState t := by
  intro r hr
  unfold wfCheck at h
  rw [hr] at h
  exact h

theorem treeEntries_sorted (t : BPT) (hwf : WFState t) :
    (treeEntries t).Pairwise (fun a b => a.1 < b.1) := by
  cases hroot : t.root with
  | none =>
      unfold treeEntries
      rw [hroot]
      exact List.Pairwise.nil
  | some r =>
      unfold treeEntries
      rw [hroot]
      exact (wfB_entries (sizeOfN r) r (le_refl _) none none (hwf r hroot)).1

/-- `Insert` of a fresh key on a well-formed tree succeeds, keeps the
tree well-formed, and inserts the pair at its sorted position. -/
theorem Insert_fresh (t : BPT) (key value : Int) (hlm : 2 ≤ t.leaf_max_size)
    (hwf : WFState t) (hkey : key ∉ (treeEntries t).map Prod.fst) :
    (Insert t key value).1 = true ∧
    ∃ r2, (Insert t key value).2.root = some r2 ∧ wfB none none r2 = true ∧
      entriesOf r2 = sIns (treeEntries t) key value := by
  cases hroot : t.root with
  | none =>
      have h1 : leafInsert [] key value = [(key, value)] := by
        simp [leafInsert]
      have hte : treeEntries t = [] := by
        unfold treeEntries
        rw [hroot]
      unfold Insert
      rw [hroot]
      dsimp only
      refine ⟨rfl, .leaf (leafInsert [] key value) t.leaf_max_size, rfl, ?_, ?_⟩
      · rw [wfB_leaf_iff, h1]
        refine ⟨List.pairwise_singleton _ _, ?_, by omega⟩
        intro e he
        exact ⟨rfl, rfl⟩
      · show leafInsert [] key value = sIns (treeEntries t) key value
        rw [h1, hte]
        simp [sIns]
  | some r =>
      have hwr : wfB none none r = true := hwf r hroot
      have hspec := insertAux_spec t.leaf_max_size t.internal_max_size hlm
        (sizeOfN r) r (le_refl _) none none key value hwr rfl rfl
      have hte : treeEntries t = entriesOf r := by
        unfold treeEntries
        rw [hroot]
      rw [hte] at hkey
      unfold Insert
      rw [hroot]
      dsimp only
      cases hx : insertAux t.leaf_max_size t.internal_max_size r key value with
      | dup =>
          rw [hx] at hspec
          exact absurd hspec hkey
      | one r2 =>
          rw [hx] at hspec
          obtain ⟨h1, h2, h3⟩ := hspec
          refine ⟨rfl, r2, rfl, h1, ?_⟩
          rw [h2, hte]
      | split l sep rr =>
          rw [hx] at hspec
          obtain ⟨h1, h2, h3, h4, h5, h6⟩ := hspec
          refine ⟨rfl, .inner l [(sep, rr)] t.internal_max_size, rfl, ?_, ?_⟩
          · rw [wfB_inner_iff]
            refine ⟨?_, rfl, h1, ?_⟩
            · intro p hp
              rw [List.mem_singleton] at hp
              rw [hp]
              exact ⟨rfl, rfl⟩
            · rw [wfSepsB_cons_iff]
              exact ⟨h2, rfl, rfl⟩
          · show entriesOf l ++ (entriesOf rr ++ []) =
              sIns (treeEntries t) key value
            rw [List.append_nil, h5, hte]

/-- **C1**.  If `Insert(k, v)` on a well-formed tree (stored leaf
capacity at least 2, i.e. constructor argument `leaf_max_size ≥ 3`)
returns true, an immediately following `GetValue(k)` with an empty result
vector returns true with result `[v]`. -/
theorem insert_getValue (t : BPT) (k v : Int) (hlm : 2 ≤ t.leaf_max_size)
    (hwf : WFState t) (hret : (Insert t k v).1 = true) :
    GetValue (Insert t k v).2 k [] = (true, [v]) := by
  by_cases hkey : k ∈ (treeEntries t).map Prod.fst
  · exfalso
    cases hroot : t.root with
    | none =>
        unfold treeEntries at hkey
        rw [hroot] at hkey
        simp at hkey
    | some r =>
        have hwr : wfB none none r = true := hwf r hroot
        have hspec := insertAux_spec t.leaf_max_size t.internal_max_size hlm
          (sizeOfN r) r (le_refl _) none none k v hwr rfl rfl
        have hte : treeEntries t = entriesOf r := by
          unfold treeEntries
          rw [hroot]
        rw [hte] at hkey
        unfold Insert at hret
        rw [hroot] at hret
        dsimp only at hret
        cases hx : insertAux t.leaf_max_size t.internal_max_size r k v with
        | dup =>
            rw [hx] at hret
            simp at hret
        | one r2 =>
            rw [hx] at hspec
            exact hspec.2.2 hkey
        | split l sep rr =>
            rw [hx] at hspec
            exact hspec.2.2.2.2.2 hkey
  · obtain ⟨hret2, r2, hr2, hwf2, hent2⟩ := Insert_fresh t k v hlm hwf hkey
    unfold GetValue
    rw [hr2]
    dsimp only
    rw [getAux_spec (sizeOfN r2) r2 (le_refl _) none none k hwf2 rfl rfl]
    rw [hent2, findKey_sIns_self _ _ _ (treeEntries_sorted t hwf)]
    rfl

/-- Closed instance of `insert_getValue`: inserting key 5 into the tree
holding 1, 2, 3 and reading it back. -/
theorem insert_getValue_witness :
    2 ≤ c1tree.leaf_max_size ∧ WFState c1tree ∧
    (Insert c1tree 5 105).1 = true ∧
    GetValue (Insert c1tree 5 105).2 5 [] = (true, [105]) := by
  have hwf : WFState c1tree := wfState_of_check (by decide)
  exact ⟨by decide, hwf, by decide,
    insert_getValue c1tree 5 105 (by decide) hwf (by decide)⟩

/-- **C2**.  Inserting a key already present in a well-formed tree
returns false and leaves the whole tree object untouched. -/
theorem insert_duplicate (t : BPT) (k v2 : Int) (hlm : 2 ≤ t.leaf_max_size)
    (hwf : WFState t) (hk : k ∈ (treeEntries t).map Prod.fst) :
    Insert t k v2 = (false, t) := by
  cases hroot : t.root with
  | none =>
      unfold treeEntries at hk
      rw [hroot] at hk
      simp at hk
  | some r =>
      have hwr : wfB none none r = true := hwf r hroot
      have hspec := insertAux_spec t.leaf_max_size t.internal_max_size hlm
        (sizeOfN r) r (le_refl _) none none k v2 hwr rfl rfl
      have hte : treeEntries t = entriesOf r := by
        unfold treeEntries
        rw [hroot]
      rw [hte] at hk
      unfold Insert
      rw [hroot]
      dsimp only
      cases hx : insertAux t.leaf_max_size t.internal_max_size r k v2 with
      | dup => rfl
      | one r2 =>
          rw [hx] at hspec
          exact absurd hk hspec.2.2
      | split l sep rr =>
          rw [hx] at hspec
          exact absurd hk hspec.2.2.2.2.2

/-- Closed instance of `insert_duplicate`: re-inserting key 2 into the
tree holding 1, 2, 3. -/
theorem insert_duplicate_witness :
    2 ≤ c1tree.leaf_max_size ∧ WFState c1tree ∧
    2 ∈ (treeEntries c1tree).map Prod.fst ∧
    Insert c1tree 2 999 = (false, c1tree) := by
  have hwf : WFState c1tree := wfState_of_check (by decide)
  exact ⟨by decide, hwf, by decide,
    insert_duplicate c1tree 2 999 (by decide) hwf (by decide)⟩

/-- **C3** (corrected).  On a non-empty well-formed tree, `GetValue`
returns whether the key is bound, and pushes into the result vector
*unconditionally*: the stored value on a hit, the default-constructed
record id on a miss — the vector always grows by one element. -/
theorem getValue_spec (t : BPT) (k : Int) (res : List Int) (hwf : WFState t)
    (r : Node) (hr : t.root = some r) :
    GetValue t k res =
      ((findKey (entriesOf r) k).isSome,
        res ++ [(findKey (entriesOf r) k).getD ridDefault]) := by
  unfold GetValue
  rw [hr]
  dsimp only
  rw [getAux_spec (sizeOfN r) r (le_refl _) none none k (hwf r hr) rfl rfl]
  cases hf : findKey (entriesOf r) k with
  | none => rfl
  | some v => rfl

/-- **C3** (the claim's "miss leaves results unchanged" fails): on the
tree {1 ↦ 101}, `GetValue 2` starting from `[]` returns false yet the
result vector becomes `[0]` — one default record id was appended. -/
theorem getValue_miss_appends :
    GetValue c3tree 2 [] = (false, [ridDefault]) ∧
    (GetValue c3tree 2 []).2 ≠ ([] : List Int) := by
  refine ⟨by decide, by decide⟩

/-- Closed instance of `getValue_spec` at the miss above. -/
theorem getValue_spec_witness :
    WFState c3tree ∧ c3tree.root = some (.leaf [(1, 101)] 2) ∧
    GetValue c3tree 2 [] = (false, [ridDefault]) := by
  have hwf : WFState c3tree := wfState_of_check (by decide)
  refine ⟨hwf, rfl, ?_⟩
  have h := getValue_spec c3tree 2 [] hwf (.leaf [(1, 101)] 2) rfl
  rw [h]
  decide

end BPlusTree

/-- **C5**.  Evaluating `Redistribute` at a concrete leaf redistribution
with `index = 1 > 0`: because the source's leaf `MoveLastToFrontOf` has an
empty body, the sibling keeps size 3 (the claim requires 2), the node keeps
size 1 with front `(5,50)` (the claim requires size 2 with front `(3,30)`),
and the parent's separator for the node stays `5` (the claim requires `3`).
The claim holds for internal pages but fails for leaf pages. -/
theorem redistribute_leaf_movelast_stub_noop :
    (RedistributeLeaf c5neighbor c5node c5parent 1).1.size = 3 ∧
    (RedistributeLeaf c5neighbor c5node c5parent 1).2.1.size = 1 ∧
    (RedistributeLeaf c5neighbor c5node c5parent 1).2.1.array 0 = (5, 50) ∧
    (RedistributeLeaf c5neighbor c5node c5parent 1).2.2.array 1 = (5, 5) := by
  refine ⟨rfl, rfl, ?_, ?_⟩ <;> decide

/-- **C6**.  `MoveHalfTo` on a leaf with `size = max_size + 1` and an empty
recipient: with `total = max_size + 1` and `copyIdx = total / 2`, the
recipient receives the upper `total - copyIdx` entries in order, the
source keeps its lower entries (its array is untouched) with size
`copyIdx`, and the next pointers are relinked to
`source → recipient → old next`. -/
theorem leaf_moveHalfTo_spec (page recipient : BPlusTreeLeafPage.LeafPage)
    (hsz : page.size = page.maxSize + 1) (hrec : recipient.size = 0) :
    ((BPlusTreeLeafPage.MoveHalfTo page recipient).2.size =
        (page.maxSize + 1) - Int.tdiv (page.maxSize + 1) 2) ∧
    ((BPlusTreeLeafPage.MoveHalfTo page recipient).1.size =
        Int.tdiv (page.maxSize + 1) 2) ∧
    (∀ i : Nat,
        (i : Int) < (page.maxSize + 1) - Int.tdiv (page.maxSize + 1) 2 →
        (BPlusTreeLeafPage.MoveHalfTo page recipient).2.array i =
          page.array (i + (Int.tdiv (page.maxSize + 1) 2).toNat)) ∧
    ((BPlusTreeLeafPage.MoveHalfTo page recipient).1.array = page.array) ∧
    ((BPlusTreeLeafPage.MoveHalfTo page recipient).1.nextPageId =
        recipient.pageId) ∧
    ((BPlusTreeLeafPage.MoveHalfTo page recipient).2.nextPageId =
        page.nextPageId) := by
  refine ⟨rfl, rfl, ?_, rfl, rfl, rfl⟩
  intro i hi
  exact copyUpper_lt page.array recipient.array _ _ (by omega)

/-- Closed instance of `leaf_moveHalfTo_spec` at `c6page`/`c6recipient`:
the recipient's slot 0 receives the source's slot 2 and the source keeps
size 2. -/
theorem leaf_moveHalfTo_spec_witness :
    c6page.size = c6page.maxSize + 1 ∧ c6recipient.size = 0 ∧
    (BPlusTreeLeafPage.MoveHalfTo c6page c6recipient).2.array 0 =
      c6page.array 2 ∧
    (BPlusTreeLeafPage.MoveHalfTo c6page c6recipient).1.size = 2 := by
  refine ⟨rfl, rfl, ?_, ?_⟩
  · have h := (leaf_moveHalfTo_spec c6page c6recipient rfl rfl).2.2.1 0
      (by decide)
    simpa using h
  · have h := (leaf_moveHalfTo_spec c6page c6recipient rfl rfl).2.1
    simpa using h
